import Mathlib

/-!
# objutil: the dual-tree walker, the path resolver and the operations built on them

A shallow embedding of `dist/objutil.amd.js`.

Conventions of the embedding.

* A JavaScript value is a `Val`: the primitives, `Error` objects, and objects that carry a
  class tag and the list of their own enumerable properties in enumeration order.  The keys
  of a property list are meant to be distinct (`wf`); an integer-like key of a new property is
  put where the language enumerates it, before the string keys and in ascending order.
* The inputs are trees: no object is reachable twice.  A function that mutates an argument in
  place returns the contents of that argument after the call.  A visitor may change the
  destination `a` it is handed; it does not change the source `b`.
* `in` and property reads see the members every object inherits from `Object.prototype`
  (`inheritedNames`), as function objects.  Not modelled: the accessor `__proto__` (but for
  the write of a string to it in `invert`, which creates no property), the `length` and the
  methods particular to lists, maps and functions, the properties of `Error` objects, dates
  and other exotic objects, floating point numbers other than `NaN`.  On trees of plain
  records and keys other than `__proto__` (`plain`, `plainPath`) the tests, reads, writes and
  deletions of the embedding are those of the language; a theorem whose statement would not
  hold of the code outside them is stated under these hypotheses.
* The file is compiled in strict mode (`'use strict'` heads the module function), so a write
  to a property of a primitive raises a `TypeError`.
* What the code throws is an `Except.error`; `Thrown.unmodelled` marks a call whose result
  the embedding does not know.
-/

namespace Objutil

/-! ## Values -/

/-- The class tags that matter: `[object Object]`, `[object Array]`, `[object Map]` and
`[object Function]`. -/
inductive Tag
  | record | list | map | func
deriving DecidableEq

/-- JavaScript values, objects by their own enumerable properties. -/
inductive Val
  | undefined
  | null
  | bool (b : Bool)
  | num (n : Int)
  | nan
  | str (s : String)
  | error (msg : String)
  | obj (tag : Tag) (props : List (String × Val))

abbrev Props := List (String × Val)

/-- What an operation throws. `unmodelled` stands for a call of a function object whose body
the model does not know. -/
inductive Thrown
  | typeError (msg : String)
  | unmodelled
deriving DecidableEq

mutual
/-- Structural equality of values, as a boolean. -/
def Val.beq : Val → Val → Bool
  | .undefined, .undefined => true
  | .null, .null => true
  | .bool a, .bool b => a == b
  | .num a, .num b => a == b
  | .nan, .nan => true
  | .str a, .str b => a == b
  | .error a, .error b => a == b
  | .obj t ps, .obj u qs => t == u && Val.beqProps ps qs
  | _, _ => false
/-- Structural equality of property lists. -/
def Val.beqProps : Props → Props → Bool
  | [], [] => true
  | (k, v) :: r, (k2, v2) :: r2 => k == k2 && Val.beq v v2 && Val.beqProps r r2
  | _, _ => false
end

/-- The empty record `{}`. -/
def emptyRecord : Val := .obj .record []

/-- A function object without enumerable properties, such as the built-in methods. -/
def builtinFn : Val := .obj .func []

/-- The result of `typeof`. -/
def typeOf : Val → String
  | .undefined => "undefined"
  | .null => "object"
  | .bool _ => "boolean"
  | .num _ => "number"
  | .nan => "number"
  | .str _ => "string"
  | .error _ => "object"
  | .obj .func _ => "function"
  | .obj _ _ => "object"

/-- The name in `{}.toString.call(v)`, which is `[object <name>]`. -/
def classOf : Val → String
  | .undefined => "Undefined"
  | .null => "Null"
  | .bool _ => "Boolean"
  | .num _ => "Number"
  | .nan => "Number"
  | .str _ => "String"
  | .error _ => "Error"
  | .obj .record _ => "Object"
  | .obj .list _ => "Array"
  | .obj .map _ => "Map"
  | .obj .func _ => "Function"

/-- Truthiness, the result of `!!v`. -/
def truthy : Val → Bool
  | .undefined => false
  | .null => false
  | .bool b => b
  | .num n => n != 0
  | .nan => false
  | .str s => s != ""
  | .error _ => true
  | .obj _ _ => true

/-- The function `is`: the class tag check. -/
def is (val : Val) (type : String) : Bool := classOf val == type

/-- The function `isIterable`. -/
def isIterable (v : Val) : Bool := is v "Object" || is v "Array" || is v "Map"

/-- The test `/obj|func/.test(s)` on the strings `typeof` can give. -/
def matchesObjFunc (s : String) : Bool := s == "object" || s == "function"

/-- The function `isPrimitive`. -/
def isPrimitive (val : Val) : Bool := !matchesObjFunc (typeOf val) || !truthy val

/-! ## Properties -/

/-- The names every object inherits from `Object.prototype`; all are methods. -/
def inheritedNames : List String :=
  ["constructor", "hasOwnProperty", "isPrototypeOf", "propertyIsEnumerable",
   "toLocaleString", "toString", "valueOf", "__defineGetter__", "__defineSetter__",
   "__lookupGetter__", "__lookupSetter__"]

/-- Whether a key names an inherited member. -/
def inherited (k : String) : Bool := inheritedNames.contains k

/-- The value of the own property `k`, if there is one. -/
def ownLookup : Props → String → Option Val
  | [], _ => none
  | (k2, v) :: r, k => if k2 = k then some v else ownLookup r k

/-- The function `own`, `hasOwnProperty`, on a property list. -/
def hasOwn (ps : Props) (k : String) : Bool := (ownLookup ps k).isSome

/-- The own enumerable properties of a value. -/
def propsOf : Val → Props
  | .obj _ ps => ps
  | _ => []

/-- The read `v[k]` for a value other than `undefined` and `null`: the own property, else the
inherited method, else `undefined`. -/
def propOf (v : Val) (k : String) : Val :=
  match ownLookup (propsOf v) k with
  | some x => x
  | none => if inherited k then builtinFn else .undefined

/-- The read `v[k]`, which throws on `undefined` and `null`. -/
def readProp (v : Val) (k : String) : Except Thrown Val :=
  match v with
  | .undefined => .error (.typeError "Cannot read properties of undefined")
  | .null => .error (.typeError "Cannot read properties of null")
  | _ => .ok (propOf v k)

/-- The test `k in v` for an object `v`. -/
def hasProp (v : Val) (k : String) : Bool := hasOwn (propsOf v) k || inherited k

/-- The test `k in v`, which throws when `v` is not an object. -/
def inOp (k : String) (v : Val) : Except Thrown Bool :=
  match v with
  | .obj _ _ => .ok (hasProp v k)
  | .error _ => .ok (inherited k)
  | _ => .error (.typeError "Cannot use 'in' operator")

/-- The array index a key denotes, if it is the canonical numeral of one. -/
def arrayIndex (k : String) : Option Nat :=
  let cs := k.toList
  if cs.all Char.isDigit && !cs.isEmpty && (cs.head? != some '0' || cs.length == 1) then
    let n := cs.foldl (fun acc c => acc * 10 + (c.toNat - 48)) 0
    if n < 4294967295 then some n else none
  else none

/-- Overwrite the own property `k`, which keeps its place. -/
def replaceOwn : Props → String → Val → Props
  | [], _, _ => []
  | (k2, v2) :: r, k, v => if k2 = k then (k2, v) :: r else (k2, v2) :: replaceOwn r k v

/-- Put a new integer-like key in its place among the integer-like keys. -/
def insertIndex (n : Nat) (k : String) (v : Val) : Props → Props
  | [] => [(k, v)]
  | (k2, v2) :: r =>
    match arrayIndex k2 with
    | some m => if n < m then (k, v) :: (k2, v2) :: r else (k2, v2) :: insertIndex n k v r
    | none => (k, v) :: (k2, v2) :: r

/-- Add a property whose key is new. -/
def addOwn (ps : Props) (k : String) (v : Val) : Props :=
  match arrayIndex k with
  | some n => insertIndex n k v ps
  | none => ps ++ [(k, v)]

/-- The property list after `o[k] = v`. -/
def putOwn (ps : Props) (k : String) (v : Val) : Props :=
  if hasOwn ps k then replaceOwn ps k v else addOwn ps k v

/-- The property list after `delete o[k]`. -/
def removeOwn : Props → String → Props
  | [], _ => []
  | (k2, v2) :: r, k => if k2 = k then removeOwn r k else (k2, v2) :: removeOwn r k

/-- The object after `o[k] = v`; on a value that is no object nothing is stored. -/
def store (o : Val) (k : String) (v : Val) : Val :=
  match o with
  | .obj t ps => .obj t (putOwn ps k v)
  | x => x

/-- The write `a[k] = v` in strict mode. -/
def assignProp (a : Val) (k : String) (v : Val) : Except Thrown Val :=
  match a with
  | .obj t ps => .ok (.obj t (putOwn ps k v))
  | .error m => .ok (.error m)
  | _ => .error (.typeError "Cannot create property")

/-- The statement `delete a[k]` in strict mode. The characters of a string and the properties
of an `Error` object are not modelled. -/
def deleteProp (a : Val) (k : String) : Except Thrown Val :=
  match a with
  | .obj t ps => .ok (.obj t (removeOwn ps k))
  | .undefined => .error (.typeError "Cannot convert undefined or null to object")
  | .null => .error (.typeError "Cannot convert undefined or null to object")
  | .str _ => .error .unmodelled
  | .error _ => .error .unmodelled
  | x => .ok x

mutual
/-- Well-formed values: at every level the keys of a property list are distinct. -/
def wf : Val → Bool
  | .obj _ ps => wfProps ps
  | _ => true
/-- Well-formed property lists. -/
def wfProps : Props → Bool
  | [] => true
  | (k, v) :: r => !hasOwn r k && wf v && wfProps r
end

/-! ## Plain trees -/

/-- A key other than `__proto__`. -/
def plainKey (k : String) : Bool := k != "__proto__"

mutual
/-- Plain values, on which `in`, the reads and the writes of the embedding are those of the
language: the primitives, `Error` objects, functions, and records none of whose keys is
`__proto__` and whose values are plain. A list or a map is not plain, as the members they
inherit and the `length` of a list are not modelled. -/
def plain : Val → Bool
  | .obj .record ps => plainProps ps
  | .obj .func _ => true
  | .obj _ _ => false
  | _ => true
/-- Plain property lists. -/
def plainProps : Props → Bool
  | [] => true
  | (k, v) :: r => plainKey k && plain v && plainProps r
end

/-- A path none of whose keys is `__proto__`. -/
def plainPath (p : List String) : Bool := p.all plainKey

/-! ## Paths -/

/-- A path argument: a dotted string or a sequence of keys. -/
inductive Path
  | dotted (s : String)
  | keys (ks : List String)

/-- The split of a string at every `.`, on characters. -/
def splitDots : List Char → List (List Char)
  | [] => [[]]
  | c :: r =>
    if c = '.' then [] :: splitDots r
    else match splitDots r with
      | h :: t => (c :: h) :: t
      | [] => [[c]]

/-- The function `getPath`. -/
def getPath : Path → List String
  | .dotted s => (splitDots s.toList).map String.mk
  | .keys ks => ks

/-! ## The path resolver -/

/-- The loop of `get`: the value the path leads to, or `none` at the first step whose node
is no container or lacks the key. -/
def getWalk (n : Val) : List String → Option Val
  | [] => some n
  | k :: rest =>
    if !isIterable n || !hasProp n k then none else getWalk (propOf n k) rest

/-- The one-element array `[n]`. -/
def hitArr (n : Val) : Val := .obj .list [("0", n)]

/-- The array `[undefined, 1]`. -/
def missArr : Val := .obj .list [("0", .undefined), ("1", .num 1)]

/-- The function `get`. -/
def get (obj : Val) (path : Path) (errNotFound : Bool) : Val :=
  match getWalk obj (getPath path) with
  | none => if errNotFound then .error "NotFound" else missArr
  | some n => if errNotFound then n else hitArr n

/-- The loop of `set` with the last assignment, at node `n`: whether the walk failed and
the contents of `n` afterwards. -/
def setWalk (n : Val) : List String → Val → Bool × Val
  | [], _ => (false, n)
  | [k], value => (false, store n k value)
  | k :: k2 :: rest, value =>
    if !isIterable (propOf n k) then
      if hasProp n k then (true, n)
      else
        let r := setWalk emptyRecord (k2 :: rest) value
        (r.1, store n k r.2)
    else
      let r := setWalk (propOf n k) (k2 :: rest) value
      (r.1, store n k r.2)

/-- The value `new Error('cannot set non-object path')` by which `set` signals failure. -/
def setFailure : Val := .error "cannot set non-object path"

/-- The function `set`: the returned value and the contents of `obj` after the call. -/
def set (obj : Val) (path : Path) (value : Val) : Val × Val :=
  if !isIterable obj || (getPath path).isEmpty then (obj, obj)
  else
    let r := setWalk obj (getPath path) value
    if r.1 then (setFailure, r.2) else (r.2, r.2)

/-! ## The dual-tree walker -/

/-- A visitor `callback(a, b, key, path)` together with the state `σ` it closes over: from the
state before and its four arguments it gives the state afterwards, the destination node `a` as
it leaves it and the value it returns, or it throws. -/
abbrev Visitor (σ : Type) :=
  σ → Val → Val → String → List String → Except Thrown (σ × Val × Val)

/-- What a visitor can do to the node it was handed: change the properties of an object. -/
def commit (a a1 : Val) : Val :=
  match a, a1 with
  | .obj t _, .obj _ ps => .obj t ps
  | _, _ => a

/-- The test `r === false`. -/
def isExactlyFalse : Val → Bool
  | .bool false => true
  | _ => false

mutual
/-- The function `deepIt`: the state of the visitor and the contents of `a` after the walk.
The keys of `b` are its own enumerable properties in enumeration order. -/
def deepIt {σ : Type} (cb : Visitor σ) (s : σ) (a b : Val) (path : List String) :
    Except Thrown (σ × Val) :=
  if isPrimitive b then .ok (s, a)
  else match b with
    | .obj _ ps => deepItKeys cb s a b ps path
    | _ => .ok (s, a)
/-- The loop of `deepIt` over the remaining keys of `b`. -/
def deepItKeys {σ : Type} (cb : Visitor σ) (s : σ) (a b : Val) (keys : Props)
    (path : List String) : Except Thrown (σ × Val) :=
  match keys with
  | [] => .ok (s, a)
  | (key, bv) :: rest =>
    match cb s a b key path with
    | .error e => .error e
    | .ok (s1, a1, r) =>
      if isExactlyFalse r then .ok (s1, commit a a1)
      else if isIterable bv then
        match readProp (commit a a1) key with
        | .error e => .error e
        | .ok ak =>
          if isIterable ak then
            match deepIt cb s1 ak bv (path ++ [key]) with
            | .error e => .error e
            | .ok (s2, ak2) => deepItKeys cb s2 (store (commit a a1) key ak2) b rest path
          else deepItKeys cb s1 (commit a a1) b rest path
      else deepItKeys cb s1 (commit a a1) b rest path
end

/-- One call of the visitor as an observer records it: the path and the key it was given and
the value it returned. -/
structure Visit where
  path : List String
  key : String
  ret : Val

/-- The visitor `cb` observed: every call that returns is appended to a log. -/
def logged {σ : Type} (cb : Visitor σ) : Visitor (σ × List Visit) :=
  fun s a b key path =>
    match cb s.1 a b key path with
    | .error e => .error e
    | .ok (s1, a1, r) => .ok ((s1, s.2 ++ [⟨path, key, r⟩]), a1, r)

/-- The keys on which a log shows the visitor called with the path `path`, in order. -/
def visitsAt (log : List Visit) (path : List String) : List String :=
  (log.filter (fun e => decide (e.path = path))).map Visit.key

/-- The test `v == null`: `undefined` or `null`. -/
def isNullish : Val → Bool
  | .undefined => true
  | .null => true
  | _ => false

/-- A visitor that always returns, and never returns `false`. -/
def NeverStops {σ : Type} (cb : Visitor σ) : Prop :=
  ∀ s a b key path, ∃ s1 a1 r, cb s a b key path = .ok (s1, a1, r) ∧ isExactlyFalse r = false

/-- A visitor that does nothing and returns `undefined`. -/
def idleVisitor : Visitor Unit := fun s a _ _ _ => .ok (s, a, .undefined)

/-- The log entry erased from the result of an observed walk. -/
def eraseLog {σ : Type} (x : (σ × List Visit) × Val) : σ × Val := (x.1.1, x.2)

/-- A visitor that returns `false` on the key `k` and `undefined` on every other key. -/
def stopAtVisitor (k : String) : Visitor Unit :=
  fun s a _ key _ => .ok (s, a, if key = k then .bool false else .undefined)

/-! ## The operations `assign`, `merge` and `defaults` -/

/-- The constant `ERR_NULL_TARGET`. -/
def errNullTarget : String := "null target"

/-- The loop of `_assignHelper`: the walk of the target along each source in turn. -/
def assignLoop (cb : Visitor Unit) : Val → List Val → Except Thrown Val
  | target, [] => .ok target
  | target, src :: rest =>
    match deepIt cb () target src [] with
    | .error e => .error e
    | .ok (_, t2) => assignLoop cb t2 rest

/-- The function `_assignHelper`, on the target and the arguments after it: the contents of
the target, which it returns, after the call. -/
def assignHelper (target : Val) (sources : List Val) (cb : Visitor Unit) : Except Thrown Val :=
  if isNullish target then .error (.typeError errNullTarget)
  else assignLoop cb target sources

/-- The visitor of `assign`: `a[key] = b[key]`. -/
def assignCb : Visitor Unit := fun s a b key _ =>
  match assignProp a key (propOf b key) with
  | .error e => .error e
  | .ok a1 => .ok (s, a1, .undefined)

/-- The function `assign`. -/
def assign (target : Val) (sources : List Val) : Except Thrown Val :=
  assignHelper target sources assignCb

/-- The test `v !== undefined`. -/
def isDefined : Val → Bool
  | .undefined => false
  | _ => true

/-- The call `v.constructor()` on a value that is no primitive: `Object()`, `Array()` and
`Function()` make an empty object of their kind, `Error()` an error without message, `Map()`
without `new` throws; an own property `constructor` shadows the inherited one. -/
def construct (v : Val) : Except Thrown Val :=
  match v with
  | .obj t ps =>
    match ownLookup ps "constructor" with
    | some (.obj .func _) => .error .unmodelled
    | some _ => .error (.typeError "constructor is not a function")
    | none =>
      match t with
      | .record => .ok (.obj .record [])
      | .list => .ok (.obj .list [])
      | .func => .ok (.obj .func [])
      | .map => .error (.typeError "Constructor Map requires 'new'")
  | .error _ => .ok (.error "")
  | _ => .error .unmodelled

/-- The visitor of `merge`. -/
def mergeCb : Visitor Unit := fun s a b key _ =>
  let bval := propOf b key
  if isDefined bval && isPrimitive bval then
    match assignProp a key bval with
    | .error e => .error e
    | .ok a1 => .ok (s, a1, .undefined)
  else
    match inOp key a with
    | .error e => .error e
    | .ok true => .ok (s, a, .undefined)
    | .ok false =>
      if truthy bval then
        match construct bval with
        | .error e => .error e
        | .ok c =>
          match assignProp a key c with
          | .error e => .error e
          | .ok a1 => .ok (s, a1, .undefined)
      else
        match assignProp a key bval with
        | .error e => .error e
        | .ok a1 => .ok (s, a1, .undefined)

/-- The function `merge`. -/
def merge (target : Val) (sources : List Val) : Except Thrown Val :=
  assignHelper target sources mergeCb

/-- The visitor of `defaults`: `if (!(key in a)) a[key] = b[key]`. -/
def defaultsCb : Visitor Unit := fun s a b key _ =>
  match inOp key a with
  | .error e => .error e
  | .ok true => .ok (s, a, .undefined)
  | .ok false =>
    match assignProp a key (propOf b key) with
    | .error e => .error e
    | .ok a1 => .ok (s, a1, .undefined)

/-- The function `defaults`: a falsy target is replaced by a new record. -/
def defaults (target : Val) (sources : List Val) : Except Thrown Val :=
  assignHelper (if truthy target then target else emptyRecord) sources defaultsCb

/-- A visitor that never returns `false`. -/
def NoFalse {σ : Type} (cb : Visitor σ) : Prop :=
  ∀ s a b key path s1 a1 r, cb s a b key path = .ok (s1, a1, r) → isExactlyFalse r = false

/-- A visitor that changes no property of `a` other than `a[key]`. -/
def TouchesOnlyKey {σ : Type} (cb : Visitor σ) : Prop :=
  ∀ s a b key path s1 a1 r, cb s a b key path = .ok (s1, a1, r) →
    ∀ k, k ≠ key → ownLookup (propsOf (commit a a1)) k = ownLookup (propsOf a) k

/-- A visitor that never throws when `a` is an object. -/
def ReturnsOnObjects {σ : Type} (cb : Visitor σ) : Prop :=
  ∀ s t ps b key path, ∃ s1 a1 r, cb s (.obj t ps) b key path = .ok (s1, a1, r)

/-! ## The operations `ensure` and `unset` -/

/-- The function `ensure`: the returned value and the contents of `obj` after the call. -/
def ensure (obj : Val) (path : Path) (defaultValue : Val) : Val × Val :=
  let p := Path.keys (getPath path)
  let arr := get obj p false
  if truthy (propOf arr "1") then set obj p defaultValue else (.undefined, obj)

/-- The object after `delete o[k]`, for a container `o`. -/
def dropProp (o : Val) (k : String) : Val :=
  match o with
  | .obj t ps => .obj t (removeOwn ps k)
  | x => x

/-- The contents of `n` after `delete` of the last key of the path at the node the keys
before it lead to. -/
def deleteAt (n : Val) : List String → Val
  | [] => n
  | [k] => dropProp n k
  | k :: k2 :: rest => store n k (deleteAt (propOf n k) (k2 :: rest))

/-- The function `unset`: the returned value and the contents of `obj` after the call. -/
def unset (obj : Val) (path : Path) : Val × Val :=
  let p := getPath path
  if !isIterable obj || p.isEmpty then (.undefined, obj)
  else
    let arr := get obj (.keys p.dropLast) false
    if truthy (propOf arr "1") || !isIterable (propOf arr "0") then (.bool false, obj)
    else (.bool true, deleteAt obj p)

/-! ## The operation `invert` -/

/-- The property key a primitive value denotes, `String(v)`. Integers are printed in decimal
notation below `10^21` in magnitude; what is printed beyond is not modelled (`none`), and the
function is applied to primitives only. -/
def toKey : Val → Option String
  | .undefined => some "undefined"
  | .null => some "null"
  | .bool true => some "true"
  | .bool false => some "false"
  | .num n => if n.natAbs < 10 ^ 21 then some (toString n) else none
  | .nan => some "NaN"
  | .str s => some s
  | _ => none

/-- The visitor of `invert`: `if (isPrimitive(b[key])) a[b[key]] = key`. The write of a
string to the key `__proto__` of a record goes to the inherited accessor, which ignores a
value that is no object: no property is created. -/
def invertCb : Visitor Unit := fun s a b key _ =>
  if isPrimitive (propOf b key) then
    match toKey (propOf b key) with
    | none => .error .unmodelled
    | some k =>
      if k = "__proto__" then .ok (s, a, .undefined)
      else
        match assignProp a k (.str key) with
        | .error e => .error e
        | .ok a1 => .ok (s, a1, .undefined)
  else .ok (s, a, .undefined)

/-- The function `invert`: the new record it returns. -/
def invert (obj : Val) : Except Thrown Val :=
  match deepIt invertCb () emptyRecord obj [] with
  | .error e => .error e
  | .ok (_, newObj) => .ok newObj

/-! ## The operation `isEqual` -/

/-- The comparison `x === y` when one operand at least is a primitive: the same type and the
same value, and `NaN` equal to nothing. The identity of objects is not modelled, and the
function is applied only when one operand is a primitive. -/
def strictEq : Val → Val → Bool
  | .undefined, .undefined => true
  | .null, .null => true
  | .bool a, .bool b => a == b
  | .num a, .num b => a == b
  | .str a, .str b => a == b
  | _, _ => false

/-- The number a string denotes, for the empty string and for at most fifteen decimal digits;
other strings are not modelled. -/
def digitsValue (s : String) : Option Int :=
  let cs := s.toList
  if cs.all Char.isDigit && cs.length ≤ 15 then
    some (Int.ofNat (cs.foldl (fun acc c => acc * 10 + (c.toNat - 48)) 0))
  else none

/-- The conversion to a number of a primitive other than `undefined` and `null`, where the
model knows it. -/
def toNumber : Val → Option Val
  | .bool b => some (.num (if b then 1 else 0))
  | .num n => some (.num n)
  | .nan => some .nan
  | .str s => (digitsValue s).map Val.num
  | _ => none

/-- The comparison `x == y` when one operand at least is a primitive: `undefined` and `null`
equal each other and nothing else, primitives of one type compare as by `===`, primitives of
two types by their numbers. The conversion of an object to a primitive is not modelled
(`none`). -/
def looseEq (x y : Val) : Option Bool :=
  if isNullish x || isNullish y then some (isNullish x && isNullish y)
  else if !isPrimitive x || !isPrimitive y then none
  else if typeOf x == typeOf y then some (strictEq x y)
  else
    match toNumber x, toNumber y with
    | some a, some b => some (strictEq a b)
    | _, _ => none

/-- The visitor of `isEqual`, with the variable `equal` as its state. The properties of an
`Error` object are not modelled. -/
def isEqualCb (isStrict : Bool) : Visitor Bool := fun s a b key _ =>
  match a with
  | .obj _ _ =>
    if isPrimitive (propOf a key) || isPrimitive (propOf b key) then
      if isStrict then
        if !strictEq (propOf b key) (propOf a key) then .ok (false, a, .bool false)
        else .ok (s, a, .undefined)
      else
        match looseEq (propOf b key) (propOf a key) with
        | none => .error .unmodelled
        | some e => if !e then .ok (false, a, .bool false) else .ok (s, a, .undefined)
    else .ok (s, a, .undefined)
  | _ => .error .unmodelled

/-- The function `isEqual`. -/
def isEqual (x y : Val) (isStrict : Bool) : Except Thrown Bool :=
  if isPrimitive x || isPrimitive y then
    if isStrict then .ok (strictEq x y)
    else
      match looseEq x y with
      | none => .error .unmodelled
      | some e => .ok e
  else
    match deepIt (isEqualCb isStrict) true x y [] with
    | .error e => .error e
    | .ok (equal, _) => .ok equal

mutual
/-- No leaf of the value is `NaN`. -/
def noNaN : Val → Bool
  | .nan => false
  | .obj _ ps => noNaNProps ps
  | _ => true
/-- No leaf below the properties is `NaN`. -/
def noNaNProps : Props → Bool
  | [] => true
  | (_, v) :: r => noNaN v && noNaNProps r
end

mutual
/-- Structurally identical trees: containers of one class with the same keys, in whatever
order, holding structurally identical values, and equal values elsewhere. -/
def sameTree : Val → Val → Bool
  | .obj t ps, .obj u qs => t == u && sameProps ps qs && qs.all (fun e => hasOwn ps e.1)
  | .obj _ _, _ => false
  | x, y => Val.beq x y
/-- Every property of the first list has a structurally identical one in the second. -/
def sameProps : Props → Props → Bool
  | [], _ => true
  | (k, v) :: r, qs =>
    (match ownLookup qs k with
      | some w => sameTree v w
      | none => false) && sameProps r qs
end

/-! ## The operation `filter` -/

/-- The characters of `path.join('.')`. -/
def joinChars : List String → List Char
  | [] => []
  | [s] => s.toList
  | s :: s2 :: r => s.toList ++ '.' :: joinChars (s2 :: r)

/-- The string `path.join('.')`, for a list of strings. -/
def joinDots (path : List String) : String := String.mk (joinChars path)

/-- A predicate `predicate(value, key, path, parent)` by the truthiness of what it returns;
it is a function of its arguments and changes nothing. -/
abbrev Predicate := Val → String → List String → Val → Bool

/-- The visitor of `filter`, with the array `ret` as its state. -/
def filterCb (predicate : Predicate) : Visitor (List String) := fun s a _ key path =>
  .ok (if predicate (propOf a key) key path a then s ++ [joinDots (path ++ [key])] else s,
    a, .undefined)

/-- The function `filter`: the array it returns. -/
def filter (obj : Val) (predicate : Predicate) : Except Thrown (List String) :=
  match deepIt (filterCb predicate) [] obj obj [] with
  | .error e => .error e
  | .ok (ret, _) => .ok ret

mutual
/-- The key paths of a tree in the order of the walk: a key before the keys of its container
value, siblings in enumeration order. -/
def preorder : Val → List String → List (List String)
  | .obj _ ps, path => preorderProps ps path
  | _, _ => []
/-- The key paths below the properties, in the order of the walk. -/
def preorderProps : Props → List String → List (List String)
  | [], _ => []
  | (k, v) :: r, path =>
    (path ++ [k]) :: ((if isIterable v then preorder v (path ++ [k]) else [])
      ++ preorderProps r path)
end

/-- Whether the predicate holds of the value at a key path of `obj`, called as `filter` calls
it. -/
def holdsAt (obj : Val) (predicate : Predicate) (full : List String) : Bool :=
  match getWalk obj full.dropLast, full.getLast? with
  | some node, some k => predicate (propOf node k) k full.dropLast node
  | _, _ => false

/-- A key without a dot. -/
def dotFreeKey (k : String) : Bool := !k.toList.contains '.'

mutual
/-- No key of the tree contains a dot. -/
def dotFree : Val → Bool
  | .obj _ ps => dotFreeProps ps
  | _ => true
/-- No key below the properties contains a dot. -/
def dotFreeProps : Props → Bool
  | [] => true
  | (k, v) :: r => dotFreeKey k && dotFree v && dotFreeProps r
end

/-! ## The operation `remove` -/

/-- The visitor of `remove`: `if (isPrimitive(b[key]) && (force || b[key])) delete a[key]`. -/
def removeCb (force : Bool) : Visitor Unit := fun s a b key _ =>
  if isPrimitive (propOf b key) && (force || truthy (propOf b key)) then
    match deleteProp a key with
    | .error e => .error e
    | .ok a1 => .ok (s, a1, .undefined)
  else .ok (s, a, .undefined)

/-- The function `remove`: the contents of `x`, which it returns, after the call. -/
def remove (x y : Val) (force : Bool) : Except Thrown Val :=
  match deepIt (removeCb force) () x y [] with
  | .error e => .error e
  | .ok (_, x2) => .ok x2

/-- A leaf that selects: a primitive that is truthy, or any primitive when `force` is set. -/
def selects (force : Bool) (v : Val) : Bool := isPrimitive v && (force || truthy v)

/-- The path is not empty and resolves in the shape to a leaf that selects. -/
def selectedAt (shape : Val) (force : Bool) (q : List String) : Bool :=
  !q.isEmpty &&
    match getWalk shape q with
    | some v => selects force v
    | none => false

/-- The last key of the path names an inherited member. -/
def lastInherited (p : List String) : Bool :=
  match p.getLast? with
  | some k => inherited k
  | none => false

/-! ## The operation `pick` -/

/-- The visitor of `pick`, for the arguments `obj` and `force` it closes over. -/
def pickCb (obj : Val) (force : Bool) : Visitor Unit := fun s a b key path =>
  let c := get obj (.keys (path ++ [key])) false
  if !(force || truthy (propOf b key)) || truthy (propOf c "1") then .ok (s, a, .undefined)
  else
    let d := propOf c "0"
    let made : Except Thrown Val :=
      if !isPrimitive d then
        match construct d with
        | .error e => .error e
        | .ok n => assignProp a key n
      else .ok a
    match made with
    | .error e => .error e
    | .ok a1 =>
      if isPrimitive (propOf b key) then
        match assignProp a1 key d with
        | .error e => .error e
        | .ok a2 => .ok (s, a2, .undefined)
      else .ok (s, a1, .undefined)

/-- The function `pick`: the new record it returns. -/
def pick (obj props : Val) (force : Bool) : Except Thrown Val :=
  match deepIt (pickCb obj force) () emptyRecord props [] with
  | .error e => .error e
  | .ok (_, o) => .ok o

/-- The two values pass the comparison of `isEqual`: `bv === av`, or `bv == av` when the
comparison is not strict. -/
def agree (isStrict : Bool) (bv av : Val) : Prop :=
  if isStrict then strictEq bv av = true else looseEq bv av = some true

/-- Below `a` and `b` every leaf under a key of `b` passes the comparison: at every path that
resolves to a container on both sides, and every own key of the container of `b` under which
one side at least holds a primitive. -/
def AgreeBelow (isStrict : Bool) (a b : Val) : Prop :=
  ∀ (q : List String) (k : String) (na nb : Val), getWalk a q = some na →
    getWalk b q = some nb → isIterable na = true → isIterable nb = true →
    hasOwn (propsOf nb) k = true →
    (isPrimitive (propOf na k) || isPrimitive (propOf nb k)) = true →
    agree isStrict (propOf nb k) (propOf na k)

/-! # Theorems -/

/-! ## Decidable equality of values -/

mutual
theorem Val.eq_of_beq : ∀ (a b : Val), Val.beq a b = true → a = b
  | .undefined, b, h => by cases b <;> simp_all [Val.beq]
  | .null, b, h => by cases b <;> simp_all [Val.beq]
  | .bool x, b, h => by cases b <;> simp_all [Val.beq]
  | .num x, b, h => by cases b <;> simp_all [Val.beq]
  | .nan, b, h => by cases b <;> simp_all [Val.beq]
  | .str x, b, h => by cases b <;> simp_all [Val.beq]
  | .error x, b, h => by cases b <;> simp_all [Val.beq]
  | .obj t ps, .obj u qs, h => by
    simp only [Val.beq, Bool.and_eq_true, beq_iff_eq] at h
    rw [h.1, Val.props_eq_of_beq ps qs h.2]
  | .obj _ _, .undefined, h => by simp [Val.beq] at h
  | .obj _ _, .null, h => by simp [Val.beq] at h
  | .obj _ _, .bool _, h => by simp [Val.beq] at h
  | .obj _ _, .num _, h => by simp [Val.beq] at h
  | .obj _ _, .nan, h => by simp [Val.beq] at h
  | .obj _ _, .str _, h => by simp [Val.beq] at h
  | .obj _ _, .error _, h => by simp [Val.beq] at h
theorem Val.props_eq_of_beq : ∀ (ps qs : Props), Val.beqProps ps qs = true → ps = qs
  | [], [], _ => rfl
  | [], _ :: _, h => by simp [Val.beqProps] at h
  | _ :: _, [], h => by simp [Val.beqProps] at h
  | (k, v) :: r, (k2, v2) :: r2, h => by
    simp only [Val.beqProps, Bool.and_eq_true, beq_iff_eq] at h
    rw [h.1.1, Val.eq_of_beq v v2 h.1.2, Val.props_eq_of_beq r r2 h.2]
end

mutual
theorem Val.beq_self : ∀ (a : Val), Val.beq a a = true
  | .undefined => rfl
  | .null => rfl
  | .bool _ => by simp [Val.beq]
  | .num _ => by simp [Val.beq]
  | .nan => rfl
  | .str _ => by simp [Val.beq]
  | .error _ => by simp [Val.beq]
  | .obj t ps => by simp [Val.beq, Val.beqProps_self ps]
theorem Val.beqProps_self : ∀ (ps : Props), Val.beqProps ps ps = true
  | [] => rfl
  | (k, v) :: r => by simp [Val.beqProps, Val.beq_self v, Val.beqProps_self r]
end

instance : DecidableEq Val := fun a b =>
  if h : Val.beq a b = true then isTrue (Val.eq_of_beq a b h)
  else isFalse (fun e => h (e ▸ Val.beq_self a))

/-! ## Basic facts about values and properties -/

theorem isIterable_record (ps : Props) : isIterable (.obj .record ps) = true := rfl
theorem isIterable_list (ps : Props) : isIterable (.obj .list ps) = true := rfl
theorem isIterable_map (ps : Props) : isIterable (.obj .map ps) = true := rfl
theorem isIterable_func (ps : Props) : isIterable (.obj .func ps) = false := rfl

theorem isIterable_obj {v : Val} (h : isIterable v = true) :
    ∃ t ps, v = .obj t ps ∧ t ≠ .func := by
  cases v with
  | obj t ps =>
    cases t
    · exact ⟨_, _, rfl, by decide⟩
    · exact ⟨_, _, rfl, by decide⟩
    · exact ⟨_, _, rfl, by decide⟩
    · simp [isIterable, is, classOf] at h
  | _ => simp [isIterable, is, classOf] at h

theorem isIterable_builtinFn : isIterable builtinFn = false := rfl
theorem isIterable_undefined : isIterable .undefined = false := rfl
theorem isIterable_emptyRecord : isIterable emptyRecord = true := rfl

theorem ownLookup_replaceOwn_same (ps : Props) (k : String) (v : Val)
    (h : hasOwn ps k = true) : ownLookup (replaceOwn ps k v) k = some v := by
  induction ps with
  | nil => simp [hasOwn, ownLookup] at h
  | cons e r ih =>
    obtain ⟨k2, v2⟩ := e
    by_cases hk : k2 = k
    · simp [replaceOwn, ownLookup, hk]
    · simp only [hasOwn, ownLookup, hk, if_false] at h
      simp [replaceOwn, ownLookup, hk, ih h]

theorem ownLookup_replaceOwn_other (ps : Props) (k k3 : String) (v : Val) (hne : k3 ≠ k) :
    ownLookup (replaceOwn ps k v) k3 = ownLookup ps k3 := by
  induction ps with
  | nil => rfl
  | cons e r ih =>
    obtain ⟨k2, v2⟩ := e
    by_cases hk : k2 = k
    · subst hk
      have : ¬ k2 = k3 := fun h => hne h.symm
      simp [replaceOwn, ownLookup, this]
    · by_cases hk3 : k2 = k3
      · subst hk3
        simp [replaceOwn, ownLookup, hk]
      · simp [replaceOwn, ownLookup, hk, hk3, ih]

theorem ownLookup_append (ps qs : Props) (k : String) :
    ownLookup (ps ++ qs) k = (ownLookup ps k).orElse (fun _ => ownLookup qs k) := by
  induction ps with
  | nil => simp [ownLookup]
  | cons e r ih =>
    obtain ⟨k2, v2⟩ := e
    by_cases hk : k2 = k
    · simp [ownLookup, hk]
    · simp [ownLookup, hk, ih]

theorem hasOwn_cons (k2 : String) (v2 : Val) (r : Props) (k : String) :
    hasOwn ((k2, v2) :: r) k = (decide (k2 = k) || hasOwn r k) := by
  by_cases h : k2 = k <;> simp [hasOwn, ownLookup, h]

theorem ownLookup_insertIndex_other (n : Nat) (ps : Props) (k k3 : String) (v : Val)
    (hne : k3 ≠ k) : ownLookup (insertIndex n k v ps) k3 = ownLookup ps k3 := by
  have hne2 : ¬ k = k3 := fun h => hne h.symm
  induction ps with
  | nil => simp [insertIndex, ownLookup, hne2]
  | cons e r ih =>
    obtain ⟨k2, v2⟩ := e
    simp only [insertIndex]
    cases arrayIndex k2 with
    | none => simp [ownLookup, hne2]
    | some m =>
      by_cases hm : n < m
      · simp [hm, ownLookup, hne2]
      · simp [hm, ownLookup, ih]

theorem ownLookup_insertIndex_same (n : Nat) (ps : Props) (k : String) (v : Val)
    (h : hasOwn ps k = false) : ownLookup (insertIndex n k v ps) k = some v := by
  induction ps with
  | nil => simp [insertIndex, ownLookup]
  | cons e r ih =>
    obtain ⟨k2, v2⟩ := e
    rw [hasOwn_cons] at h
    simp only [Bool.or_eq_false_iff, decide_eq_false_iff_not] at h
    simp only [insertIndex]
    cases arrayIndex k2 with
    | none => simp [ownLookup]
    | some m =>
      by_cases hm : n < m
      · simp [hm, ownLookup]
      · simp [hm, ownLookup, ih h.2, h.1]

theorem ownLookup_putOwn_same (ps : Props) (k : String) (v : Val) :
    ownLookup (putOwn ps k v) k = some v := by
  unfold putOwn
  split
  · rename_i h
    exact ownLookup_replaceOwn_same _ _ _ h
  · rename_i h
    have h2 : ownLookup ps k = none := by simpa [hasOwn] using h
    unfold addOwn
    split
    · exact ownLookup_insertIndex_same _ _ _ _ (by simp [hasOwn, h2])
    · simp [ownLookup_append, h2, ownLookup]

theorem ownLookup_putOwn_other (ps : Props) (k k3 : String) (v : Val) (hne : k3 ≠ k) :
    ownLookup (putOwn ps k v) k3 = ownLookup ps k3 := by
  have hne2 : ¬ k = k3 := fun h => hne h.symm
  unfold putOwn
  split
  · exact ownLookup_replaceOwn_other _ _ _ _ hne
  · unfold addOwn
    split
    · exact ownLookup_insertIndex_other _ _ _ _ _ hne
    · simp only [ownLookup_append, ownLookup, hne2, if_false]
      cases ownLookup ps k3 <;> rfl

theorem hasOwn_putOwn_same (ps : Props) (k : String) (v : Val) :
    hasOwn (putOwn ps k v) k = true := by
  simp [hasOwn, ownLookup_putOwn_same]

theorem hasOwn_putOwn_other (ps : Props) (k k3 : String) (v : Val) (hne : k3 ≠ k) :
    hasOwn (putOwn ps k v) k3 = hasOwn ps k3 := by
  simp [hasOwn, ownLookup_putOwn_other _ _ _ _ hne]

theorem propOf_store_same (t : Tag) (ps : Props) (k : String) (v : Val) :
    propOf (store (.obj t ps) k v) k = v := by
  simp [store, propOf, propsOf, ownLookup_putOwn_same]

theorem propOf_store_other (o : Val) (k k3 : String) (v : Val) (hne : k3 ≠ k) :
    propOf (store o k v) k3 = propOf o k3 := by
  cases o <;> simp [store, propOf, propsOf, ownLookup_putOwn_other _ _ _ _ hne]

theorem hasProp_store_same (t : Tag) (ps : Props) (k : String) (v : Val) :
    hasProp (store (.obj t ps) k v) k = true := by
  simp [store, hasProp, propsOf, hasOwn_putOwn_same]

theorem hasProp_store_other (o : Val) (k k3 : String) (v : Val) (hne : k3 ≠ k) :
    hasProp (store o k v) k3 = hasProp o k3 := by
  cases o <;> simp [store, hasProp, propsOf, hasOwn_putOwn_other _ _ _ _ hne]

theorem isIterable_store (o : Val) (k : String) (v : Val) :
    isIterable (store o k v) = isIterable o := by
  cases o with
  | obj t ps => cases t <;> rfl
  | _ => rfl

/-- A container own property is needed for a container read. -/
theorem hasOwn_of_isIterable_propOf {o : Val} {k : String}
    (h : isIterable (propOf o k) = true) : hasOwn (propsOf o) k = true := by
  unfold propOf at h
  unfold hasOwn
  cases hp : ownLookup (propsOf o) k with
  | some x => rfl
  | none =>
    rw [hp] at h
    by_cases hi : inherited k = true
    · simp [hi, isIterable_builtinFn] at h
    · simp [hi, isIterable_undefined] at h


/-! ## The path resolver: `set` and `get` -/

theorem isIterable_setWalk (p : List String) (n v : Val) (h : isIterable n = true) :
    isIterable (setWalk n p v).2 = true := by
  cases p with
  | nil => simpa [setWalk] using h
  | cons k r =>
    cases r with
    | nil => simpa [setWalk, isIterable_store] using h
    | cons k2 rest =>
      simp only [setWalk]
      split
      · split
        · exact h
        · simpa [isIterable_store] using h
      · simpa [isIterable_store] using h

/-- In a fresh record the walk of `set` fails exactly at an inherited name before the last
key. -/
theorem setWalk_emptyRecord (p : List String) (v : Val) :
    (setWalk emptyRecord p v).1 = p.dropLast.any inherited := by
  induction p with
  | nil => rfl
  | cons k r ih =>
    cases r with
    | nil => rfl
    | cons k2 rest =>
      have hc : isIterable (propOf emptyRecord k) = false := by
        by_cases hi : inherited k = true <;>
          simp [propOf, propsOf, emptyRecord, ownLookup, hi, isIterable_builtinFn,
            isIterable_undefined]
      have hp : hasProp emptyRecord k = inherited k := by
        simp [hasProp, propsOf, emptyRecord, hasOwn, ownLookup]
      simp only [setWalk, hc, hp, List.dropLast_cons₂, List.any_cons]
      by_cases hi : inherited k = true
      · simp [hi]
      · simp [hi, ih]

theorem getWalk_cons (n : Val) (k : String) (rest : List String) :
    getWalk n (k :: rest)
      = if !isIterable n || !hasProp n k then none else getWalk (propOf n k) rest := rfl

theorem getWalk_store (n : Val) (k : String) (c : Val) (rest : List String)
    (hn : isIterable n = true) : getWalk (store n k c) (k :: rest) = getWalk c rest := by
  obtain ⟨t, ps, rfl, _⟩ := isIterable_obj hn
  rw [getWalk_cons]
  simp [isIterable_store, hn, hasProp_store_same, propOf_store_same]

/-- After a walk of `set` that did not fail, the path leads to the value. -/
theorem getWalk_setWalk (p : List String) (n v : Val) (hn : isIterable n = true)
    (hp : p ≠ []) (hok : (setWalk n p v).1 = false) :
    getWalk (setWalk n p v).2 p = some v := by
  induction p generalizing n with
  | nil => exact absurd rfl hp
  | cons k r ih =>
    cases r with
    | nil =>
      simp only [setWalk]
      rw [getWalk_store _ _ _ _ hn]
      rfl
    | cons k2 rest =>
      simp only [setWalk] at hok ⊢
      split at hok
      · rename_i hc
        split at hok
        · simp at hok
        · rename_i hh
          simp only [hc, hh]
          simp only [Bool.not_true, Bool.false_eq_true, if_false, if_true, Bool.not_false]
          rw [getWalk_store _ _ _ _ hn]
          exact ih emptyRecord isIterable_emptyRecord (by simp) hok
      · rename_i hc
        have hc2 : isIterable (propOf n k) = true := by simpa using hc
        simp only [hc2, Bool.not_true, Bool.false_eq_true, if_false]
        rw [getWalk_store _ _ _ _ hn]
        exact ih _ hc2 (by simp) hok


theorem getWalk_cons_of_not_hasProp (n : Val) (k : String) (q : List String)
    (h : hasProp n k = false) : getWalk n (k :: q) = none := by
  rw [getWalk_cons]; simp [h]

theorem getWalk_cons_of_isIterable (n : Val) (k : String) (q : List String)
    (hn : isIterable n = true) (h : hasProp n k = true) :
    getWalk n (k :: q) = getWalk (propOf n k) q := by
  rw [getWalk_cons]; simp [h, hn]

theorem hasProp_of_isIterable_propOf {n : Val} {k : String}
    (h : isIterable (propOf n k) = true) : hasProp n k = true := by
  simp [hasProp, hasOwn_of_isIterable_propOf h]

/-- When the walk of `set` fails, in terms of the target before the call. -/
theorem setWalk_fails_iff (p : List String) (n v : Val) (hn : isIterable n = true) :
    (setWalk n p v).1 = true ↔
      (∃ q r x, p = q ++ r ∧ q ≠ [] ∧ r ≠ [] ∧ getWalk n q = some x ∧ isIterable x = false)
      ∨ (∃ q r, p = q ++ r ∧ r ≠ [] ∧ getWalk n q = none
            ∧ ∃ k ∈ r.dropLast, inherited k = true) := by
  induction p generalizing n with
  | nil =>
    constructor
    · intro h; simp [setWalk] at h
    · rintro (⟨q, r, x, hp, hq, hr, _⟩ | ⟨q, r, hp, hr, _⟩)
      · have := congrArg List.length hp
        cases q <;> simp at hq this
      · have := congrArg List.length hp
        cases r <;> simp at hr this
        omega
  | cons k p2 ih =>
    cases p2 with
    | nil =>
      constructor
      · intro h; simp [setWalk] at h
      · rintro (⟨q, r, x, hp, hq, hr, _⟩ | ⟨q, r, hp, hr, hw, _⟩)
        · have := congrArg List.length hp
          cases q <;> cases r <;> simp at hq hr this
        · cases q with
          | nil => simp [getWalk] at hw
          | cons a q2 =>
            have := congrArg List.length hp
            cases r <;> simp at hr this
    | cons k2 rest =>
      by_cases hc : isIterable (propOf n k) = true
      · -- the segment is a container: the walk goes on below it
        have hh := hasProp_of_isIterable_propOf hc
        have hstep : (setWalk n (k :: k2 :: rest) v).1
            = (setWalk (propOf n k) (k2 :: rest) v).1 := by
          simp [setWalk, hc]
        rw [hstep, ih _ hc]
        constructor
        · rintro (⟨q, r, x, hp, hq, hr, hw, hx⟩ | ⟨q, r, hp, hr, hw, hk⟩)
          · left
            refine ⟨k :: q, r, x, by simp [hp], by simp, hr, ?_, hx⟩
            rw [getWalk_cons_of_isIterable _ _ _ hn hh]; exact hw
          · right
            refine ⟨k :: q, r, by simp [hp], hr, ?_, hk⟩
            rw [getWalk_cons_of_isIterable _ _ _ hn hh]; exact hw
        · rintro (⟨q, r, x, hp, hq, hr, hw, hx⟩ | ⟨q, r, hp, hr, hw, hk⟩)
          · cases q with
            | nil => exact absurd rfl hq
            | cons a q2 =>
              simp only [List.cons_append, List.cons.injEq] at hp
              obtain ⟨rfl, hp⟩ := hp
              rw [getWalk_cons_of_isIterable _ _ _ hn hh] at hw
              cases q2 with
              | nil =>
                simp only [getWalk, Option.some.injEq] at hw
                rw [hw] at hc; rw [hc] at hx; exact absurd hx (by simp)
              | cons b q3 =>
                left
                exact ⟨b :: q3, r, x, hp, by simp, hr, hw, hx⟩
          · cases q with
            | nil => simp [getWalk] at hw
            | cons a q2 =>
              simp only [List.cons_append, List.cons.injEq] at hp
              obtain ⟨rfl, hp⟩ := hp
              rw [getWalk_cons_of_isIterable _ _ _ hn hh] at hw
              right
              exact ⟨q2, r, hp, hr, hw, hk⟩
      · have hc2 : isIterable (propOf n k) = false := by simpa using hc
        by_cases hh : hasProp n k = true
        · -- an existing value that is no container: failure
          have hstep : (setWalk n (k :: k2 :: rest) v).1 = true := by
            simp [setWalk, hc2, hh]
          simp only [hstep, true_iff]
          left
          refine ⟨[k], k2 :: rest, propOf n k, rfl, by simp, by simp, ?_, hc2⟩
          rw [getWalk_cons_of_isIterable _ _ _ hn hh]; rfl
        · -- an absent key: a fresh record is created and walked
          have hh2 : hasProp n k = false := by simpa using hh
          have hstep : (setWalk n (k :: k2 :: rest) v).1
              = (k2 :: rest).dropLast.any inherited := by
            simp only [setWalk, hc2, hh2, Bool.not_false, if_true, Bool.false_eq_true,
              if_false]
            exact setWalk_emptyRecord _ _
          rw [hstep, List.any_eq_true]
          constructor
          · rintro ⟨x, hx, hi⟩
            right
            exact ⟨[k], k2 :: rest, rfl, by simp,
              getWalk_cons_of_not_hasProp _ _ _ hh2, x, hx, hi⟩
          · rintro (⟨q, r, x, hp, hq, hr, hw, hx⟩ | ⟨q, r, hp, hr, hw, x, hx, hi⟩)
            · cases q with
              | nil => exact absurd rfl hq
              | cons a q2 =>
                simp only [List.cons_append, List.cons.injEq] at hp
                obtain ⟨rfl, hp⟩ := hp
                rw [getWalk_cons_of_not_hasProp _ _ _ hh2] at hw
                exact absurd hw (by simp)
            · cases q with
              | nil => simp [getWalk] at hw
              | cons a q2 =>
                simp only [List.cons_append, List.cons.injEq] at hp
                obtain ⟨rfl, hp⟩ := hp
                refine ⟨x, ?_, hi⟩
                rw [hp, List.dropLast_append_of_ne_nil _ hr]
                exact List.mem_append_right _ hx


theorem ne_setFailure_of_isIterable {x : Val} (h : isIterable x = true) : x ≠ setFailure := by
  intro hx
  rw [hx] at h
  exact absurd h (by decide)

theorem set_of_container (obj : Val) (p : Path) (v : Val) (hobj : isIterable obj = true)
    (hp : getPath p ≠ []) :
    set obj p v = if (setWalk obj (getPath p) v).1 then (setFailure, (setWalk obj (getPath p) v).2)
      else ((setWalk obj (getPath p) v).2, (setWalk obj (getPath p) v).2) := by
  unfold set
  simp [hobj, hp]

theorem set_fails_iff_walk (obj : Val) (p : Path) (v : Val) (hobj : isIterable obj = true) :
    (set obj p v).1 = setFailure ↔ (setWalk obj (getPath p) v).1 = true := by
  by_cases hp : getPath p = []
  · have h1 : set obj p v = (obj, obj) := by unfold set; simp [hp]
    rw [h1, hp]
    simp [setWalk, ne_setFailure_of_isIterable hobj]
  · rw [set_of_container obj p v hobj hp]
    by_cases hw : (setWalk obj (getPath p) v).1 = true
    · simp [hw]
    · have hw2 : (setWalk obj (getPath p) v).1 = false := by simpa using hw
      simp only [hw2, Bool.false_eq_true, if_false, iff_false]
      exact ne_setFailure_of_isIterable (isIterable_setWalk _ _ _ hobj)

theorem get_false_eq (obj : Val) (p : Path) :
    get obj p false = match getWalk obj (getPath p) with
      | none => missArr
      | some n => hitArr n := by
  unfold get
  cases getWalk obj (getPath p) <;> rfl

theorem get_hit_iff (obj : Val) (p : Path) (x : Val) :
    get obj p false = hitArr x ↔ getWalk obj (getPath p) = some x := by
  rw [get_false_eq]
  cases getWalk obj (getPath p) with
  | none => simp [missArr, hitArr]
  | some n => simp [hitArr]

theorem get_miss_iff (obj : Val) (p : Path) :
    get obj p false = missArr ↔ getWalk obj (getPath p) = none := by
  rw [get_false_eq]
  cases getWalk obj (getPath p) with
  | none => simp
  | some n => simp [missArr, hitArr]

/-! ### C1 -/

/-- C1, counterexample: on the empty record `set` does fail when a key before the last names
an inherited member, here `set({}, "toString.x", 5)`. -/
theorem set_emptyRecord_fails :
    isIterable emptyRecord = true ∧ getPath (.dotted "toString.x") ≠ []
      ∧ (set emptyRecord (.dotted "toString.x") (.num 5)).1 = setFailure := by
  refine ⟨rfl, by decide, rfl⟩

/-- C1, amended: `get` undoes `set` on plain records. For a container `obj` that is a tree of
plain records, a non-empty path without the key `__proto__` and any value, if `set` does not
signal failure then `get` on the returned root gives the hit `[v]`, and `v` in boolean mode;
and on the empty record `set` does not fail when no key before the last names an inherited
member. -/
theorem get_undoes_set (obj : Val) (p : Path) (v : Val) (hobj : isIterable obj = true)
    (hp : getPath p ≠ []) (_hplain : plain obj = true)
    (_hkeys : plainPath (getPath p) = true) :
    ((set obj p v).1 ≠ setFailure →
        get (set obj p v).1 p false = hitArr v ∧ get (set obj p v).1 p true = v)
      ∧ (obj = emptyRecord → (∀ k ∈ (getPath p).dropLast, inherited k = false) →
        (set obj p v).1 ≠ setFailure) := by
  constructor
  · intro hok
    have hw : (setWalk obj (getPath p) v).1 = false := by
      cases h : (setWalk obj (getPath p) v).1 with
      | false => rfl
      | true => exact absurd ((set_fails_iff_walk obj p v hobj).2 h) hok
    have hset : (set obj p v).1 = (setWalk obj (getPath p) v).2 := by
      rw [set_of_container obj p v hobj hp]; simp [hw]
    have hg := getWalk_setWalk (getPath p) obj v hobj hp hw
    rw [hset]
    unfold get
    rw [hg]
    exact ⟨rfl, rfl⟩
  · intro he hk
    subst he
    intro hf
    have := (set_fails_iff_walk emptyRecord p v hobj).1 hf
    rw [setWalk_emptyRecord, List.any_eq_true] at this
    obtain ⟨k, hk1, hk2⟩ := this
    rw [hk k hk1] at hk2
    exact absurd hk2 (by simp)

/-- C1, witness: `get(set({}, "a.b.c", 5), "a.b.c")` gives `[5]`, and `5` in boolean mode. -/
theorem get_undoes_set_witness :
    get (set emptyRecord (.dotted "a.b.c") (.num 5)).1 (.dotted "a.b.c") false
        = hitArr (.num 5)
      ∧ get (set emptyRecord (.dotted "a.b.c") (.num 5)).1 (.dotted "a.b.c") true = .num 5 :=
  (get_undoes_set emptyRecord (.dotted "a.b.c") (.num 5) rfl (by decide) rfl rfl).1
    ((get_undoes_set emptyRecord (.dotted "a.b.c") (.num 5) rfl (by decide) rfl rfl).2 rfl
      (by decide))

/-! ### C2 -/

/-- C2, counterexample: `set({}, "a.toString.x", 1)` fails although no non-empty proper prefix
of the path resolves in `{}`. -/
theorem set_fails_without_resolving_segment :
    isIterable emptyRecord = true
      ∧ (set emptyRecord (.dotted "a.toString.x") (.num 1)).1 = setFailure
      ∧ ¬ ∃ q r x, getPath (.dotted "a.toString.x") = q ++ r ∧ q ≠ [] ∧ r ≠ []
          ∧ get emptyRecord (.keys q) false = hitArr x ∧ isIterable x = false := by
  refine ⟨rfl, rfl, ?_⟩
  rintro ⟨q, r, x, hp, hq, _, hg, _⟩
  have hp2 : getPath (.dotted "a.toString.x") = ["a", "toString", "x"] := by decide
  rw [hp2] at hp
  cases q with
  | nil => exact hq rfl
  | cons a q2 =>
    simp only [List.cons_append, List.cons.injEq] at hp
    obtain ⟨rfl, _⟩ := hp
    rw [get_hit_iff] at hg
    have : getWalk emptyRecord ("a" :: q2) = none :=
      getWalk_cons_of_not_hasProp _ _ _ (by decide)
    simp [getPath, this] at hg

/-- C2, amended: for a container `obj` that is a tree of plain records and a path without the
key `__proto__`, `set` returns the failure value if and only if some non-empty proper prefix
of the path resolves in `obj` to a value that is no container, or some proper prefix misses in
`obj` and a later key other than the last names an inherited member, which the record created
for the missing segment holds as a function; otherwise `set` returns the root, a container. -/
theorem set_fails_iff (obj : Val) (p : Path) (v : Val) (hobj : isIterable obj = true)
    (_hplain : plain obj = true) (_hkeys : plainPath (getPath p) = true) :
    ((set obj p v).1 = setFailure ↔
        (∃ q r x, getPath p = q ++ r ∧ q ≠ [] ∧ r ≠ []
            ∧ get obj (.keys q) false = hitArr x ∧ isIterable x = false)
        ∨ (∃ q r, getPath p = q ++ r ∧ r ≠ [] ∧ get obj (.keys q) false = missArr
            ∧ ∃ k ∈ r.dropLast, inherited k = true))
      ∧ ((set obj p v).1 ≠ setFailure →
          (set obj p v).1 = (set obj p v).2 ∧ isIterable (set obj p v).1 = true) := by
  constructor
  · rw [set_fails_iff_walk obj p v hobj, setWalk_fails_iff _ _ _ hobj]
    simp only [get_hit_iff, get_miss_iff, getPath]
  · intro hok
    by_cases hp : getPath p = []
    · have h1 : set obj p v = (obj, obj) := by unfold set; simp [hp]
      rw [h1]; exact ⟨rfl, hobj⟩
    · have hw : (setWalk obj (getPath p) v).1 = false := by
        cases h : (setWalk obj (getPath p) v).1 with
        | false => rfl
        | true => exact absurd ((set_fails_iff_walk obj p v hobj).2 h) hok
      rw [set_of_container obj p v hobj hp]
      simp only [hw, Bool.false_eq_true, if_false]
      exact ⟨trivial, isIterable_setWalk _ _ _ hobj⟩

/-- C2, witness: `set({a: 1}, "a.b", 2)` fails, the prefix `a` resolving to the number 1. -/
theorem set_fails_iff_witness :
    isIterable (.obj .record [("a", .num 1)]) = true
      ∧ (set (.obj .record [("a", .num 1)]) (.dotted "a.b") (.num 2)).1 = setFailure :=
  ⟨rfl, ((set_fails_iff (.obj .record [("a", .num 1)]) (.dotted "a.b") (.num 2) rfl rfl
      rfl).1).2
    (Or.inl ⟨["a"], ["b"], .num 1, by decide, by decide, by decide, rfl, rfl⟩)⟩

/-! ### C3 -/

/-- C3: a failed `set` can leave the target mutated. `set({}, "a.toString.b", 1)` returns the
failure value and the target, empty before, holds the record created for the segment `a`. -/
theorem set_failure_leaves_mutation :
    ∃ obj p v, isIterable obj = true ∧ (set obj p v).1 = setFailure ∧ (set obj p v).2 ≠ obj
      ∧ (set obj p v).2 = .obj .record [("a", emptyRecord)] :=
  ⟨emptyRecord, .dotted "a.toString.b", .num 1, rfl, rfl, by decide, rfl⟩

/-! ## The walker -/

mutual
theorem Val.induct_aux (P : Val → Prop)
    (hleaf : ∀ v, (∀ t ps, v ≠ .obj t ps) → P v)
    (hobj : ∀ t ps, (∀ e ∈ ps, P e.2) → P (.obj t ps)) : ∀ v, P v
  | .obj t ps => hobj t ps (Val.induct_props P hleaf hobj ps)
  | .undefined => hleaf _ (by intro t ps h; cases h)
  | .null => hleaf _ (by intro t ps h; cases h)
  | .bool _ => hleaf _ (by intro t ps h; cases h)
  | .num _ => hleaf _ (by intro t ps h; cases h)
  | .nan => hleaf _ (by intro t ps h; cases h)
  | .str _ => hleaf _ (by intro t ps h; cases h)
  | .error _ => hleaf _ (by intro t ps h; cases h)
theorem Val.induct_props (P : Val → Prop)
    (hleaf : ∀ v, (∀ t ps, v ≠ .obj t ps) → P v)
    (hobj : ∀ t ps, (∀ e ∈ ps, P e.2) → P (.obj t ps)) : ∀ ps : Props, ∀ e ∈ ps, P e.2
  | [] => by intro e he; cases he
  | (k, v) :: r => by
    intro e he
    rcases List.mem_cons.1 he with h | h
    · rw [h]; exact Val.induct_aux P hleaf hobj v
    · exact Val.induct_props P hleaf hobj r e h
end

theorem deepIt_obj {σ : Type} (cb : Visitor σ) (s : σ) (a : Val) (t : Tag) (ps : Props)
    (path : List String) :
    deepIt cb s a (.obj t ps) path = deepItKeys cb s a (.obj t ps) ps path := by
  rw [deepIt]
  cases t <;> rfl

theorem deepIt_leaf {σ : Type} (cb : Visitor σ) (s : σ) (a b : Val) (path : List String)
    (hb : ∀ t ps, b ≠ .obj t ps) : deepIt cb s a b path = .ok (s, a) := by
  cases b with
  | obj t ps => exact absurd rfl (hb t ps)
  | _ => simp [deepIt]

theorem deepItKeys_nil {σ : Type} (cb : Visitor σ) (s : σ) (a b : Val) (path : List String) :
    deepItKeys cb s a b [] path = .ok (s, a) := by
  rw [deepItKeys]

theorem isNullish_commit (a a1 : Val) : isNullish (commit a a1) = isNullish a := by
  cases a <;> cases a1 <;> rfl

theorem isNullish_store (a : Val) (k : String) (v : Val) :
    isNullish (store a k v) = isNullish a := by
  cases a <;> rfl

theorem isNullish_of_isIterable {a : Val} (h : isIterable a = true) : isNullish a = false := by
  obtain ⟨t, ps, rfl, _⟩ := isIterable_obj h
  rfl

theorem readProp_of_not_nullish {a : Val} (h : isNullish a = false) (k : String) :
    readProp a k = .ok (propOf a k) := by
  cases a <;> first | rfl | simp [isNullish] at h

/-- One turn of the loop when the visitor returns a value other than `false` and the
destination is neither `undefined` nor `null`. -/
theorem deepItKeys_cons_continue {σ : Type} (cb : Visitor σ) (s : σ) (a b : Val)
    (key : String) (bv : Val) (rest : Props) (path : List String) (s1 : σ) (a1 r : Val)
    (hcb : cb s a b key path = .ok (s1, a1, r)) (hr : isExactlyFalse r = false)
    (ha : isIterable bv = true → isNullish a = false) :
    deepItKeys cb s a b ((key, bv) :: rest) path =
      if isIterable bv && isIterable (propOf (commit a a1) key) then
        match deepIt cb s1 (propOf (commit a a1) key) bv (path ++ [key]) with
        | .error e => .error e
        | .ok (s2, ak2) => deepItKeys cb s2 (store (commit a a1) key ak2) b rest path
      else deepItKeys cb s1 (commit a a1) b rest path := by
  rw [deepItKeys, hcb]
  simp only [hr, Bool.false_eq_true, if_false]
  by_cases h1 : isIterable bv = true
  · rw [readProp_of_not_nullish (by rw [isNullish_commit]; exact ha h1)]
    by_cases h2 : isIterable (propOf (commit a a1) key) = true
    · simp [h1, h2]
    · simp [h1, h2]
  · simp [h1]

/-- One turn of the loop when the visitor returns `false`: the loop is left. -/
theorem deepItKeys_cons_break {σ : Type} (cb : Visitor σ) (s : σ) (a b : Val)
    (key : String) (bv : Val) (rest : Props) (path : List String) (s1 : σ) (a1 r : Val)
    (hcb : cb s a b key path = .ok (s1, a1, r)) (hr : isExactlyFalse r = true) :
    deepItKeys cb s a b ((key, bv) :: rest) path = .ok (s1, commit a a1) := by
  rw [deepItKeys, hcb]
  simp [hr]

theorem logged_apply {σ : Type} (cb : Visitor σ) (s : σ) (l : List Visit) (a b : Val)
    (key : String) (path : List String) (s1 : σ) (a1 r : Val)
    (hcb : cb s a b key path = .ok (s1, a1, r)) :
    logged cb (s, l) a b key path = .ok ((s1, l ++ [⟨path, key, r⟩]), a1, r) := by
  simp [logged, hcb]

theorem isExactlyFalse_iff (r : Val) : isExactlyFalse r = true ↔ r = .bool false := by
  cases r with
  | bool b => cases b <;> simp [isExactlyFalse]
  | _ => simp [isExactlyFalse]

theorem visitsAt_nil (path : List String) : visitsAt [] path = [] := rfl

theorem visitsAt_append (l1 l2 : List Visit) (path : List String) :
    visitsAt (l1 ++ l2) path = visitsAt l1 path ++ visitsAt l2 path := by
  simp [visitsAt]

theorem visitsAt_cons_same (l : List Visit) (path : List String) (key : String) (r : Val) :
    visitsAt (⟨path, key, r⟩ :: l) path = key :: visitsAt l path := by
  simp [visitsAt]

theorem visitsAt_eq_nil (l : List Visit) (path : List String)
    (h : ∀ e ∈ l, e.path ≠ path) : visitsAt l path = [] := by
  simp only [visitsAt, List.map_eq_nil_iff, List.filter_eq_nil_iff]
  intro e he
  simpa using h e he

theorem path_append_cons_ne (path : List String) (k : String) (suf : List String) :
    path ++ k :: suf ≠ path := by
  intro h
  have := congrArg List.length h
  simp at this

/-- What the runs of an observed visitor that never stops look like, for the keys of a
container whose values already have the property. -/
theorem deepItKeys_run {σ : Type} (cb : Visitor σ) (hcb : NeverStops cb) (b : Val)
    (keys : Props)
    (hnested : ∀ e ∈ keys, ∀ (path : List String) (s : σ) (l : List Visit) (a : Val),
      isNullish a = false →
      ∃ s2 tr a2, deepIt (logged cb) (s, l) a e.2 path = .ok ((s2, l ++ tr), a2)
        ∧ (∀ x ∈ tr, ∃ suf, x.path = path ++ suf)) :
    ∀ (path : List String) (s : σ) (l : List Visit) (a : Val), isNullish a = false →
      ∃ s2 tr a2, deepItKeys (logged cb) (s, l) a b keys path = .ok ((s2, l ++ tr), a2)
        ∧ isNullish a2 = false
        ∧ visitsAt tr path = keys.map Prod.fst
        ∧ (∀ x ∈ tr, x.path = path
            ∨ ∃ k ∈ keys.map Prod.fst, ∃ suf, x.path = path ++ k :: suf) := by
  induction keys with
  | nil =>
    intro path s l a ha
    exact ⟨s, [], a, by simp [deepItKeys_nil], ha, rfl, by simp⟩
  | cons e rest ih =>
    obtain ⟨key, bv⟩ := e
    intro path s l a ha
    obtain ⟨s1, a1, r, hc, hr⟩ := hcb s a b key path
    have ih2 := ih (fun e he => hnested e (List.mem_cons_of_mem _ he)) path
    rw [deepItKeys_cons_continue (logged cb) (s, l) a b key bv rest path _ a1 r
      (logged_apply cb s l a b key path s1 a1 r hc) hr (fun _ => ha)]
    have hca : isNullish (commit a a1) = false := by rw [isNullish_commit]; exact ha
    by_cases hit : (isIterable bv && isIterable (propOf (commit a a1) key)) = true
    · simp only [hit, if_true]
      obtain ⟨s2, trn, ak2, hn, hbelow⟩ :=
        hnested (key, bv) (List.mem_cons_self _ _) (path ++ [key]) s1
          (l ++ [⟨path, key, r⟩]) (propOf (commit a a1) key)
          (isNullish_of_isIterable (by simp at hit; exact hit.2))
      rw [hn]
      obtain ⟨s3, trr, a3, hrun, hnull, hvis, hb3⟩ :=
        ih2 s2 (l ++ [⟨path, key, r⟩] ++ trn) (store (commit a a1) key ak2)
          (by rw [isNullish_store]; exact hca)
      refine ⟨s3, [⟨path, key, r⟩] ++ trn ++ trr, a3, ?_, hnull, ?_, ?_⟩
      · simpa only [List.append_assoc] using hrun
      · rw [visitsAt_append, visitsAt_append, hvis]
        have hz : visitsAt trn path = [] := by
          apply visitsAt_eq_nil
          intro x hx
          obtain ⟨suf, hs⟩ := hbelow x hx
          rw [hs, List.append_assoc]
          exact path_append_cons_ne _ _ _
        rw [hz]
        simp [visitsAt]
      · intro x hx
        simp only [List.append_assoc, List.mem_append, List.mem_singleton] at hx
        rcases hx with hx | hx | hx
        · left; rw [hx]
        · right
          obtain ⟨suf, hs⟩ := hbelow x hx
          exact ⟨key, by simp, suf, by rw [hs, List.append_assoc]; rfl⟩
        · rcases hb3 x hx with h | ⟨k, hk, suf, hs⟩
          · left; exact h
          · right; exact ⟨k, by simp [hk], suf, hs⟩
    · simp only [hit, Bool.false_eq_true, if_false]
      obtain ⟨s3, trr, a3, hrun, hnull, hvis, hb3⟩ :=
        ih2 s1 (l ++ [⟨path, key, r⟩]) (commit a a1) hca
      refine ⟨s3, [⟨path, key, r⟩] ++ trr, a3, ?_, hnull, ?_, ?_⟩
      · simpa only [List.append_assoc] using hrun
      · rw [visitsAt_append, hvis]
        simp [visitsAt]
      · intro x hx
        simp only [List.mem_append, List.mem_singleton] at hx
        rcases hx with hx | hx
        · left; rw [hx]
        · rcases hb3 x hx with h | ⟨k, hk, suf, hs⟩
          · left; exact h
          · right; exact ⟨k, by simp [hk], suf, hs⟩

/-- An observed visitor that never stops: the walk returns and logs the keys of `b`. -/
theorem deepIt_run {σ : Type} (cb : Visitor σ) (hcb : NeverStops cb) (b : Val) :
    ∀ (path : List String) (s : σ) (l : List Visit) (a : Val), isNullish a = false →
      ∃ s2 tr a2, deepIt (logged cb) (s, l) a b path = .ok ((s2, l ++ tr), a2)
        ∧ (∀ x ∈ tr, ∃ suf, x.path = path ++ suf) := by
  induction b using Val.induct_aux with
  | hleaf v hv =>
    intro path s l a _
    exact ⟨s, [], a, by simp [deepIt_leaf _ _ _ _ _ hv], by simp⟩
  | hobj t ps ih =>
    intro path s l a ha
    obtain ⟨s2, tr, a2, hrun, _, _, hb⟩ :=
      deepItKeys_run cb hcb (.obj t ps) ps ih path s l a ha
    refine ⟨s2, tr, a2, by rw [deepIt_obj]; exact hrun, ?_⟩
    intro x hx
    rcases hb x hx with h | ⟨k, _, suf, hs⟩
    · exact ⟨[], by simp [h]⟩
    · exact ⟨k :: suf, hs⟩


theorem neverStops_idleVisitor : NeverStops idleVisitor :=
  fun s a _ _ _ => ⟨s, a, .undefined, rfl, rfl⟩

theorem neverStops_logged {σ : Type} (cb : Visitor σ) (hcb : NeverStops cb) :
    NeverStops (logged cb) := by
  intro s a b key path
  obtain ⟨s1, a1, r, hc, hr⟩ := hcb s.1 a b key path
  exact ⟨_, a1, r, logged_apply cb s.1 s.2 a b key path s1 a1 r hc, hr⟩

/-- The observed walk is the walk: erasing the log gives the run of the visitor itself. -/
theorem deepItKeys_logged {σ : Type} (cb : Visitor σ) (b : Val) (keys : Props)
    (hnested : ∀ e ∈ keys, ∀ (path : List String) (s : σ) (l : List Visit) (a : Val),
      (deepIt (logged cb) (s, l) a e.2 path).map eraseLog = deepIt cb s a e.2 path) :
    ∀ (path : List String) (s : σ) (l : List Visit) (a : Val),
      (deepItKeys (logged cb) (s, l) a b keys path).map eraseLog
        = deepItKeys cb s a b keys path := by
  induction keys with
  | nil => intro path s l a; simp [deepItKeys_nil, Except.map, eraseLog]
  | cons e rest ih =>
    obtain ⟨key, bv⟩ := e
    intro path s l a
    have ih2 := ih (fun e he => hnested e (List.mem_cons_of_mem _ he)) path
    have hn := hnested (key, bv) (List.mem_cons_self _ _) (path ++ [key])
    rw [deepItKeys, deepItKeys]
    cases hc : cb s a b key path with
    | error e => simp [logged, hc, Except.map]
    | ok x =>
      obtain ⟨s1, a1, r⟩ := x
      rw [logged_apply cb s l a b key path s1 a1 r hc]
      simp only
      by_cases hr : isExactlyFalse r = true
      · simp [hr, Except.map, eraseLog]
      · simp only [hr, Bool.false_eq_true, if_false]
        by_cases hb : isIterable bv = true
        · simp only [hb, if_true]
          cases hrp : readProp (commit a a1) key with
          | error e => simp [Except.map]
          | ok ak =>
            simp only
            by_cases hak : isIterable ak = true
            · simp only [hak, if_true]
              have hn2 := hn s1 (l ++ [⟨path, key, r⟩]) ak
              simp only at hn2
              cases hd : deepIt (logged cb) (s1, l ++ [⟨path, key, r⟩]) ak bv (path ++ [key]) with
              | error e =>
                rw [hd] at hn2
                simp only [Except.map] at hn2
                rw [← hn2]
                simp [Except.map]
              | ok y =>
                obtain ⟨⟨s2, l2⟩, ak2⟩ := y
                rw [hd] at hn2
                simp only [Except.map, eraseLog] at hn2
                rw [← hn2]
                exact ih2 s2 l2 _
            · simp only [hak, Bool.false_eq_true, if_false]
              exact ih2 s1 _ _
        · simp only [hb, Bool.false_eq_true, if_false]
          exact ih2 s1 _ _

theorem deepIt_logged {σ : Type} (cb : Visitor σ) (b : Val) :
    ∀ (path : List String) (s : σ) (l : List Visit) (a : Val),
      (deepIt (logged cb) (s, l) a b path).map eraseLog = deepIt cb s a b path := by
  induction b using Val.induct_aux with
  | hleaf v hv =>
    intro path s l a
    simp [deepIt_leaf _ _ _ _ _ hv, Except.map, eraseLog]
  | hobj t ps ih =>
    intro path s l a
    rw [deepIt_obj, deepIt_obj]
    exact deepItKeys_logged cb (.obj t ps) ps ih path s l a

/-- Without a `false` from the visitor the loop over a list of keys is the loop over its
first part followed by the loop over the rest. -/
theorem deepItKeys_append {σ : Type} (cb : Visitor σ) (hcb : NeverStops cb) (b : Val)
    (path : List String) (ks1 ks2 : Props) :
    ∀ (s : σ) (a : Val) (s1 : σ) (a1 : Val), isNullish a = false →
      deepItKeys cb s a b ks1 path = .ok (s1, a1) →
      deepItKeys cb s a b (ks1 ++ ks2) path = deepItKeys cb s1 a1 b ks2 path := by
  induction ks1 with
  | nil =>
    intro s a s1 a1 _ h
    simp only [deepItKeys_nil, Except.ok.injEq, Prod.mk.injEq] at h
    rw [← h.1, ← h.2]; rfl
  | cons e rest ih =>
    obtain ⟨key, bv⟩ := e
    intro s a s1 a1 ha h
    obtain ⟨s0, a0, r, hc, hr⟩ := hcb s a b key path
    have hca : isNullish (commit a a0) = false := by rw [isNullish_commit]; exact ha
    rw [List.cons_append, deepItKeys_cons_continue cb s a b key bv _ path s0 a0 r hc hr (fun _ => ha)]
    rw [deepItKeys_cons_continue cb s a b key bv _ path s0 a0 r hc hr (fun _ => ha)] at h
    by_cases hit : (isIterable bv && isIterable (propOf (commit a a0) key)) = true
    · simp only [hit, if_true] at h ⊢
      cases hd : deepIt cb s0 (propOf (commit a a0) key) bv (path ++ [key]) with
      | error e => rw [hd] at h; simp at h
      | ok y =>
        obtain ⟨s2, ak2⟩ := y
        rw [hd] at h
        simp only at h ⊢
        exact ih s2 _ s1 a1 (by rw [isNullish_store]; exact hca) h
    · simp only [hit, Bool.false_eq_true, if_false] at h ⊢
      exact ih s0 _ s1 a1 hca h

theorem visitsAt_below_other (tr : List Visit) (path : List String) (keys : List String)
    (k : String) (hk : k ∉ keys)
    (hb : ∀ x ∈ tr, x.path = path ∨ ∃ k2 ∈ keys, ∃ suf, x.path = path ++ k2 :: suf) :
    visitsAt tr (path ++ [k]) = [] := by
  apply visitsAt_eq_nil
  intro x hx heq
  rcases hb x hx with h | ⟨k2, hk2, suf, hs⟩
  · rw [h] at heq
    exact path_append_cons_ne path k [] heq.symm
  · rw [hs] at heq
    have := List.append_cancel_left heq
    simp only [List.cons.injEq] at this
    exact hk (this.1 ▸ hk2)

/-! ### C4 -/

/-- C4, counterexample: with `a = undefined` and `b = {x: {}, y: 1}` a visitor that never
returns `false` is called on `x` only: the read `a[key]` then raises a `TypeError`. -/
theorem deepIt_undefined_destination_throws :
    NeverStops idleVisitor
      ∧ isIterable (.obj .record [("x", emptyRecord), ("y", .num 1)]) = true
      ∧ deepIt (logged idleVisitor) ((), []) .undefined
          (.obj .record [("x", emptyRecord), ("y", .num 1)]) []
        = .error (.typeError "Cannot read properties of undefined") :=
  ⟨neverStops_idleVisitor, rfl, rfl⟩

/-- C4, amended: for every container `b`, every `a` other than `undefined` and `null` and
every visitor that always returns and never returns `false`, `deepIt(a, b, visitor)` returns
and calls the visitor with the path of the call on exactly the keys of `b`, each once and in
the enumeration order of `b`; and for a key `k` of `b` (the keys being distinct) it calls the
visitor with the path extended by `k` on the keys of `b[k]` exactly when `b[k]` and, after the
visit of `k`, `a[k]` are containers. -/
theorem deepIt_visits_keys_of_b {σ : Type} (cb : Visitor σ) (hcb : NeverStops cb) (s : σ)
    (a b : Val) (path : List String) (hb : isIterable b = true)
    (ha : isNullish a = false) :
    ∃ s2 log a2,
      deepIt (logged cb) (s, []) a b path = .ok ((s2, log), a2)
      ∧ deepIt cb s a b path = .ok (s2, a2)
      ∧ visitsAt log path = (propsOf b).map Prod.fst
      ∧ ∀ pre k bv post, propsOf b = pre ++ (k, bv) :: post →
          (∀ e ∈ pre ++ post, e.1 ≠ k) →
          ∃ s0 l0 a0 s1 a1 r,
            deepItKeys (logged cb) (s, []) a b pre path = .ok ((s0, l0), a0)
            ∧ cb s0 a0 b k path = .ok (s1, a1, r)
            ∧ visitsAt log (path ++ [k])
                = if isIterable bv && isIterable (propOf (commit a0 a1) k)
                  then (propsOf bv).map Prod.fst else [] := by
  obtain ⟨t, ps, rfl, _⟩ := isIterable_obj hb
  have hnest : ∀ (ks : Props), ∀ e ∈ ks, ∀ (path : List String) (s : σ) (l : List Visit)
      (a : Val), isNullish a = false →
      ∃ s2 tr a2, deepIt (logged cb) (s, l) a e.2 path = .ok ((s2, l ++ tr), a2)
        ∧ (∀ x ∈ tr, ∃ suf, x.path = path ++ suf) :=
    fun _ e _ => deepIt_run cb hcb e.2
  obtain ⟨s2, tr, a2, hrun, _, hvis, _⟩ :=
    deepItKeys_run cb hcb (.obj t ps) ps (hnest ps) path s [] a ha
  rw [List.nil_append] at hrun
  have hrun2 : deepIt (logged cb) (s, []) a (.obj t ps) path = .ok ((s2, tr), a2) := by
    rw [deepIt_obj]; exact hrun
  refine ⟨s2, tr, a2, hrun2, ?_, hvis, ?_⟩
  · rw [← deepIt_logged cb (.obj t ps) path s [] a, hrun2]; rfl
  · intro pre k bv post hps hdist
    simp only [propsOf] at hps
    -- the keys before `k`
    obtain ⟨s0, tr0, a0, hrun0, hnull0, _, hb0⟩ :=
      deepItKeys_run cb hcb (.obj t ps) pre (hnest pre) path s [] a ha
    rw [List.nil_append] at hrun0
    obtain ⟨s1, a1, r, hc, hr⟩ := hcb s0 a0 (.obj t ps) k path
    refine ⟨s0, tr0, a0, s1, a1, r, hrun0, hc, ?_⟩
    have hsplit := deepItKeys_append (logged cb) (neverStops_logged cb hcb) (.obj t ps) path
      pre ((k, bv) :: post) (s, []) a (s0, tr0) a0 ha hrun0
    rw [← hps, hrun] at hsplit
    rw [deepItKeys_cons_continue (logged cb) (s0, tr0) a0 (.obj t ps) k bv post path _ a1 r
      (logged_apply cb s0 tr0 a0 (.obj t ps) k path s1 a1 r hc) hr (fun _ => hnull0)] at hsplit
    have hca : isNullish (commit a0 a1) = false := by rw [isNullish_commit]; exact hnull0
    have hkpre : k ∉ pre.map Prod.fst := by
      intro hm
      obtain ⟨e, he, hek⟩ := List.mem_map.1 hm
      exact hdist e (List.mem_append_left _ he) hek
    have hkpost : k ∉ post.map Prod.fst := by
      intro hm
      obtain ⟨e, he, hek⟩ := List.mem_map.1 hm
      exact hdist e (List.mem_append_right _ he) hek
    have hv0 : visitsAt tr0 (path ++ [k]) = [] := visitsAt_below_other tr0 path _ k hkpre hb0
    have hvk : visitsAt [(⟨path, k, r⟩ : Visit)] (path ++ [k]) = [] := by
      apply visitsAt_eq_nil
      intro x hx
      simp only [List.mem_singleton] at hx
      rw [hx]
      exact fun h => path_append_cons_ne path k [] h.symm
    by_cases hit : (isIterable bv && isIterable (propOf (commit a0 a1) k)) = true
    · simp only [hit, if_true] at hsplit ⊢
      have hbv : isIterable bv = true := by simp at hit; exact hit.1
      have hak : isIterable (propOf (commit a0 a1) k) = true := by simp at hit; exact hit.2
      obtain ⟨t2, ps2, rfl, _⟩ := isIterable_obj hbv
      obtain ⟨s3, trn, ak2, hrunn, hnulln, hvisn, _⟩ :=
        deepItKeys_run cb hcb (.obj t2 ps2) ps2 (hnest ps2) (path ++ [k]) s1
          (tr0 ++ [⟨path, k, r⟩]) (propOf (commit a0 a1) k) (isNullish_of_isIterable hak)
      rw [deepIt_obj, hrunn] at hsplit
      simp only at hsplit
      obtain ⟨s4, trr, a4, hrunr, _, _, hbr⟩ :=
        deepItKeys_run cb hcb (.obj t ps) post (hnest post) path s3
          (tr0 ++ [⟨path, k, r⟩] ++ trn) (store (commit a0 a1) k ak2)
          (by rw [isNullish_store]; exact hca)
      rw [hrunr] at hsplit
      simp only [Except.ok.injEq, Prod.mk.injEq] at hsplit
      rw [hsplit.1.2]
      simp only [visitsAt_append, hv0, hvk, hvisn, List.nil_append, propsOf,
        visitsAt_below_other trr path _ k hkpost hbr, List.append_nil]
    · simp only [hit, Bool.false_eq_true, if_false] at hsplit ⊢
      obtain ⟨s4, trr, a4, hrunr, _, _, hbr⟩ :=
        deepItKeys_run cb hcb (.obj t ps) post (hnest post) path s1
          (tr0 ++ [⟨path, k, r⟩]) (commit a0 a1) hca
      rw [hrunr] at hsplit
      simp only [Except.ok.injEq, Prod.mk.injEq] at hsplit
      rw [hsplit.1.2]
      simp only [visitsAt_append, hv0, hvk, List.nil_append,
        visitsAt_below_other trr path _ k hkpost hbr]

/-- C4, witness: the walk of `{x: {}}` along `{x: {y: 1}, z: 2}` with the idle visitor. -/
theorem deepIt_visits_keys_of_b_witness :
    ∃ s2 log a2,
      deepIt (logged idleVisitor) ((), []) (.obj .record [("x", emptyRecord)])
          (.obj .record [("x", .obj .record [("y", .num 1)]), ("z", .num 2)]) []
        = .ok ((s2, log), a2)
      ∧ visitsAt log [] = ["x", "z"] ∧ visitsAt log ["x"] = ["y"] := by
  obtain ⟨s2, log, a2, h1, _, h3, h4⟩ :=
    deepIt_visits_keys_of_b idleVisitor neverStops_idleVisitor ()
      (.obj .record [("x", emptyRecord)])
      (.obj .record [("x", .obj .record [("y", .num 1)]), ("z", .num 2)]) [] rfl rfl
  refine ⟨s2, log, a2, h1, h3, ?_⟩
  obtain ⟨s0, l0, a0, s1, a1, r, h5, h6, h7⟩ :=
    h4 [] "x" (.obj .record [("y", .num 1)]) [("z", .num 2)] rfl (by decide)
  simp only [deepItKeys_nil, Except.ok.injEq, Prod.mk.injEq] at h5
  obtain ⟨⟨_, rfl⟩, rfl⟩ := h5
  simp only [idleVisitor, Except.ok.injEq, Prod.mk.injEq] at h6
  obtain ⟨_, rfl, rfl⟩ := h6
  exact h7


/-- The ways one turn of the loop can end in a result. -/
theorem deepItKeys_cons_ok {σ : Type} (cb : Visitor σ) (s : σ) (a b : Val) (key : String)
    (bv : Val) (rest : Props) (path : List String) (s3 : σ) (a3 : Val)
    (h : deepItKeys cb s a b ((key, bv) :: rest) path = .ok (s3, a3)) :
    ∃ s1 a1 r, cb s a b key path = .ok (s1, a1, r) ∧
      ((isExactlyFalse r = true ∧ s3 = s1 ∧ a3 = commit a a1)
      ∨ (isExactlyFalse r = false ∧ isIterable bv = true
          ∧ isIterable (propOf (commit a a1) key) = true
          ∧ ∃ s2 ak2, deepIt cb s1 (propOf (commit a a1) key) bv (path ++ [key])
                = .ok (s2, ak2)
              ∧ deepItKeys cb s2 (store (commit a a1) key ak2) b rest path = .ok (s3, a3))
      ∨ (isExactlyFalse r = false
          ∧ (isIterable bv && isIterable (propOf (commit a a1) key)) = false
          ∧ (isIterable bv = true → isNullish (commit a a1) = false)
          ∧ deepItKeys cb s1 (commit a a1) b rest path = .ok (s3, a3))) := by
  rw [deepItKeys] at h
  cases hc : cb s a b key path with
  | error e => rw [hc] at h; simp at h
  | ok x =>
    obtain ⟨s1, a1, r⟩ := x
    rw [hc] at h
    simp only at h
    refine ⟨s1, a1, r, rfl, ?_⟩
    by_cases hr : isExactlyFalse r = true
    · simp only [hr, if_true, Except.ok.injEq, Prod.mk.injEq] at h
      exact Or.inl ⟨hr, h.1.symm, h.2.symm⟩
    · have hr2 : isExactlyFalse r = false := by simpa using hr
      simp only [hr2, Bool.false_eq_true, if_false] at h
      by_cases hb : isIterable bv = true
      · simp only [hb, if_true] at h
        cases hrp : readProp (commit a a1) key with
        | error e => rw [hrp] at h; simp at h
        | ok ak =>
          rw [hrp] at h
          simp only at h
          have hnn : isNullish (commit a a1) = false := by
            cases hca : commit a a1 <;> rw [hca] at hrp <;> simp [readProp] at hrp <;> rfl
          have hak : ak = propOf (commit a a1) key := by
            cases hca : commit a a1 <;> rw [hca] at hrp <;> simp [readProp] at hrp <;>
              exact hrp.symm
          subst hak
          by_cases hi : isIterable (propOf (commit a a1) key) = true
          · simp only [hi, if_true] at h
            cases hd : deepIt cb s1 (propOf (commit a a1) key) bv (path ++ [key]) with
            | error e => rw [hd] at h; simp at h
            | ok y =>
              obtain ⟨s2, ak2⟩ := y
              rw [hd] at h
              exact Or.inr (Or.inl ⟨hr2, hb, hi, s2, ak2, rfl, h⟩)
          · simp only [hi, Bool.false_eq_true, if_false] at h
            exact Or.inr (Or.inr ⟨hr2, by simp [hi], fun _ => hnn, h⟩)
      · simp only [hb, Bool.false_eq_true, if_false] at h
        exact Or.inr (Or.inr ⟨hr2, by simp [hb], fun h2 => absurd h2 hb, h⟩)

theorem logged_ok_inv {σ : Type} (cb : Visitor σ) (s : σ) (l : List Visit) (a b : Val)
    (key : String) (path : List String) (x : σ × List Visit) (a1 r : Val)
    (h : logged cb (s, l) a b key path = .ok (x, a1, r)) :
    ∃ s1, cb s a b key path = .ok (s1, a1, r) ∧ x = (s1, l ++ [⟨path, key, r⟩]) := by
  unfold logged at h
  cases hc : cb s a b key path with
  | error e => rw [hc] at h; simp at h
  | ok y =>
    obtain ⟨s1, a2, r2⟩ := y
    rw [hc] at h
    simp only [Except.ok.injEq, Prod.mk.injEq] at h
    obtain ⟨h1, h2, h3⟩ := h
    subst h2; subst h3
    exact ⟨s1, rfl, h1.symm⟩


theorem visitsAt_length_cons_same (l : List Visit) (path : List String) (key : String)
    (r : Val) : (visitsAt (⟨path, key, r⟩ :: l) path).length = (visitsAt l path).length + 1 := by
  rw [visitsAt_cons_same]; rfl

theorem last_of_append {α : Type} (p : α → Prop) (t1 t2 : List α)
    (h1 : ∀ x ∈ t1, ¬ p x)
    (h2 : ∀ pre e post, t2 = pre ++ e :: post → p e → post = []) :
    ∀ pre e post, t1 ++ t2 = pre ++ e :: post → p e → post = [] := by
  intro pre e post hp he
  rcases List.append_eq_append_iff.1 hp with ⟨m, h3, h4⟩ | ⟨m, h3, h4⟩
  · exact h2 m e post h4 he
  · cases m with
    | nil =>
      simp only [List.nil_append] at h4
      exact h2 [] e post h4.symm he
    | cons m0 m2 =>
      simp only [List.cons_append, List.cons.injEq] at h4
      have hmem : e ∈ t1 := by rw [h3, h4.1]; simp
      exact absurd he (h1 e hmem)

/-- What the log of an observed walk that returns looks like, for any visitor. -/
theorem deepItKeys_log {σ : Type} (cb : Visitor σ) (b : Val) (keys : Props)
    (hnested : ∀ e ∈ keys, ∀ (path : List String) (s : σ) (l : List Visit) (a : Val)
      (s2 : σ) (l2 : List Visit) (a2 : Val),
      deepIt (logged cb) (s, l) a e.2 path = .ok ((s2, l2), a2) →
      ∃ tr, l2 = l ++ tr ∧ ∀ x ∈ tr, ∃ suf, x.path = path ++ suf) :
    ∀ (path : List String) (s : σ) (l : List Visit) (a : Val)
      (s2 : σ) (l2 : List Visit) (a2 : Val),
      deepItKeys (logged cb) (s, l) a b keys path = .ok ((s2, l2), a2) →
      ∃ tr, l2 = l ++ tr
        ∧ (∀ x ∈ tr, ∃ suf, x.path = path ++ suf)
        ∧ visitsAt tr path = (keys.map Prod.fst).take (visitsAt tr path).length
        ∧ (∀ pre e post, tr = pre ++ e :: post → (e.path = path ∧ e.ret = .bool false) →
            post = [])
        ∧ ((visitsAt tr path).length < keys.length →
            ∃ pre e, tr = pre ++ [e] ∧ e.path = path ∧ e.ret = .bool false) := by
  induction keys with
  | nil =>
    intro path s l a s2 l2 a2 h
    simp only [deepItKeys_nil, Except.ok.injEq, Prod.mk.injEq] at h
    refine ⟨[], by simp [← h.1.2], by simp, rfl, ?_, by simp [visitsAt]⟩
    intro pre e post hp
    simp at hp
  | cons e0 rest ih =>
    obtain ⟨key, bv⟩ := e0
    intro path s l a s3 l3 a3 h
    have ih2 := ih (fun e he => hnested e (List.mem_cons_of_mem _ he)) path
    obtain ⟨x1, a1, r, hc, hcases⟩ := deepItKeys_cons_ok _ _ _ _ _ _ _ _ _ _ h
    obtain ⟨s1, hc1, rfl⟩ := logged_ok_inv cb s l a b key path x1 a1 r hc
    have hv0 : ∀ x ∈ [(⟨path, key, r⟩ : Visit)], isExactlyFalse r = false →
        ¬ (x.path = path ∧ x.ret = .bool false) := by
      intro x hx hr hp
      simp only [List.mem_singleton] at hx
      rw [hx] at hp
      simp only at hp
      rw [hp.2] at hr
      simp [isExactlyFalse] at hr
    rcases hcases with ⟨hr, hs, _⟩ | ⟨hr, hbv, hak, y, ak2, hd, hrest⟩ | ⟨hr, _, _, hrest⟩
    · -- the visitor returned false
      simp only [Prod.mk.injEq] at hs
      refine ⟨[⟨path, key, r⟩], hs.2, ?_, ?_, ?_, ?_⟩
      · intro x hx
        simp only [List.mem_singleton] at hx
        exact ⟨[], by simp [hx]⟩
      · simp [visitsAt]
      · intro pre e post hp _
        cases pre with
        | nil => simp at hp; exact hp.2.symm ▸ rfl
        | cons p0 pre2 =>
          have := congrArg List.length hp
          simp at this
      · intro _
        exact ⟨[], ⟨path, key, r⟩, rfl, rfl, (isExactlyFalse_iff r).1 hr⟩
    · -- the walk went below the key
      obtain ⟨s2, l2⟩ := y
      obtain ⟨trn, rfl, hbn⟩ :=
        hnested (key, bv) (List.mem_cons_self _ _) _ _ _ _ _ _ _ hd
      obtain ⟨trr, rfl, hbr, hvis, hlast, hstop⟩ := ih2 _ _ _ _ _ _ hrest
      have hz : visitsAt trn path = [] := by
        apply visitsAt_eq_nil
        intro x hx
        obtain ⟨suf, hs⟩ := hbn x hx
        rw [hs, List.append_assoc]
        exact path_append_cons_ne _ _ _
      have hvt : visitsAt (([⟨path, key, r⟩] ++ trn) ++ trr) path
          = key :: visitsAt trr path := by
        rw [visitsAt_append, visitsAt_append, hz, List.append_nil]
        simp [visitsAt]
      refine ⟨([⟨path, key, r⟩] ++ trn) ++ trr, by simp, ?_, ?_, ?_, ?_⟩
      · intro x hx
        simp only [List.mem_append, List.mem_singleton] at hx
        rcases hx with (hx | hx) | hx
        · exact ⟨[], by simp [hx]⟩
        · obtain ⟨suf, hs⟩ := hbn x hx
          exact ⟨key :: suf, by rw [hs, List.append_assoc]; rfl⟩
        · exact hbr x hx
      · rw [hvt]
        simp only [List.map_cons, List.length_cons, List.take_succ_cons]
        rw [← hvis]
      · apply last_of_append _ _ _ _ hlast
        intro x hx
        simp only [List.mem_append] at hx
        rcases hx with hx | hx
        · exact hv0 x hx hr
        · intro hp
          obtain ⟨suf, hs⟩ := hbn x hx
          rw [hs, List.append_assoc] at hp
          exact path_append_cons_ne _ _ _ hp.1
      · intro hlt
        rw [hvt] at hlt
        simp only [List.length_cons, Nat.add_lt_add_iff_right] at hlt
        obtain ⟨pre, e, he, hep, her⟩ := hstop hlt
        exact ⟨([⟨path, key, r⟩] ++ trn) ++ pre, e, by rw [he]; simp, hep, her⟩
    · -- the walk stayed at this level
      obtain ⟨trr, rfl, hbr, hvis, hlast, hstop⟩ := ih2 _ _ _ _ _ _ hrest
      have hvt : visitsAt ([⟨path, key, r⟩] ++ trr) path = key :: visitsAt trr path := by
        rw [visitsAt_append]
        simp [visitsAt]
      refine ⟨[⟨path, key, r⟩] ++ trr, by simp, ?_, ?_, ?_, ?_⟩
      · intro x hx
        simp only [List.mem_append, List.mem_singleton] at hx
        rcases hx with hx | hx
        · exact ⟨[], by simp [hx]⟩
        · exact hbr x hx
      · rw [hvt]
        simp only [List.map_cons, List.length_cons, List.take_succ_cons]
        rw [← hvis]
      · apply last_of_append _ _ _ _ hlast
        intro x hx
        exact hv0 x hx hr
      · intro hlt
        rw [hvt] at hlt
        simp only [List.length_cons, Nat.add_lt_add_iff_right] at hlt
        obtain ⟨pre, e, he, hep, her⟩ := hstop hlt
        exact ⟨[⟨path, key, r⟩] ++ pre, e, by rw [he]; simp, hep, her⟩

/-- The log of an observed walk grows at its end, by calls below the path of the walk. -/
theorem deepIt_log {σ : Type} (cb : Visitor σ) (b : Val) :
    ∀ (path : List String) (s : σ) (l : List Visit) (a : Val)
      (s2 : σ) (l2 : List Visit) (a2 : Val),
      deepIt (logged cb) (s, l) a b path = .ok ((s2, l2), a2) →
      ∃ tr, l2 = l ++ tr ∧ ∀ x ∈ tr, ∃ suf, x.path = path ++ suf := by
  induction b using Val.induct_aux with
  | hleaf v hv =>
    intro path s l a s2 l2 a2 h
    rw [deepIt_leaf _ _ _ _ _ hv] at h
    simp only [Except.ok.injEq, Prod.mk.injEq] at h
    exact ⟨[], by simp [← h.1.2], by simp⟩
  | hobj t ps ih =>
    intro path s l a s2 l2 a2 h
    rw [deepIt_obj] at h
    obtain ⟨tr, h1, h2, _⟩ := deepItKeys_log cb (.obj t ps) ps ih path s l a s2 l2 a2 h
    exact ⟨tr, h1, h2⟩


/-! ### C5 -/

/-- C5: early exit is local to one container. For any visitor and any walk `deepIt(a, b,
visitor)` of a container `b` that returns: the visitor is called with the path of the walk on
an initial run of the keys of `b`; a call with this path that returns `false` is the last call
of the whole walk, so no later key of `b` is visited and the value under the key is not walked;
and when the run does not cover all keys of `b`, the last call of the walk is one with this
path that returned `false`. Hence no other returned value, and no `false` returned in a
container further down, ends the loop over the keys of `b`. -/
theorem deepIt_false_stops_one_container {σ : Type} (cb : Visitor σ) (s : σ) (a b : Val)
    (path : List String) (hb : isIterable b = true) (s2 : σ) (log : List Visit) (a2 : Val)
    (hrun : deepIt (logged cb) (s, []) a b path = .ok ((s2, log), a2)) :
    deepIt cb s a b path = .ok (s2, a2)
      ∧ visitsAt log path = ((propsOf b).map Prod.fst).take (visitsAt log path).length
      ∧ (∀ pre e post, log = pre ++ e :: post → e.path = path → e.ret = .bool false →
          post = [])
      ∧ ((visitsAt log path).length < (propsOf b).length →
          ∃ pre e, log = pre ++ [e] ∧ e.path = path ∧ e.ret = .bool false) := by
  obtain ⟨t, ps, rfl, _⟩ := isIterable_obj hb
  refine ⟨by rw [← deepIt_logged cb (.obj t ps) path s [] a, hrun]; rfl, ?_⟩
  rw [deepIt_obj] at hrun
  obtain ⟨tr, h1, _, h3, h4, h5⟩ :=
    deepItKeys_log cb (.obj t ps) ps (fun e _ => deepIt_log cb e.2) path s [] a s2 log a2 hrun
  rw [List.nil_append] at h1
  subst h1
  exact ⟨h3, fun pre e post hp h6 h7 => h4 pre e post hp ⟨h6, h7⟩, h5⟩

/-- C5, witness: with `a = {p: {}}` and `b = {p: {x: 1, y: 2}, q: 3}` a visitor that returns
`false` on `x` is not called on `y`, and is called on `q`. -/
theorem deepIt_false_stops_one_container_witness :
    isIterable (.obj .record [("p", .obj .record [("x", .num 1), ("y", .num 2)]),
        ("q", .num 3)]) = true
      ∧ deepIt (logged (stopAtVisitor "x")) ((), []) (.obj .record [("p", emptyRecord)])
          (.obj .record [("p", .obj .record [("x", .num 1), ("y", .num 2)]), ("q", .num 3)]) []
        = .ok (((), [⟨[], "p", .undefined⟩, ⟨["p"], "x", .bool false⟩, ⟨[], "q", .undefined⟩]),
            .obj .record [("p", emptyRecord)])
      ∧ deepIt (stopAtVisitor "x") () (.obj .record [("p", emptyRecord)])
          (.obj .record [("p", .obj .record [("x", .num 1), ("y", .num 2)]), ("q", .num 3)]) []
        = .ok ((), .obj .record [("p", emptyRecord)]) :=
  ⟨rfl, rfl,
    (deepIt_false_stops_one_container (stopAtVisitor "x") () (.obj .record [("p", emptyRecord)])
      (.obj .record [("p", .obj .record [("x", .num 1), ("y", .num 2)]), ("q", .num 3)]) []
      rfl () [⟨[], "p", .undefined⟩, ⟨["p"], "x", .bool false⟩, ⟨[], "q", .undefined⟩]
      (.obj .record [("p", emptyRecord)]) rfl).1⟩

/-! ## Facts about walks, for the operations -/

theorem classOf_commit (a a1 : Val) : classOf (commit a a1) = classOf a := by
  cases a with
  | obj t ps => cases a1 <;> cases t <;> rfl
  | _ => cases a1 <;> rfl

theorem classOf_store (a : Val) (k : String) (v : Val) : classOf (store a k v) = classOf a := by
  cases a with
  | obj t ps => cases t <;> rfl
  | _ => rfl

theorem isNullish_of_isIterable_propOf {a : Val} {k : String}
    (h : isIterable (propOf a k) = true) : isNullish a = false := by
  have := hasOwn_of_isIterable_propOf h
  cases a <;> first | rfl | simp [propsOf, hasOwn, ownLookup] at this

theorem isIterable_of_classOf {a b : Val} (h : classOf a = classOf b) :
    isIterable a = isIterable b := by
  simp [isIterable, is, h]

theorem isIterable_commit (a a1 : Val) : isIterable (commit a a1) = isIterable a :=
  isIterable_of_classOf (classOf_commit a a1)

theorem ownLookup_store_other (o : Val) (k k3 : String) (v : Val) (hne : k3 ≠ k) :
    ownLookup (propsOf (store o k v)) k3 = ownLookup (propsOf o) k3 := by
  cases o <;> simp [store, propsOf, ownLookup_putOwn_other _ _ _ _ hne]

theorem ownLookup_store_same (t : Tag) (ps : Props) (k : String) (v : Val) :
    ownLookup (propsOf (store (.obj t ps) k v)) k = some v := by
  simp [store, propsOf, ownLookup_putOwn_same]

theorem propOf_eq_of_ownLookup {a b : Val} {k : String}
    (h : ownLookup (propsOf a) k = ownLookup (propsOf b) k) : propOf a k = propOf b k := by
  simp [propOf, h]

theorem hasProp_eq_of_ownLookup {a b : Val} {k : String}
    (h : ownLookup (propsOf a) k = ownLookup (propsOf b) k) : hasProp a k = hasProp b k := by
  simp [hasProp, hasOwn, h]

/-- The class of the destination does not change in a walk. -/
theorem deepItKeys_classOf {σ : Type} (cb : Visitor σ) (b : Val) (path : List String)
    (keys : Props) : ∀ (s : σ) (a : Val) (s2 : σ) (a2 : Val),
      deepItKeys cb s a b keys path = .ok (s2, a2) → classOf a2 = classOf a := by
  induction keys with
  | nil =>
    intro s a s2 a2 h
    simp only [deepItKeys_nil, Except.ok.injEq, Prod.mk.injEq] at h
    rw [h.2]
  | cons e rest ih =>
    obtain ⟨key, bv⟩ := e
    intro s a s2 a2 h
    obtain ⟨s1, a1, r, _, hcases⟩ := deepItKeys_cons_ok _ _ _ _ _ _ _ _ _ _ h
    rcases hcases with ⟨_, _, ha⟩ | ⟨_, _, _, s3, ak2, _, hrest⟩ | ⟨_, _, _, hrest⟩
    · rw [ha, classOf_commit]
    · rw [ih _ _ _ _ hrest, classOf_store, classOf_commit]
    · rw [ih _ _ _ _ hrest, classOf_commit]

theorem deepIt_classOf {σ : Type} (cb : Visitor σ) (b : Val) (path : List String) (s : σ)
    (a : Val) (s2 : σ) (a2 : Val) (h : deepIt cb s a b path = .ok (s2, a2)) :
    classOf a2 = classOf a := by
  cases b with
  | obj t ps =>
    rw [deepIt_obj] at h
    exact deepItKeys_classOf cb _ path ps s a s2 a2 h
  | _ =>
    rw [deepIt_leaf _ _ _ _ _ (by intro t ps h2; cases h2)] at h
    simp only [Except.ok.injEq, Prod.mk.injEq] at h
    rw [h.2]

/-- A walk with a visitor that touches only the key it is called on leaves alone every
property of the destination whose key is not visited. -/
theorem deepItKeys_frame {σ : Type} (cb : Visitor σ) (hloc : TouchesOnlyKey cb) (b : Val)
    (path : List String) (k : String) (keys : Props) (hk : k ∉ keys.map Prod.fst) :
    ∀ (s : σ) (a : Val) (s2 : σ) (a2 : Val),
      deepItKeys cb s a b keys path = .ok (s2, a2) →
      ownLookup (propsOf a2) k = ownLookup (propsOf a) k := by
  induction keys with
  | nil =>
    intro s a s2 a2 h
    simp only [deepItKeys_nil, Except.ok.injEq, Prod.mk.injEq] at h
    rw [h.2]
  | cons e rest ih =>
    obtain ⟨key, bv⟩ := e
    simp only [List.map_cons, List.mem_cons, not_or] at hk
    intro s a s2 a2 h
    obtain ⟨s1, a1, r, hc, hcases⟩ := deepItKeys_cons_ok _ _ _ _ _ _ _ _ _ _ h
    have h1 := hloc s a b key path s1 a1 r hc k hk.1
    rcases hcases with ⟨_, _, ha⟩ | ⟨_, _, _, s3, ak2, _, hrest⟩ | ⟨_, _, _, hrest⟩
    · rw [ha, h1]
    · rw [ih hk.2 _ _ _ _ hrest, ownLookup_store_other _ _ _ _ hk.1, h1]
    · rw [ih hk.2 _ _ _ _ hrest, h1]

/-- A walk that returns, with a visitor that never returns `false`, is the walk over the first
keys followed by the walk over the rest. -/
theorem deepItKeys_append_ok {σ : Type} (cb : Visitor σ) (hnf : NoFalse cb) (b : Val)
    (path : List String) (ks1 ks2 : Props) :
    ∀ (s : σ) (a : Val) (s2 : σ) (a2 : Val),
      deepItKeys cb s a b (ks1 ++ ks2) path = .ok (s2, a2) →
      ∃ s1 a1, deepItKeys cb s a b ks1 path = .ok (s1, a1)
        ∧ deepItKeys cb s1 a1 b ks2 path = .ok (s2, a2) := by
  induction ks1 with
  | nil =>
    intro s a s2 a2 h
    exact ⟨s, a, deepItKeys_nil _ _ _ _ _, h⟩
  | cons e rest ih =>
    obtain ⟨key, bv⟩ := e
    intro s a s2 a2 h
    rw [List.cons_append] at h
    obtain ⟨s1, a1, r, hc, hcases⟩ := deepItKeys_cons_ok _ _ _ _ _ _ _ _ _ _ h
    have hr := hnf s a b key path s1 a1 r hc
    rcases hcases with ⟨hr2, _, _⟩ | ⟨_, hbv, hak, s3, ak2, hd, hrest⟩ | ⟨_, hno, hnn, hrest⟩
    · rw [hr] at hr2; exact absurd hr2 (by simp)
    · obtain ⟨s4, a4, h1, h2⟩ := ih _ _ _ _ hrest
      refine ⟨s4, a4, ?_, h2⟩
      have hnn : isNullish a = false := by
        rw [← isNullish_commit a a1]; exact isNullish_of_isIterable_propOf hak
      rw [deepItKeys_cons_continue cb s a b key bv _ path s1 a1 r hc hr (fun _ => hnn)]
      simp only [hbv, hak, Bool.and_self, if_true, hd]
      exact h1
    · obtain ⟨s4, a4, h1, h2⟩ := ih _ _ _ _ hrest
      refine ⟨s4, a4, ?_, h2⟩
      rw [deepItKeys_cons_continue cb s a b key bv _ path s1 a1 r hc hr
        (fun h => by rw [← isNullish_commit a a1]; exact hnn h)]
      simp only [hno, Bool.false_eq_true, if_false]
      exact h1

theorem wfProps_cons (k : String) (v : Val) (r : Props) :
    wfProps ((k, v) :: r) = (!hasOwn r k && wf v && wfProps r) := by
  rw [wfProps]

theorem wf_obj (t : Tag) (ps : Props) : wf (.obj t ps) = wfProps ps := by
  rw [wf]

theorem hasOwn_iff_mem (ps : Props) (k : String) :
    hasOwn ps k = true ↔ k ∈ ps.map Prod.fst := by
  induction ps with
  | nil => simp [hasOwn, ownLookup]
  | cons e r ih =>
    obtain ⟨k2, v2⟩ := e
    rw [hasOwn_cons]
    simp only [Bool.or_eq_true, decide_eq_true_eq, ih, List.map_cons, List.mem_cons]
    constructor
    · rintro (h | h)
      · exact Or.inl h.symm
      · exact Or.inr h
    · rintro (h | h)
      · exact Or.inl h.symm
      · exact Or.inr h

/-- In a well-formed property list an entry is what the read of its key gives, and its value
is well-formed. -/
theorem wfProps_mem (ps : Props) (hwf : wfProps ps = true) :
    ∀ e ∈ ps, ownLookup ps e.1 = some e.2 ∧ wf e.2 = true := by
  induction ps with
  | nil => intro e he; cases he
  | cons e0 r ih =>
    obtain ⟨k0, v0⟩ := e0
    rw [wfProps_cons] at hwf
    simp only [Bool.and_eq_true, Bool.not_eq_true'] at hwf
    obtain ⟨⟨h1, h2⟩, h3⟩ := hwf
    intro e he
    rcases List.mem_cons.1 he with h | h
    · rw [h]; simp [ownLookup, h2]
    · obtain ⟨h4, h5⟩ := ih h3 e h
      refine ⟨?_, h5⟩
      have hne : k0 ≠ e.1 := by
        intro heq
        have : hasOwn r e.1 = true := by simp [hasOwn, h4]
        rw [← heq, h1] at this
        exact absurd this (by simp)
      simp [ownLookup, hne, h4]

/-- A well-formed property list splits at any of its keys. -/
theorem wfProps_split (ps : Props) (hwf : wfProps ps = true) (k : String)
    (hk : hasOwn ps k = true) :
    ∃ pre v post, ps = pre ++ (k, v) :: post ∧ k ∉ pre.map Prod.fst
      ∧ k ∉ post.map Prod.fst ∧ ownLookup ps k = some v := by
  induction ps with
  | nil => simp [hasOwn, ownLookup] at hk
  | cons e0 r ih =>
    obtain ⟨k0, v0⟩ := e0
    rw [wfProps_cons] at hwf
    simp only [Bool.and_eq_true, Bool.not_eq_true'] at hwf
    obtain ⟨⟨h1, _⟩, h3⟩ := hwf
    by_cases h0 : k0 = k
    · subst h0
      refine ⟨[], v0, r, rfl, by simp, ?_, by simp [ownLookup]⟩
      rw [← hasOwn_iff_mem, h1]; simp
    · rw [hasOwn_cons] at hk
      simp only [h0, decide_False, Bool.false_or] at hk
      obtain ⟨pre, v, post, hps, hpre, hpost, hl⟩ := ih h3 hk
      refine ⟨(k0, v0) :: pre, v, post, by rw [hps]; rfl, ?_, hpost, by simp [ownLookup, h0, hl]⟩
      simp only [List.map_cons, List.mem_cons, not_or]
      exact ⟨fun h => h0 h.symm, hpre⟩


theorem commit_obj (t : Tag) (ps : Props) (a1 : Val) :
    ∃ ps2, commit (.obj t ps) a1 = .obj t ps2 := by
  cases a1 <;> first | exact ⟨ps, rfl⟩ | exact ⟨_, rfl⟩

theorem store_obj (t : Tag) (ps : Props) (k : String) (v : Val) :
    store (.obj t ps) k v = .obj t (putOwn ps k v) := rfl

theorem commit_self (a : Val) : commit a a = a := by
  cases a <;> rfl

theorem commit_store (t : Tag) (ps : Props) (k : String) (v : Val) :
    commit (.obj t ps) (store (.obj t ps) k v) = store (.obj t ps) k v := rfl

theorem replaceOwn_self (ps : Props) (k : String) (v : Val) (h : ownLookup ps k = some v) :
    replaceOwn ps k v = ps := by
  induction ps with
  | nil => rfl
  | cons e r ih =>
    obtain ⟨k2, v2⟩ := e
    by_cases hk : k2 = k
    · simp only [ownLookup, hk, if_true, Option.some.injEq] at h
      simp [replaceOwn, hk, h]
    · simp only [ownLookup, hk, if_false] at h
      simp [replaceOwn, hk, ih h]

theorem putOwn_self (ps : Props) (k : String) (v : Val) (h : ownLookup ps k = some v) :
    putOwn ps k v = ps := by
  unfold putOwn
  simp [hasOwn, h, replaceOwn_self ps k v h]

theorem store_self (a : Val) (k : String) (v : Val) (h : ownLookup (propsOf a) k = some v) :
    store a k v = a := by
  cases a with
  | obj t ps => simp only [propsOf] at h; simp [store, putOwn_self ps k v h]
  | _ => rfl

theorem propOf_of_ownLookup {a : Val} {k : String} {v : Val}
    (h : ownLookup (propsOf a) k = some v) : propOf a k = v := by
  simp [propOf, h]

theorem obj_of_hasOwn {a : Val} {k : String} (h : hasOwn (propsOf a) k = true) :
    ∃ t ps, a = .obj t ps := by
  cases a <;> first | exact ⟨_, _, rfl⟩ | simp [propsOf, hasOwn, ownLookup] at h

/-- A walk of a value along itself changes nothing, for a visitor that leaves `a` as it is on
the keys `a` has. -/
theorem deepIt_self {σ : Type} (cb : Visitor σ)
    (hcb : ∀ s t ps key path, hasOwn ps key = true →
      ∃ a1, cb s (.obj t ps) (.obj t ps) key path = .ok (s, a1, .undefined)
        ∧ commit (.obj t ps) a1 = .obj t ps) :
    ∀ v, wf v = true → ∀ (path : List String) (s : σ), deepIt cb s v v path = .ok (s, v) := by
  intro v
  induction v using Val.induct_aux with
  | hleaf v hv => intro _ path s; exact deepIt_leaf _ _ _ _ _ hv
  | hobj t ps ih =>
    intro hwf path s
    rw [wf_obj] at hwf
    rw [deepIt_obj]
    have key_lemma : ∀ keys : Props, (∀ e ∈ keys, e ∈ ps) → ∀ s : σ,
        deepItKeys cb s (.obj t ps) (.obj t ps) keys path = .ok (s, .obj t ps) := by
      intro keys
      induction keys with
      | nil => intro _ s; exact deepItKeys_nil _ _ _ _ _
      | cons e rest ihk =>
        obtain ⟨key, bv⟩ := e
        intro hsub s
        have hmem : (key, bv) ∈ ps := hsub _ (List.mem_cons_self _ _)
        obtain ⟨hl, hwfv⟩ := wfProps_mem ps hwf _ hmem
        simp only at hl hwfv
        obtain ⟨a1, hc, hcm⟩ := hcb s t ps key path (by simp [hasOwn, hl])
        rw [deepItKeys_cons_continue cb s _ _ key bv rest path s a1 .undefined hc rfl
          (fun _ => rfl), hcm]
        have hp : propOf (.obj t ps) key = bv := propOf_of_ownLookup hl
        rw [hp]
        by_cases hit : isIterable bv = true
        · simp only [hit, Bool.and_self, if_true]
          rw [ih _ hmem hwfv (path ++ [key]) s]
          simp only
          rw [store_self (.obj t ps) key bv hl]
          exact ihk (fun e he => hsub e (List.mem_cons_of_mem _ he)) s
        · simp only [hit, Bool.and_self, Bool.false_eq_true, if_false]
          exact ihk (fun e he => hsub e (List.mem_cons_of_mem _ he)) s
    exact key_lemma ps (fun e he => he) s

/-- A walk with a visitor that returns on objects returns when the destination is one. -/
theorem deepIt_returns {σ : Type} (cb : Visitor σ) (hret : ReturnsOnObjects cb) (b : Val) :
    ∀ (path : List String) (s : σ) (t : Tag) (ps : Props),
      ∃ s2 a2, deepIt cb s (.obj t ps) b path = .ok (s2, a2) := by
  induction b using Val.induct_aux with
  | hleaf v hv => intro path s t ps; exact ⟨s, _, deepIt_leaf _ _ _ _ _ hv⟩
  | hobj tb psb ih =>
    intro path s t ps
    rw [deepIt_obj]
    have key_lemma : ∀ keys : Props, (∀ e ∈ keys, e ∈ psb) → ∀ (s : σ) (ps : Props),
        ∃ s2 a2, deepItKeys cb s (.obj t ps) (.obj tb psb) keys path = .ok (s2, a2) := by
      intro keys
      induction keys with
      | nil => intro _ s ps; exact ⟨s, _, deepItKeys_nil _ _ _ _ _⟩
      | cons e rest ihk =>
        obtain ⟨key, bv⟩ := e
        intro hsub s ps
        have hrest := ihk (fun e he => hsub e (List.mem_cons_of_mem _ he))
        obtain ⟨s1, a1, r, hc⟩ := hret s t ps (.obj tb psb) key path
        by_cases hr : isExactlyFalse r = true
        · exact ⟨s1, _, deepItKeys_cons_break cb s _ _ key bv rest path s1 a1 r hc hr⟩
        · have hr2 : isExactlyFalse r = false := by simpa using hr
          obtain ⟨ps2, hcm⟩ := commit_obj t ps a1
          rw [deepItKeys_cons_continue cb s _ _ key bv rest path s1 a1 r hc hr2
            (fun _ => rfl), hcm]
          by_cases hit : (isIterable bv && isIterable (propOf (.obj t ps2) key)) = true
          · simp only [hit, if_true]
            have hak : isIterable (propOf (.obj t ps2) key) = true := by
              simp at hit; exact hit.2
            obtain ⟨t3, ps3, h3, _⟩ := isIterable_obj hak
            rw [h3]
            obtain ⟨s4, a4, h4⟩ := ih _ (hsub _ (List.mem_cons_self _ _)) (path ++ [key]) s1
              t3 ps3
            simp only at h4
            rw [h4]
            exact hrest s4 _
          · simp only [hit, Bool.false_eq_true, if_false]
            exact hrest s1 _
    exact key_lemma psb (fun e he => he) s ps

/-- The effect of a walk on the property of the destination under one key of `b`. -/
theorem deepItKeys_at_key {σ : Type} (cb : Visitor σ) (hnf : NoFalse cb)
    (hloc : TouchesOnlyKey cb) (b : Val) (path : List String) (pre post : Props)
    (k : String) (bv : Val) (hpre : k ∉ pre.map Prod.fst) (hpost : k ∉ post.map Prod.fst)
    (s : σ) (a : Val) (s2 : σ) (a2 : Val)
    (h : deepItKeys cb s a b (pre ++ (k, bv) :: post) path = .ok (s2, a2)) :
    ∃ s0 a0 s1 a1 r, deepItKeys cb s a b pre path = .ok (s0, a0)
      ∧ ownLookup (propsOf a0) k = ownLookup (propsOf a) k
      ∧ classOf a0 = classOf a
      ∧ cb s0 a0 b k path = .ok (s1, a1, r)
      ∧ (((isIterable bv && isIterable (propOf (commit a0 a1) k)) = true
          ∧ ∃ s3 ak2, deepIt cb s1 (propOf (commit a0 a1) k) bv (path ++ [k]) = .ok (s3, ak2)
            ∧ ownLookup (propsOf a2) k = some ak2)
        ∨ ((isIterable bv && isIterable (propOf (commit a0 a1) k)) = false
          ∧ ownLookup (propsOf a2) k = ownLookup (propsOf (commit a0 a1)) k)) := by
  obtain ⟨s0, a0, h0, h1⟩ := deepItKeys_append_ok cb hnf b path pre _ s a s2 a2 h
  obtain ⟨s1, a1, r, hc, hcases⟩ := deepItKeys_cons_ok _ _ _ _ _ _ _ _ _ _ h1
  refine ⟨s0, a0, s1, a1, r, h0, deepItKeys_frame cb hloc b path k pre hpre _ _ _ _ h0,
    deepItKeys_classOf cb b path pre _ _ _ _ h0, hc, ?_⟩
  have hr := hnf _ _ _ _ _ _ _ _ hc
  rcases hcases with ⟨hr2, _, _⟩ | ⟨_, hbv, hak, s3, ak2, hd, hrest⟩ | ⟨_, hno, _, hrest⟩
  · rw [hr] at hr2; exact absurd hr2 (by simp)
  · left
    refine ⟨by simp [hbv, hak], s3, ak2, hd, ?_⟩
    rw [deepItKeys_frame cb hloc b path k post hpost _ _ _ _ hrest]
    obtain ⟨t, ps, hca⟩ := obj_of_hasOwn (hasOwn_of_isIterable_propOf hak)
    rw [hca, ownLookup_store_same]
  · right
    exact ⟨hno, deepItKeys_frame cb hloc b path k post hpost _ _ _ _ hrest⟩


/-! ## `assign` -/

theorem obj_of_classOf {a : Val} {t : Tag} {ps : Props} (h : classOf a = classOf (.obj t ps)) :
    ∃ ps2, a = .obj t ps2 := by
  cases a with
  | obj t2 ps2 =>
    cases t <;> cases t2 <;> first | exact ⟨_, rfl⟩ | (simp [classOf] at h)
  | _ => cases t <;> simp [classOf] at h

theorem assignCb_obj (s : Unit) (t : Tag) (ps : Props) (b : Val) (key : String)
    (path : List String) :
    assignCb s (.obj t ps) b key path
      = .ok (s, store (.obj t ps) key (propOf b key), .undefined) := rfl

theorem noFalse_assignCb : NoFalse assignCb := by
  intro s a b key path s1 a1 r h
  unfold assignCb at h
  cases hp : assignProp a key (propOf b key) with
  | error e => rw [hp] at h; simp at h
  | ok x =>
    rw [hp] at h
    simp only [Except.ok.injEq, Prod.mk.injEq] at h
    rw [← h.2.2]; rfl

theorem touchesOnlyKey_assignCb : TouchesOnlyKey assignCb := by
  intro s a b key path s1 a1 r h k hk
  cases a with
  | obj t ps =>
    rw [assignCb_obj] at h
    simp only [Except.ok.injEq, Prod.mk.injEq] at h
    rw [← h.2.1, commit_store, ownLookup_store_other _ _ _ _ hk]
  | _ => rfl

theorem returnsOnObjects_assignCb : ReturnsOnObjects assignCb :=
  fun s t ps b key path => ⟨s, _, _, assignCb_obj s t ps b key path⟩

theorem assignCb_self (s : Unit) (t : Tag) (ps : Props) (key : String) (path : List String)
    (h : hasOwn ps key = true) :
    ∃ a1, assignCb s (.obj t ps) (.obj t ps) key path = .ok (s, a1, .undefined)
      ∧ commit (.obj t ps) a1 = .obj t ps := by
  refine ⟨_, assignCb_obj s t ps _ key path, ?_⟩
  rw [commit_store]
  apply store_self
  simp only [propsOf, propOf]
  cases hl : ownLookup ps key with
  | none => simp [hasOwn, hl] at h
  | some x => rfl

theorem assignHelper_single (t s : Val) (cb : Visitor Unit) (ht : isNullish t = false) :
    assignHelper t [s] cb = match deepIt cb () t s [] with
      | .error e => .error e
      | .ok x => .ok x.2 := by
  unfold assignHelper
  simp only [ht, Bool.false_eq_true, if_false, assignLoop]
  cases deepIt cb () t s [] <;> rfl

/-- What `assign` with one source does to the properties of the target. -/
theorem assign_result (t s : Val) (ht : isIterable t = true) (hs : isIterable s = true)
    (hwf : wf s = true) :
    ∃ r, assign t [s] = .ok r ∧ classOf r = classOf t
      ∧ (∀ k, hasOwn (propsOf s) k = true → ownLookup (propsOf r) k = some (propOf s k))
      ∧ (∀ k, hasOwn (propsOf s) k = false →
          ownLookup (propsOf r) k = ownLookup (propsOf t) k) := by
  obtain ⟨tt, pst, rfl, _⟩ := isIterable_obj ht
  obtain ⟨ts, pss, rfl, _⟩ := isIterable_obj hs
  rw [wf_obj] at hwf
  obtain ⟨u, r, hrun⟩ := deepIt_returns assignCb returnsOnObjects_assignCb (.obj ts pss) []
    () tt pst
  refine ⟨r, ?_, deepIt_classOf _ _ _ _ _ _ _ hrun, ?_, ?_⟩
  · unfold assign
    rw [assignHelper_single (.obj tt pst) _ _ rfl, hrun]
  · intro k hk
    simp only [propsOf] at hk
    obtain ⟨pre, v, post, hps, hpre, hpost, hl⟩ := wfProps_split pss hwf k hk
    rw [deepIt_obj] at hrun
    have hrun2 : deepItKeys assignCb () (.obj tt pst) (.obj ts pss) (pre ++ (k, v) :: post) []
        = .ok (u, r) := by rw [← hps]; exact hrun
    obtain ⟨s0, a0, s1, a1, r1, _, hl0, hcl, hc, hcases⟩ :=
      deepItKeys_at_key assignCb noFalse_assignCb touchesOnlyKey_assignCb _ [] pre post k v
        hpre hpost () _ u r hrun2
    obtain ⟨ps0, rfl⟩ := obj_of_classOf hcl
    rw [assignCb_obj] at hc
    simp only [Except.ok.injEq, Prod.mk.injEq] at hc
    obtain ⟨_, rfl, _⟩ := hc
    have hv : propOf (.obj ts pss) k = v := propOf_of_ownLookup hl
    rw [hv, commit_store] at hcases
    rw [hv]
    have hmem : (k, v) ∈ pss := by rw [hps]; simp
    rcases hcases with ⟨hit, s3, ak2, hd, hres⟩ | ⟨_, hres⟩
    · rw [propOf_store_same] at hd hit
      rw [deepIt_self assignCb assignCb_self v (wfProps_mem pss hwf _ hmem).2] at hd
      simp only [Except.ok.injEq, Prod.mk.injEq] at hd
      rw [hres, hd.2]
    · rw [hres, ownLookup_store_same]
  · intro k hk
    simp only [propsOf] at hk
    rw [deepIt_obj] at hrun
    have hnot : k ∉ pss.map Prod.fst := by
      rw [← hasOwn_iff_mem, hk]; simp
    exact deepItKeys_frame assignCb touchesOnlyKey_assignCb _ [] k pss hnot _ _ _ _ hrun


theorem getWalk_cons_congr (a b : Val) (k : String) (p : List String)
    (hc : classOf a = classOf b)
    (hl : ownLookup (propsOf a) k = ownLookup (propsOf b) k) :
    getWalk a (k :: p) = getWalk b (k :: p) := by
  rw [getWalk_cons, getWalk_cons, isIterable_of_classOf hc, hasProp_eq_of_ownLookup hl,
    propOf_eq_of_ownLookup hl]

theorem get_keys_congr (a b : Val) (p : List String) (h : getWalk a p = getWalk b p)
    (e : Bool) : get a (.keys p) e = get b (.keys p) e := by
  unfold get
  simp only [getPath, h]

/-! ### C6 -/

/-- C6, counterexample: `assign({a: {x: 1}}, {a: {y: 2}})` yields `{a: {y: 2}}`; the leaf
`a.x` of the target, at a path the source does not define, is gone. -/
theorem assign_replaces_container :
    assign (.obj .record [("a", .obj .record [("x", .num 1)])])
        [.obj .record [("a", .obj .record [("y", .num 2)])]]
      = .ok (.obj .record [("a", .obj .record [("y", .num 2)])])
    ∧ get (.obj .record [("a", .obj .record [("x", .num 1)])]) (.dotted "a.x") false
      = hitArr (.num 1)
    ∧ get (.obj .record [("a", .obj .record [("y", .num 2)])]) (.dotted "a.x") false = missArr
    ∧ get (.obj .record [("a", .obj .record [("y", .num 2)])]) (.dotted "a.x") false
      ≠ hitArr (.num 1) :=
  ⟨rfl, rfl, rfl, by decide⟩

/-- C6, amended: `assign` overwrites key by key. For a container target `t` and a container
source `s`, both trees of plain records, it returns the target, in which every own key of `s`
holds the value `s` has there, whether `t` held a container under the key or not; and every
path without the key `__proto__` whose first key `s` does not define resolves as it did in
`t`. -/
theorem assign_overwrites_keys (t s : Val) (ht : isIterable t = true)
    (hs : isIterable s = true) (hwf : wf s = true) (_hpt : plain t = true)
    (_hps : plain s = true) :
    ∃ r, assign t [s] = .ok r ∧ isIterable r = true
      ∧ (∀ k, hasOwn (propsOf s) k = true → propOf r k = propOf s k)
      ∧ (∀ k p e, hasOwn (propsOf s) k = false → plainPath (k :: p) = true →
          get r (.keys (k :: p)) e = get t (.keys (k :: p)) e) := by
  obtain ⟨r, hr, hc, hown, hother⟩ := assign_result t s ht hs hwf
  refine ⟨r, hr, by rw [isIterable_of_classOf hc]; exact ht, ?_, ?_⟩
  · intro k hk
    exact propOf_of_ownLookup (hown k hk)
  · intro k p e hk _
    exact get_keys_congr _ _ _ (getWalk_cons_congr r t k p hc (hother k hk)) e

/-- C6, witness: `assign({a: {x: 1}, b: 3}, {a: {y: 2}})` yields `{a: {y: 2}, b: 3}`. -/
theorem assign_overwrites_keys_witness :
    ∃ r, assign (.obj .record [("a", .obj .record [("x", .num 1)]), ("b", .num 3)])
        [.obj .record [("a", .obj .record [("y", .num 2)])]] = .ok r
      ∧ propOf r "a" = .obj .record [("y", .num 2)]
      ∧ get r (.keys ["b"]) false = hitArr (.num 3) := by
  obtain ⟨r, h1, _, h3, h4⟩ :=
    assign_overwrites_keys (.obj .record [("a", .obj .record [("x", .num 1)]), ("b", .num 3)])
      (.obj .record [("a", .obj .record [("y", .num 2)])]) rfl rfl rfl rfl rfl
  exact ⟨r, h1, h3 "a" rfl, h4 "b" [] false rfl rfl⟩

/-! ### C8 -/

/-- C8, counterexample: the path `toString` resolves in the source `{}`, to the inherited
method, and in `assign({toString: 1}, {})` to the number 1 of the target. -/
theorem assign_keeps_target_under_inherited_name :
    get emptyRecord (.dotted "toString") false = hitArr builtinFn
      ∧ ∃ r, assign (.obj .record [("toString", .num 1)]) [emptyRecord] = .ok r
        ∧ get r (.dotted "toString") false = hitArr (.num 1)
        ∧ get r (.dotted "toString") false ≠ hitArr builtinFn :=
  ⟨rfl, _, rfl, rfl, by decide⟩

/-- C8, amended: the source wins in `assign`. For a container target `t` and a container
source `s`, both trees of plain records, every path without the key `__proto__` that starts
with an own key of `s` and resolves in `s` resolves in `assign(t, s)` to the same value; and
`assign({}, s)` has the keys of `s` and under each the value `s` has. -/
theorem assign_source_wins (t s : Val) (ht : isIterable t = true) (hs : isIterable s = true)
    (hwf : wf s = true) (_hpt : plain t = true) (_hps : plain s = true) :
    ∃ r, assign t [s] = .ok r
      ∧ (∀ k p x, hasOwn (propsOf s) k = true → plainPath p = true →
          get s (.keys (k :: p)) false = hitArr x → get r (.keys (k :: p)) false = hitArr x)
      ∧ (t = emptyRecord → ∀ k,
          hasOwn (propsOf r) k = hasOwn (propsOf s) k ∧ propOf r k = propOf s k) := by
  obtain ⟨r, hr, hc, hown, hother⟩ := assign_result t s ht hs hwf
  have hir : isIterable r = true := by rw [isIterable_of_classOf hc]; exact ht
  refine ⟨r, hr, ?_, ?_⟩
  · intro k p x hk _ hg
    rw [get_hit_iff] at hg ⊢
    simp only [getPath] at hg ⊢
    have hps : propOf s k = propOf r k := (propOf_of_ownLookup (hown k hk)).symm
    have hhr : hasProp r k = true := by simp [hasProp, hasOwn, hown k hk]
    have hhs : hasProp s k = true := by simp [hasProp, hk]
    rw [getWalk_cons_of_isIterable _ _ _ hs hhs, hps] at hg
    rw [getWalk_cons_of_isIterable _ _ _ hir hhr]
    exact hg
  · intro he k
    subst he
    by_cases hk : hasOwn (propsOf s) k = true
    · refine ⟨?_, propOf_of_ownLookup (hown k hk)⟩
      rw [hk]
      unfold hasOwn
      rw [hown k hk]
      rfl
    · have hk2 : hasOwn (propsOf s) k = false := by simpa using hk
      have h0 := hother k hk2
      have hnone : ownLookup (propsOf s) k = none := by simpa [hasOwn] using hk2
      refine ⟨?_, ?_⟩
      · rw [hk2]
        unfold hasOwn
        rw [h0]
        rfl
      · apply propOf_eq_of_ownLookup
        rw [h0, hnone]
        rfl

/-- C8, witness: `assign({}, {a: {x: 1}})` yields `{a: {x: 1}}`. -/
theorem assign_source_wins_witness :
    assign emptyRecord [.obj .record [("a", .obj .record [("x", .num 1)])]]
        = .ok (.obj .record [("a", .obj .record [("x", .num 1)])])
      ∧ ∃ r, assign emptyRecord [.obj .record [("a", .obj .record [("x", .num 1)])]] = .ok r
        ∧ get r (.keys ["a", "x"]) false = hitArr (.num 1) := by
  refine ⟨rfl, ?_⟩
  obtain ⟨r, h1, h2, _⟩ :=
    assign_source_wins emptyRecord (.obj .record [("a", .obj .record [("x", .num 1)])])
      rfl rfl rfl rfl rfl
  exact ⟨r, h1, h2 "a" ["x"] (.num 1) rfl rfl rfl⟩


/-! ## `merge` -/

theorem mergeCb_obj (s : Unit) (t : Tag) (ps : Props) (b : Val) (key : String)
    (path : List String) :
    mergeCb s (.obj t ps) b key path =
      if isDefined (propOf b key) && isPrimitive (propOf b key) then
        .ok (s, store (.obj t ps) key (propOf b key), .undefined)
      else if hasProp (.obj t ps) key then .ok (s, .obj t ps, .undefined)
      else if truthy (propOf b key) then
        match construct (propOf b key) with
        | .error e => .error e
        | .ok c => .ok (s, store (.obj t ps) key c, .undefined)
      else .ok (s, store (.obj t ps) key (propOf b key), .undefined) := by
  unfold mergeCb
  simp only [assignProp, inOp, store]
  by_cases h1 : (isDefined (propOf b key) && isPrimitive (propOf b key)) = true
  · simp [h1]
  · simp only [h1, Bool.false_eq_true, if_false]
    by_cases h2 : hasProp (.obj t ps) key = true
    · simp [h2]
    · have h3 : hasProp (.obj t ps) key = false := by simpa using h2
      simp only [h3, Bool.false_eq_true, if_false]

theorem mergeCb_ret (s : Unit) (a b : Val) (key : String) (path : List String) (s1 : Unit)
    (a1 r : Val) (h : mergeCb s a b key path = .ok (s1, a1, r)) : r = .undefined := by
  unfold mergeCb at h
  simp only at h
  split at h
  · split at h
    · simp at h
    · simp only [Except.ok.injEq, Prod.mk.injEq] at h; exact h.2.2.symm
  · split at h
    · simp at h
    · simp only [Except.ok.injEq, Prod.mk.injEq] at h; exact h.2.2.symm
    · split at h
      · split at h
        · simp at h
        · split at h
          · simp at h
          · simp only [Except.ok.injEq, Prod.mk.injEq] at h; exact h.2.2.symm
      · split at h
        · simp at h
        · simp only [Except.ok.injEq, Prod.mk.injEq] at h; exact h.2.2.symm

theorem noFalse_mergeCb : NoFalse mergeCb := by
  intro s a b key path s1 a1 r h
  rw [mergeCb_ret s a b key path s1 a1 r h]; rfl

theorem touchesOnlyKey_mergeCb : TouchesOnlyKey mergeCb := by
  intro s a b key path s1 a1 r h k hk
  cases a with
  | obj t ps =>
    rw [mergeCb_obj] at h
    split at h
    · simp only [Except.ok.injEq, Prod.mk.injEq] at h
      rw [← h.2.1, commit_store, ownLookup_store_other _ _ _ _ hk]
    · split at h
      · simp only [Except.ok.injEq, Prod.mk.injEq] at h
        rw [← h.2.1, commit_self]
      · split at h
        · cases hcn : construct (propOf b key) with
          | error e => rw [hcn] at h; simp at h
          | ok c =>
            rw [hcn] at h
            simp only [Except.ok.injEq, Prod.mk.injEq] at h
            rw [← h.2.1, commit_store, ownLookup_store_other _ _ _ _ hk]
        · simp only [Except.ok.injEq, Prod.mk.injEq] at h
          rw [← h.2.1, commit_store, ownLookup_store_other _ _ _ _ hk]
  | _ => rfl

/-- A call of `constructor()` on a container that returns gives an empty container of the
same kind. -/
theorem construct_container (c x : Val) (hc : isIterable c = true)
    (h : construct c = .ok x) : classOf x = classOf c ∧ isIterable x = true ∧ propsOf x = [] := by
  obtain ⟨t, ps, rfl, ht⟩ := isIterable_obj hc
  unfold construct at h
  simp only at h
  split at h
  · simp at h
  · simp at h
  · cases t with
    | record => simp only [Except.ok.injEq] at h; rw [← h]; exact ⟨rfl, rfl, rfl⟩
    | list => simp only [Except.ok.injEq] at h; rw [← h]; exact ⟨rfl, rfl, rfl⟩
    | map => simp at h
    | func => exact absurd rfl ht

theorem isPrimitive_not_isIterable {v : Val} (h : isPrimitive v = true) :
    isIterable v = false := by
  cases v with
  | obj t ps => cases t <;> simp [isPrimitive, typeOf, matchesObjFunc, truthy] at h
  | error m => rfl
  | _ => rfl

theorem isIterable_not_isPrimitive {v : Val} (h : isIterable v = true) :
    isPrimitive v = false := by
  cases hp : isPrimitive v with
  | false => rfl
  | true => rw [isPrimitive_not_isIterable hp] at h; exact absurd h (by simp)

theorem truthy_of_isIterable {v : Val} (h : isIterable v = true) : truthy v = true := by
  obtain ⟨t, ps, rfl, _⟩ := isIterable_obj h
  rfl

theorem merge_single (t s : Val) (ht : isNullish t = false) :
    merge t [s] = match deepIt mergeCb () t s [] with
      | .error e => .error e
      | .ok x => .ok x.2 := assignHelper_single t s mergeCb ht

/-- What a walk of `merge` does under a key of the source that holds a defined leaf. -/
theorem merge_leaf_at_key (b : Val) (path : List String) (tb : Tag) (psb : Props)
    (hb : b = .obj tb psb) (hwf : wfProps psb = true) (j : String) (y : Val)
    (hj : ownLookup psb j = some y) (hy : isPrimitive y = true) (hd : isDefined y = true)
    (t : Tag) (ps : Props) (s2 : Unit) (a2 : Val)
    (h : deepIt mergeCb () (.obj t ps) b path = .ok (s2, a2)) :
    ownLookup (propsOf a2) j = some y := by
  subst hb
  rw [deepIt_obj] at h
  obtain ⟨pre, v, post, hps, hpre, hpost, hl⟩ :=
    wfProps_split psb hwf j (by simp [hasOwn, hj])
  rw [hj] at hl
  simp only [Option.some.injEq] at hl
  subst hl
  have h2 : deepItKeys mergeCb () (.obj t ps) (.obj tb psb) (pre ++ (j, y) :: post) path
      = .ok (s2, a2) := by rw [← hps]; exact h
  obtain ⟨s0, a0, s1, a1, r1, _, _, hcl, hc, hcases⟩ :=
    deepItKeys_at_key mergeCb noFalse_mergeCb touchesOnlyKey_mergeCb _ path pre post j y
      hpre hpost () _ s2 a2 h2
  obtain ⟨ps0, rfl⟩ := obj_of_classOf hcl
  have hv : propOf (.obj tb psb) j = y := propOf_of_ownLookup hj
  rw [mergeCb_obj, hv] at hc
  simp only [hd, hy, Bool.and_self, if_true, Except.ok.injEq, Prod.mk.injEq] at hc
  obtain ⟨_, rfl, _⟩ := hc
  rcases hcases with ⟨hit, _⟩ | ⟨_, hres⟩
  · rw [isPrimitive_not_isIterable hy] at hit
    simp at hit
  · rw [hres, commit_store, ownLookup_store_same]


/-! ### C7 -/

/-- C7, counterexample: `merge({}, {a: {x: 1}})` yields `{a: {x: 1}}`, not `{a: {}}`: the
leaf under the new branch is copied. -/
theorem merge_copies_new_branch :
    hasProp emptyRecord "a" = false
      ∧ merge emptyRecord [.obj .record [("a", .obj .record [("x", .num 1)])]]
        = .ok (.obj .record [("a", .obj .record [("x", .num 1)])])
      ∧ merge emptyRecord [.obj .record [("a", .obj .record [("x", .num 1)])]]
        ≠ .ok (.obj .record [("a", emptyRecord)]) := by
  refine ⟨rfl, rfl, ?_⟩
  have h : merge emptyRecord [.obj .record [("a", .obj .record [("x", .num 1)])]]
      = .ok (.obj .record [("a", .obj .record [("x", .num 1)])]) := rfl
  rw [h]
  intro h2
  simp only [Except.ok.injEq] at h2
  exact absurd h2 (by decide)

/-- C7, amended: `merge` creates a container of the same kind for an unseen branch and fills
it from the source. For a container target and a container source, both trees of plain
records, such that `k in target` is false (the target neither owns nor inherits `k`) and the
value `c` of the source at its own key `k` is a container, when `merge(target, source)`
returns, `target[k]` is a container of the kind of `c` that holds every defined leaf `c` has
under its own keys. -/
theorem merge_fills_new_branch (t s : Val) (k : String) (c r : Val)
    (ht : isIterable t = true) (hs : isIterable s = true) (hwf : wf s = true)
    (_hpt : plain t = true) (_hps : plain s = true)
    (hk : hasProp t k = false) (hc : ownLookup (propsOf s) k = some c)
    (hci : isIterable c = true) (hrun : merge t [s] = .ok r) :
    classOf (propOf r k) = classOf c
      ∧ ∀ j y, ownLookup (propsOf c) j = some y → isPrimitive y = true →
          isDefined y = true → propOf (propOf r k) j = y := by
  obtain ⟨tt, pst, rfl, _⟩ := isIterable_obj ht
  obtain ⟨ts, pss, rfl, _⟩ := isIterable_obj hs
  rw [wf_obj] at hwf
  simp only [propsOf] at hc
  rw [merge_single (.obj tt pst) _ rfl] at hrun
  cases hd : deepIt mergeCb () (.obj tt pst) (.obj ts pss) [] with
  | error e => rw [hd] at hrun; simp at hrun
  | ok x =>
    obtain ⟨u, r2⟩ := x
    rw [hd] at hrun
    simp only [Except.ok.injEq] at hrun
    subst hrun
    rw [deepIt_obj] at hd
    obtain ⟨pre, v, post, hps, hpre, hpost, hl⟩ :=
      wfProps_split pss hwf k (by simp [hasOwn, hc])
    rw [hc] at hl
    simp only [Option.some.injEq] at hl
    subst hl
    have hmem : (k, c) ∈ pss := by rw [hps]; simp
    have hwfc : wf c = true := (wfProps_mem pss hwf _ hmem).2
    have hd2 : deepItKeys mergeCb () (.obj tt pst) (.obj ts pss) (pre ++ (k, c) :: post) []
        = .ok (u, r2) := by rw [← hps]; exact hd
    obtain ⟨s0, a0, s1, a1, r1, _, hl0, hcl, hcb, hcases⟩ :=
      deepItKeys_at_key mergeCb noFalse_mergeCb touchesOnlyKey_mergeCb _ [] pre post k c
        hpre hpost () _ u r2 hd2
    obtain ⟨ps0, rfl⟩ := obj_of_classOf hcl
    have hk0 : hasProp (.obj tt ps0) k = false := by
      rw [hasProp_eq_of_ownLookup hl0]; exact hk
    have hv : propOf (.obj ts pss) k = c := propOf_of_ownLookup hc
    rw [mergeCb_obj, hv] at hcb
    simp only [isIterable_not_isPrimitive hci, Bool.and_false, Bool.false_eq_true, if_false,
      hk0, truthy_of_isIterable hci, if_true] at hcb
    cases hcn : construct c with
    | error e => rw [hcn] at hcb; simp at hcb
    | ok fresh =>
      rw [hcn] at hcb
      simp only [Except.ok.injEq, Prod.mk.injEq] at hcb
      obtain ⟨_, rfl, _⟩ := hcb
      obtain ⟨hfc, hfi, _⟩ := construct_container c fresh hci hcn
      rw [commit_store, propOf_store_same] at hcases
      rcases hcases with ⟨_, s3, ak2, hnest, hres⟩ | ⟨hno, _⟩
      · have hrk : propOf r2 k = ak2 := propOf_of_ownLookup hres
        rw [hrk]
        refine ⟨by rw [deepIt_classOf _ _ _ _ _ _ _ hnest, hfc], ?_⟩
        intro j y hj hy hdef
        obtain ⟨tf, psf, rfl, _⟩ := isIterable_obj hfi
        obtain ⟨tc, psc, rfl, _⟩ := isIterable_obj hci
        rw [wf_obj] at hwfc
        exact propOf_of_ownLookup
          (merge_leaf_at_key _ _ tc psc rfl hwfc j y hj hy hdef tf psf s3 ak2 hnest)
      · rw [hci, hfi] at hno
        simp at hno

/-- C7, witness: `merge({}, {a: {x: 1}})` holds `1` at `a.x`. -/
theorem merge_fills_new_branch_witness :
    merge emptyRecord [.obj .record [("a", .obj .record [("x", .num 1)])]]
        = .ok (.obj .record [("a", .obj .record [("x", .num 1)])])
      ∧ propOf (propOf (.obj .record [("a", .obj .record [("x", .num 1)])]) "a") "x"
        = .num 1 :=
  ⟨rfl, (merge_fills_new_branch emptyRecord
    (.obj .record [("a", .obj .record [("x", .num 1)])]) "a" (.obj .record [("x", .num 1)])
    (.obj .record [("a", .obj .record [("x", .num 1)])]) rfl rfl rfl rfl rfl rfl rfl rfl
    rfl).2 "x" (.num 1) rfl rfl rfl⟩


/-! ## Leaves a walk keeps -/

theorem getWalk_cons_some {n : Val} {k : String} {p : List String} {x : Val}
    (h : getWalk n (k :: p) = some x) :
    isIterable n = true ∧ hasProp n k = true ∧ getWalk (propOf n k) p = some x := by
  rw [getWalk_cons] at h
  by_cases h1 : isIterable n = true
  · by_cases h2 : hasProp n k = true
    · simp only [h1, h2, Bool.not_true, Bool.or_self, Bool.false_eq_true, if_false] at h
      exact ⟨h1, h2, h⟩
    · simp [h2] at h
  · simp [h1] at h

theorem getWalk_isIterable {n : Val} {p : List String} {x : Val}
    (h : getWalk n p = some x) (hx : isIterable x = true) : isIterable n = true := by
  cases p with
  | nil =>
    simp only [getWalk, Option.some.injEq] at h
    rw [h]; exact hx
  | cons k r => exact (getWalk_cons_some h).1

theorem commit_of_not_obj (a a1 : Val) (h : ∀ t ps, a ≠ .obj t ps) : commit a a1 = a := by
  cases a with
  | obj t ps => exact absurd rfl (h t ps)
  | _ => cases a1 <;> rfl

/-- A walk keeps the leaves of the destination under the paths along which the visitor is
safe: it leaves `a` alone when called on a key `a` has and `Safe b key` holds. -/
theorem deepIt_keeps_leaves {σ : Type} (cb : Visitor σ) (hnf : NoFalse cb)
    (hloc : TouchesOnlyKey cb) (Safe : Val → String → Prop)
    (hkeep : ∀ s a b key path s1 a1 r, cb s a b key path = .ok (s1, a1, r) →
      hasProp a key = true → Safe b key → commit a a1 = a) :
    ∀ b, wf b = true → isIterable b = true →
      ∀ (path : List String) (s : σ) (a : Val) (s2 : σ) (a2 : Val),
      deepIt cb s a b path = .ok (s2, a2) →
      ∀ p x, p ≠ [] → getWalk a p = some x → isPrimitive x = true →
        (∀ q k rest node, p = q ++ k :: rest → getWalk b q = some node →
          isIterable node = true → hasOwn (propsOf node) k = true → Safe node k) →
        getWalk a2 p = some x := by
  intro b
  induction b using Val.induct_aux with
  | hleaf v hv =>
    intro _ hi
    obtain ⟨t, ps, h, _⟩ := isIterable_obj hi
    exact absurd h (hv t ps)
  | hobj tb psb ih =>
    intro hwf hib path s a s2 a2 hrun
    rw [wf_obj] at hwf
    rw [deepIt_obj] at hrun
    have key_lemma : ∀ keys : Props, (∀ e ∈ keys, e ∈ psb) →
        ∀ (s : σ) (a : Val) (s2 : σ) (a2 : Val),
        deepItKeys cb s a (.obj tb psb) keys path = .ok (s2, a2) →
        ∀ p x, p ≠ [] → getWalk a p = some x → isPrimitive x = true →
          (∀ q k rest node, p = q ++ k :: rest → getWalk (.obj tb psb) q = some node →
            isIterable node = true → hasOwn (propsOf node) k = true → Safe node k) →
          getWalk a2 p = some x := by
      intro keys
      induction keys with
      | nil =>
        intro _ s a s2 a2 h p x _ hg _ _
        simp only [deepItKeys_nil, Except.ok.injEq, Prod.mk.injEq] at h
        rw [← h.2]; exact hg
      | cons e rest ihk =>
        obtain ⟨key, bv⟩ := e
        intro hsub s a s2 a2 h p x hp hg hx hsafe
        have ihk2 := ihk (fun e he => hsub e (List.mem_cons_of_mem _ he))
        have hmem : (key, bv) ∈ psb := hsub _ (List.mem_cons_self _ _)
        obtain ⟨hlb, hwfv⟩ := wfProps_mem psb hwf _ hmem
        simp only at hlb hwfv
        obtain ⟨s1, a1, r, hc, hcases⟩ := deepItKeys_cons_ok _ _ _ _ _ _ _ _ _ _ h
        have hr := hnf _ _ _ _ _ _ _ _ hc
        cases p with
        | nil => exact absurd rfl hp
        | cons k0 rest0 =>
          obtain ⟨hia, hha, hga⟩ := getWalk_cons_some hg
          by_cases hk : k0 = key
          · subst hk
            have hcm : commit a a1 = a :=
              hkeep _ _ _ _ _ _ _ _ hc hha
                (hsafe [] k0 rest0 _ rfl rfl hib (by simp [hasOwn, propsOf, hlb]))
            rw [hcm] at hcases
            rcases hcases with ⟨hr2, _, _⟩ | ⟨_, hbv, hak, s3, ak2, hd, hrest⟩ |
              ⟨_, _, _, hrest⟩
            · rw [hr] at hr2; exact absurd hr2 (by simp)
            · cases rest0 with
              | nil =>
                simp only [getWalk, Option.some.injEq] at hga
                rw [hga, isPrimitive_not_isIterable hx] at hak
                exact absurd hak (by simp)
              | cons k1 rest1 =>
                have hnest := ih _ hmem hwfv hbv (path ++ [k0]) s1 _ s3 ak2 hd
                  (k1 :: rest1) x (by simp) hga hx (by
                    intro q k rest node hq hn hin hon
                    refine hsafe (k0 :: q) k rest node (by rw [hq]; rfl) ?_ hin hon
                    rw [getWalk_cons_of_isIterable _ _ _ hib
                      (by simp [hasProp, hasOwn, propsOf, hlb])]
                    have hpb : propOf (.obj tb psb) k0 = bv := propOf_of_ownLookup hlb
                    rw [hpb]
                    exact hn)
                apply ihk2 _ _ _ _ hrest _ _ (by simp) _ hx hsafe
                rw [getWalk_store _ _ _ _ hia]
                exact hnest
            · exact ihk2 _ _ _ _ hrest _ _ (by simp) hg hx hsafe
          · have h1 := hloc _ _ _ _ _ _ _ _ hc k0 hk
            have hg1 : getWalk (commit a a1) (k0 :: rest0) = some x := by
              rw [getWalk_cons_congr _ a k0 rest0 (classOf_commit a a1) h1]; exact hg
            rcases hcases with ⟨hr2, _, _⟩ | ⟨_, hbv, hak, s3, ak2, hd, hrest⟩ |
              ⟨_, _, _, hrest⟩
            · rw [hr] at hr2; exact absurd hr2 (by simp)
            · apply ihk2 _ _ _ _ hrest _ _ (by simp) _ hx hsafe
              rw [getWalk_cons_congr _ (commit a a1) k0 rest0 (classOf_store _ _ _)
                (ownLookup_store_other _ _ _ _ hk)]
              exact hg1
            · exact ihk2 _ _ _ _ hrest _ _ (by simp) hg1 hx hsafe
    exact key_lemma psb (fun e he => he) s a s2 a2 hrun


/-! ## `defaults` -/

theorem defaultsCb_obj (s : Unit) (t : Tag) (ps : Props) (b : Val) (key : String)
    (path : List String) :
    defaultsCb s (.obj t ps) b key path =
      if hasProp (.obj t ps) key then .ok (s, .obj t ps, .undefined)
      else .ok (s, store (.obj t ps) key (propOf b key), .undefined) := by
  unfold defaultsCb
  simp only [inOp, assignProp, store]
  by_cases h : hasProp (.obj t ps) key = true
  · simp [h]
  · simp [h]

theorem defaultsCb_ret (s : Unit) (a b : Val) (key : String) (path : List String) (s1 : Unit)
    (a1 r : Val) (h : defaultsCb s a b key path = .ok (s1, a1, r)) : r = .undefined := by
  unfold defaultsCb at h
  split at h
  · simp at h
  · simp only [Except.ok.injEq, Prod.mk.injEq] at h; exact h.2.2.symm
  · split at h
    · simp at h
    · simp only [Except.ok.injEq, Prod.mk.injEq] at h; exact h.2.2.symm

theorem noFalse_defaultsCb : NoFalse defaultsCb := by
  intro s a b key path s1 a1 r h
  rw [defaultsCb_ret s a b key path s1 a1 r h]; rfl

theorem touchesOnlyKey_defaultsCb : TouchesOnlyKey defaultsCb := by
  intro s a b key path s1 a1 r h k hk
  cases a with
  | obj t ps =>
    rw [defaultsCb_obj] at h
    split at h
    · simp only [Except.ok.injEq, Prod.mk.injEq] at h
      rw [← h.2.1, commit_self]
    · simp only [Except.ok.injEq, Prod.mk.injEq] at h
      rw [← h.2.1, commit_store, ownLookup_store_other _ _ _ _ hk]
  | _ => rfl

theorem returnsOnObjects_defaultsCb : ReturnsOnObjects defaultsCb := by
  intro s t ps b key path
  rw [defaultsCb_obj]
  by_cases h : hasProp (.obj t ps) key = true
  · exact ⟨s, .obj t ps, .undefined, by simp [h]⟩
  · exact ⟨s, store (.obj t ps) key (propOf b key), .undefined, by simp [h]⟩

theorem defaultsCb_keeps (s : Unit) (a b : Val) (key : String) (path : List String)
    (s1 : Unit) (a1 r : Val) (h : defaultsCb s a b key path = .ok (s1, a1, r))
    (hk : hasProp a key = true) : commit a a1 = a := by
  cases a with
  | obj t ps =>
    rw [defaultsCb_obj] at h
    simp only [hk, if_true, Except.ok.injEq, Prod.mk.injEq] at h
    rw [← h.2.1, commit_self]
  | _ => exact commit_of_not_obj _ _ (by intro t ps h2; cases h2)

theorem defaultsCb_self (s : Unit) (t : Tag) (ps : Props) (key : String) (path : List String)
    (h : hasOwn ps key = true) :
    ∃ a1, defaultsCb s (.obj t ps) (.obj t ps) key path = .ok (s, a1, .undefined)
      ∧ commit (.obj t ps) a1 = .obj t ps := by
  refine ⟨.obj t ps, ?_, commit_self _⟩
  rw [defaultsCb_obj]
  simp [hasProp, propsOf, h]

theorem defaults_single (t s : Val) (ht : isIterable t = true) :
    defaults t [s] = match deepIt defaultsCb () t s [] with
      | .error e => .error e
      | .ok x => .ok x.2 := by
  unfold defaults
  rw [truthy_of_isIterable ht]
  exact assignHelper_single t s defaultsCb (isNullish_of_isIterable ht)

/-- A walk of `defaults` fills the gaps of the destination: a key that a container of `b` has
and the container of `a` at the same place lacks holds the value of `b` afterwards. -/
theorem defaults_fills (b : Val) : wf b = true → isIterable b = true →
    ∀ (path : List String) (s : Unit) (a : Val) (s2 : Unit) (a2 : Val),
    deepIt defaultsCb s a b path = .ok (s2, a2) →
    ∀ q ct cs k, getWalk a q = some ct → getWalk b q = some cs →
      isIterable ct = true → isIterable cs = true →
      hasOwn (propsOf cs) k = true → hasProp ct k = false →
      getWalk a2 (q ++ [k]) = some (propOf cs k) := by
  induction b using Val.induct_aux with
  | hleaf v hv =>
    intro _ hi
    obtain ⟨t, ps, h, _⟩ := isIterable_obj hi
    exact absurd h (hv t ps)
  | hobj tb psb ih =>
    intro hwf hib path s a s2 a2 hrun q ct cs k hga hgb hict hics hown hlack
    rw [wf_obj] at hwf
    have hia : isIterable a = true := getWalk_isIterable hga hict
    have hia2 : isIterable a2 = true := by
      rw [isIterable_of_classOf (deepIt_classOf _ _ _ _ _ _ _ hrun)]; exact hia
    rw [deepIt_obj] at hrun
    cases q with
    | nil =>
      simp only [getWalk, Option.some.injEq] at hga hgb
      subst hga; subst hgb
      simp only [propsOf] at hown
      obtain ⟨pre, v, post, hps, hpre, hpost, hl⟩ := wfProps_split psb hwf k hown
      have hmem : (k, v) ∈ psb := by rw [hps]; simp
      have hrun2 : deepItKeys defaultsCb s a (.obj tb psb) (pre ++ (k, v) :: post) path
          = .ok (s2, a2) := by rw [← hps]; exact hrun
      obtain ⟨s0, a0, s1, a1, r1, _, hl0, hcl, hc, hcases⟩ :=
        deepItKeys_at_key defaultsCb noFalse_defaultsCb touchesOnlyKey_defaultsCb _ path
          pre post k v hpre hpost s a s2 a2 hrun2
      obtain ⟨ta, psa, rfl, _⟩ := isIterable_obj hia
      obtain ⟨ps0, rfl⟩ := obj_of_classOf hcl
      have hk0 : hasProp (.obj ta ps0) k = false := by
        rw [hasProp_eq_of_ownLookup hl0]; exact hlack
      have hv : propOf (.obj tb psb) k = v := propOf_of_ownLookup hl
      rw [defaultsCb_obj, hv] at hc
      simp only [hk0, Bool.false_eq_true, if_false, Except.ok.injEq, Prod.mk.injEq] at hc
      obtain ⟨_, rfl, _⟩ := hc
      rw [commit_store, propOf_store_same] at hcases
      have hres : ownLookup (propsOf a2) k = some v := by
        rcases hcases with ⟨_, s3, ak2, hd, hres⟩ | ⟨_, hres⟩
        · rw [deepIt_self defaultsCb defaultsCb_self v (wfProps_mem psb hwf _ hmem).2] at hd
          simp only [Except.ok.injEq, Prod.mk.injEq] at hd
          rw [hres, hd.2]
        · rw [hres, ownLookup_store_same]
      rw [List.nil_append, getWalk_cons_of_isIterable _ _ _ hia2
        (by simp [hasProp, hasOwn, hres]), propOf_of_ownLookup hres, hv]
      rfl
    | cons k0 q2 =>
      obtain ⟨_, _, hga2⟩ := getWalk_cons_some hga
      obtain ⟨_, _, hgb2⟩ := getWalk_cons_some hgb
      have hia0 : isIterable (propOf a k0) = true := getWalk_isIterable hga2 hict
      have hib0 : isIterable (propOf (.obj tb psb) k0) = true := getWalk_isIterable hgb2 hics
      have hownb := hasOwn_of_isIterable_propOf hib0
      simp only [propsOf] at hownb
      obtain ⟨pre, v, post, hps, hpre, hpost, hl⟩ := wfProps_split psb hwf k0 hownb
      have hmem : (k0, v) ∈ psb := by rw [hps]; simp
      have hv : propOf (.obj tb psb) k0 = v := propOf_of_ownLookup hl
      rw [hv] at hgb2 hib0
      have hrun2 : deepItKeys defaultsCb s a (.obj tb psb) (pre ++ (k0, v) :: post) path
          = .ok (s2, a2) := by rw [← hps]; exact hrun
      obtain ⟨s0, a0, s1, a1, r1, _, hl0, hcl, hc, hcases⟩ :=
        deepItKeys_at_key defaultsCb noFalse_defaultsCb touchesOnlyKey_defaultsCb _ path
          pre post k0 v hpre hpost s a s2 a2 hrun2
      have hp0 : propOf a0 k0 = propOf a k0 := propOf_eq_of_ownLookup hl0
      have hh0 : hasProp a0 k0 = true := by
        rw [hasProp_eq_of_ownLookup hl0]
        exact hasProp_of_isIterable_propOf hia0
      rw [defaultsCb_keeps _ _ _ _ _ _ _ _ hc hh0, hp0] at hcases
      rcases hcases with ⟨_, s3, ak2, hd, hres⟩ | ⟨hno, _⟩
      · have hnest := ih _ hmem (wfProps_mem psb hwf _ hmem).2 hib0 _ _ _ _ _ hd
          q2 ct cs k hga2 hgb2 hict hics hown hlack
        rw [List.cons_append, getWalk_cons_of_isIterable _ _ _ hia2
          (by simp [hasProp, hasOwn, hres]), propOf_of_ownLookup hres]
        exact hnest
      · rw [hib0, hia0] at hno
        simp at hno


/-! ### C10 -/

/-- C10, as stated, fails on a key that names an inherited member: `toString` is an own key of
the source `{toString: 1}` and no own key of the target `{}`, and `defaults({}, {toString: 1})`
leaves `{}`, in which `toString` resolves to the inherited method, not to `1`. -/
theorem defaults_skips_inherited_name :
    hasOwn (propsOf (.obj .record [("toString", .num 1)])) "toString" = true
      ∧ hasOwn (propsOf emptyRecord) "toString" = false
      ∧ defaults emptyRecord [.obj .record [("toString", .num 1)]] = .ok emptyRecord
      ∧ get emptyRecord (.dotted "toString") false = hitArr builtinFn
      ∧ get emptyRecord (.dotted "toString") false ≠ hitArr (.num 1) :=
  ⟨rfl, rfl, rfl, rfl, by decide⟩

/-- C10, amended: `defaults` never overwrites and only fills gaps, a gap being a key for
which `in` is false. For a container target `t` and a container source `s`, both trees of
plain records, `defaults(t, s)` returns the target, in which every key that was in `t` is
still there, every path without the key `__proto__` that resolved in `t` to a leaf resolves to
the same leaf, and every own key of a container of `s` that the container of `t` at the same
place neither owned nor inherited holds the value `s` has there. -/
theorem defaults_only_fills_gaps (t s : Val) (ht : isIterable t = true)
    (hs : isIterable s = true) (hwf : wf s = true) (_hpt : plain t = true)
    (_hps : plain s = true) :
    ∃ r, defaults t [s] = .ok r
      ∧ (∀ k, hasProp t k = true → hasProp r k = true)
      ∧ (∀ p x, plainPath p = true → get t (.keys p) false = hitArr x →
          isPrimitive x = true → get r (.keys p) false = hitArr x)
      ∧ (∀ q ct cs k, plainPath q = true →
          get t (.keys q) false = hitArr ct → get s (.keys q) false = hitArr cs →
          isIterable ct = true → isIterable cs = true →
          hasOwn (propsOf cs) k = true → hasProp ct k = false →
          get r (.keys (q ++ [k])) false = hitArr (propOf cs k)) := by
  obtain ⟨tt, pst, rfl, _⟩ := isIterable_obj ht
  obtain ⟨u, r, hrun⟩ := deepIt_returns defaultsCb returnsOnObjects_defaultsCb s [] () tt pst
  refine ⟨r, by rw [defaults_single _ _ ht, hrun], ?_, ?_, ?_⟩
  · intro k hk
    obtain ⟨ts, pss, rfl, _⟩ := isIterable_obj hs
    rw [wf_obj] at hwf
    rw [deepIt_obj] at hrun
    by_cases hown : hasOwn pss k = true
    · obtain ⟨pre, v, post, hps, hpre, hpost, _⟩ := wfProps_split pss hwf k hown
      have hrun2 : deepItKeys defaultsCb () (.obj tt pst) (.obj ts pss)
          (pre ++ (k, v) :: post) [] = .ok (u, r) := by rw [← hps]; exact hrun
      obtain ⟨s0, a0, s1, a1, r1, _, hl0, _, hc, hcases⟩ :=
        deepItKeys_at_key defaultsCb noFalse_defaultsCb touchesOnlyKey_defaultsCb _ []
          pre post k v hpre hpost () _ u r hrun2
      have hh0 : hasProp a0 k = true := by rw [hasProp_eq_of_ownLookup hl0]; exact hk
      rw [defaultsCb_keeps _ _ _ _ _ _ _ _ hc hh0] at hcases
      rcases hcases with ⟨_, s3, ak2, _, hres⟩ | ⟨_, hres⟩
      · simp [hasProp, hasOwn, hres]
      · rw [hasProp_eq_of_ownLookup hres]; exact hh0
    · have hnot : k ∉ pss.map Prod.fst := by rw [← hasOwn_iff_mem]; exact hown
      rw [hasProp_eq_of_ownLookup
        (deepItKeys_frame defaultsCb touchesOnlyKey_defaultsCb _ [] k pss hnot _ _ _ _ hrun)]
      exact hk
  · intro p x _ hg hx
    rw [get_hit_iff] at hg ⊢
    simp only [getPath] at hg ⊢
    cases p with
    | nil =>
      simp only [getWalk, Option.some.injEq] at hg
      rw [← hg] at hx
      rw [isIterable_not_isPrimitive ht] at hx
      exact absurd hx (by simp)
    | cons k0 rest0 =>
      exact deepIt_keeps_leaves defaultsCb noFalse_defaultsCb touchesOnlyKey_defaultsCb
        (fun _ _ => True)
        (fun s a b key path s1 a1 r h hk _ => defaultsCb_keeps s a b key path s1 a1 r h hk)
        s hwf hs [] () _ u r hrun (k0 :: rest0) x (by simp) hg hx
        (fun _ _ _ _ _ _ _ _ => trivial)
  · intro q ct cs k _ hgt hgs hict hics hown hlack
    rw [get_hit_iff] at hgt hgs ⊢
    simp only [getPath] at hgt hgs ⊢
    exact defaults_fills s hwf hs [] () _ u r hrun q ct cs k hgt hgs hict hics hown hlack

/-- C10, amended, at the instance `defaults({a: 1}, {a: 2, b: 3})`, which yields
`{a: 1, b: 3}`. -/
theorem defaults_only_fills_gaps_witness :
    defaults (.obj .record [("a", .num 1)]) [.obj .record [("a", .num 2), ("b", .num 3)]]
        = .ok (.obj .record [("a", .num 1), ("b", .num 3)])
      ∧ ∃ r, defaults (.obj .record [("a", .num 1)])
            [.obj .record [("a", .num 2), ("b", .num 3)]] = .ok r
          ∧ get r (.keys ["a"]) false = hitArr (.num 1)
          ∧ get r (.keys ["b"]) false = hitArr (.num 3) := by
  refine ⟨rfl, ?_⟩
  obtain ⟨r, h1, _, h3, h4⟩ :=
    defaults_only_fills_gaps (.obj .record [("a", .num 1)])
      (.obj .record [("a", .num 2), ("b", .num 3)]) rfl rfl rfl rfl rfl
  exact ⟨r, h1, h3 ["a"] (.num 1) rfl rfl rfl,
    h4 [] _ _ "b" rfl rfl rfl rfl rfl rfl rfl⟩

/-! ### C9 -/

/-- C9, the failing input: the target `{a: 1}` holds the leaf 1 at `a`, the source
`{m: new Map()}` defines nothing at `a`, and `merge` throws where it calls the constructor of
the map without `new`: it returns no target at all. -/
theorem merge_throws_on_new_map :
    isIterable (.obj .record [("m", .obj .map [])]) = true
      ∧ get (.obj .record [("a", .num 1)]) (.dotted "a") false = hitArr (.num 1)
      ∧ get (.obj .record [("m", .obj .map [])]) (.dotted "a") false = missArr
      ∧ merge (.obj .record [("a", .num 1)]) [.obj .record [("m", .obj .map [])]]
        = .error (.typeError "Constructor Map requires 'new'") :=
  ⟨rfl, rfl, rfl, rfl⟩

theorem getWalk_append_single (n : Val) (q : List String) (k : String) (node : Val)
    (h : getWalk n q = some node) (hi : isIterable node = true) (hk : hasProp node k = true) :
    getWalk n (q ++ [k]) = some (propOf node k) := by
  induction q generalizing n with
  | nil =>
    simp only [getWalk, Option.some.injEq] at h
    subst h
    rw [List.nil_append, getWalk_cons_of_isIterable _ _ _ hi hk]
    rfl
  | cons k0 q2 ih =>
    obtain ⟨h1, h2, h3⟩ := getWalk_cons_some h
    rw [List.cons_append, getWalk_cons_of_isIterable _ _ _ h1 h2]
    exact ih _ h3

theorem mergeCb_keeps (s : Unit) (a b : Val) (key : String) (path : List String)
    (s1 : Unit) (a1 r : Val) (h : mergeCb s a b key path = .ok (s1, a1, r))
    (hk : hasProp a key = true)
    (hsafe : ¬ (isPrimitive (propOf b key) = true ∧ isDefined (propOf b key) = true)) :
    commit a a1 = a := by
  cases a with
  | obj t ps =>
    rw [mergeCb_obj] at h
    have h1 : (isDefined (propOf b key) && isPrimitive (propOf b key)) = false := by
      cases hd : isDefined (propOf b key) <;> cases hp : isPrimitive (propOf b key) <;>
        simp_all
    simp only [h1, Bool.false_eq_true, if_false, hk, if_true, Except.ok.injEq,
      Prod.mk.injEq] at h
    rw [← h.2.1, commit_self]
  | _ => exact commit_of_not_obj _ _ (by intro t ps h2; cases h2)

/-- Whenever `merge` returns, on trees of plain records, it has left untouched every leaf of
the target that the source does not override: a path without the key `__proto__` that
resolves in the target to a leaf, and on which the source has no defined leaf at any
non-empty prefix, resolves to the same leaf in the result; and a defined leaf of the source
under a top-level key is in the result. -/
theorem merge_keeps_leaves_of_returns (t s r : Val) (ht : isIterable t = true)
    (hs : isIterable s = true) (hwf : wf s = true) (_hpt : plain t = true)
    (_hps : plain s = true) (hrun : merge t [s] = .ok r) :
    (∀ p x, plainPath p = true → get t (.keys p) false = hitArr x → isPrimitive x = true →
        (∀ q rest y, p = q ++ rest → q ≠ [] → get s (.keys q) false = hitArr y →
          ¬ (isPrimitive y = true ∧ isDefined y = true)) →
        get r (.keys p) false = hitArr x)
      ∧ (∀ k y, get s (.keys [k]) false = hitArr y → isPrimitive y = true →
          isDefined y = true → get r (.keys [k]) false = hitArr y) := by
  rw [merge_single _ _ (isNullish_of_isIterable ht)] at hrun
  cases hd : deepIt mergeCb () t s [] with
  | error e => rw [hd] at hrun; simp at hrun
  | ok z =>
    obtain ⟨u, r2⟩ := z
    rw [hd] at hrun
    simp only [Except.ok.injEq] at hrun
    subst hrun
    have hir : isIterable r2 = true := by
      rw [isIterable_of_classOf (deepIt_classOf _ _ _ _ _ _ _ hd)]; exact ht
    constructor
    · intro p x _ hg hx hsafe
      rw [get_hit_iff] at hg ⊢
      simp only [getPath] at hg ⊢
      cases p with
      | nil =>
        simp only [getWalk, Option.some.injEq] at hg
        rw [← hg] at hx
        rw [isIterable_not_isPrimitive ht] at hx
        exact absurd hx (by simp)
      | cons k0 rest0 =>
        refine deepIt_keeps_leaves mergeCb noFalse_mergeCb touchesOnlyKey_mergeCb
          (fun node k =>
            ¬ (isPrimitive (propOf node k) = true ∧ isDefined (propOf node k) = true))
          mergeCb_keeps s hwf hs [] () _ u r2 hd (k0 :: rest0) x (by simp) hg hx ?_
        intro q k rest node hp hn hin hown
        apply hsafe (q ++ [k]) rest (propOf node k) (by rw [hp]; simp) (by simp)
        rw [get_hit_iff]
        simp only [getPath]
        exact getWalk_append_single s q k node hn hin (by simp [hasProp, hown])
    · intro k y hg hy hdef
      rw [get_hit_iff] at hg ⊢
      simp only [getPath] at hg ⊢
      obtain ⟨_, hh, hp⟩ := getWalk_cons_some hg
      simp only [getWalk, Option.some.injEq] at hp
      obtain ⟨ts, pss, rfl, _⟩ := isIterable_obj hs
      obtain ⟨tt, pst, rfl, _⟩ := isIterable_obj ht
      rw [wf_obj] at hwf
      have hl : ownLookup pss k = some y := by
        cases hl : ownLookup pss k with
        | some v =>
          have : propOf (.obj ts pss) k = v := propOf_of_ownLookup hl
          rw [← hp, this]
        | none =>
          exfalso
          have hpv : propOf (.obj ts pss) k = if inherited k then builtinFn else .undefined := by
            simp [propOf, propsOf, hl]
          rw [hpv] at hp
          by_cases hi : inherited k = true
          · simp only [hi, if_true] at hp
            rw [← hp] at hy
            exact absurd hy (by decide)
          · simp only [hi, Bool.false_eq_true, if_false] at hp
            rw [← hp] at hdef
            exact absurd hdef (by decide)
      have hres := merge_leaf_at_key _ [] ts pss rfl hwf k y hl hy hdef tt pst u r2 hd
      rw [getWalk_cons_of_isIterable _ _ _ hir (by simp [hasProp, hasOwn, hres]),
        propOf_of_ownLookup hres]
      rfl

/-! ## `defaults`, applied twice -/

theorem ownLookup_of_isIterable_propOf {a : Val} {k : String}
    (h : isIterable (propOf a k) = true) :
    ownLookup (propsOf a) k = some (propOf a k) := by
  have ho := hasOwn_of_isIterable_propOf h
  unfold hasOwn at ho
  cases hl : ownLookup (propsOf a) k with
  | none => rw [hl] at ho; simp at ho
  | some x => rw [propOf_of_ownLookup hl]

theorem mem_hasOwn (ps : Props) (k : String) (v : Val) (h : (k, v) ∈ ps) :
    hasOwn ps k = true := by
  rw [hasOwn_iff_mem]
  exact List.mem_map.2 ⟨(k, v), h, rfl⟩

/-- After a walk of `defaults` along `b`, a second walk along `b` changes nothing. -/
theorem defaults_walk_twice (b : Val) : wf b = true →
    ∀ (path : List String) (s : Unit) (t : Tag) (ps : Props) (s2 : Unit) (a2 : Val),
    deepIt defaultsCb s (.obj t ps) b path = .ok (s2, a2) →
    ∀ (path2 : List String) (s3 : Unit), deepIt defaultsCb s3 a2 b path2 = .ok (s3, a2) := by
  induction b using Val.induct_aux with
  | hleaf v hv =>
    intro _ path s t ps s2 a2 _ path2 s3
    exact deepIt_leaf _ _ _ _ _ hv
  | hobj tb psb ih =>
    intro hwf path s t ps s2 a2 hrun path2 s3
    rw [wf_obj] at hwf
    have hcl2 := deepIt_classOf _ _ _ _ _ _ _ hrun
    obtain ⟨ps2, rfl⟩ := obj_of_classOf hcl2
    rw [deepIt_obj] at hrun ⊢
    -- what the first walk leaves under each key of `b`
    have hkey : ∀ k bv, (k, bv) ∈ psb →
        hasProp (.obj t ps2) k = true
        ∧ ((isIterable bv && isIterable (propOf (.obj t ps2) k)) = true →
            ∀ (path3 : List String) (s4 : Unit),
              deepIt defaultsCb s4 (propOf (.obj t ps2) k) bv path3
                = .ok (s4, propOf (.obj t ps2) k)) := by
      intro k bv hmem
      obtain ⟨hlk, hwfv⟩ := wfProps_mem psb hwf _ hmem
      simp only at hlk hwfv
      obtain ⟨pre, v, post, hps, hpre, hpost, hl⟩ :=
        wfProps_split psb hwf k (mem_hasOwn psb k bv hmem)
      rw [hlk] at hl
      simp only [Option.some.injEq] at hl
      subst hl
      have hrun2 : deepItKeys defaultsCb s (.obj t ps) (.obj tb psb) (pre ++ (k, bv) :: post)
          path = .ok (s2, .obj t ps2) := by rw [← hps]; exact hrun
      obtain ⟨s0, a0, s1, a1, r1, _, _, hcl, hc, hcases⟩ :=
        deepItKeys_at_key defaultsCb noFalse_defaultsCb touchesOnlyKey_defaultsCb _ path
          pre post k bv hpre hpost s _ s2 _ hrun2
      obtain ⟨ps0, rfl⟩ := obj_of_classOf hcl
      have hv : propOf (.obj tb psb) k = bv := propOf_of_ownLookup hlk
      by_cases hh : hasProp (.obj t ps0) k = true
      · rw [defaultsCb_keeps _ _ _ _ _ _ _ _ hc hh] at hcases
        rcases hcases with ⟨hit, s5, ak2, hd, hres⟩ | ⟨hno, hres⟩
        · have hp2 : propOf (.obj t ps2) k = ak2 := propOf_of_ownLookup hres
          refine ⟨by simp [hasProp, hasOwn, propsOf] at hres ⊢; simp [hres], ?_⟩
          intro _ path3 s4
          rw [hp2]
          have hak : isIterable (propOf (.obj t ps0) k) = true := by
            simp at hit; exact hit.2
          obtain ⟨t3, ps3, h3, _⟩ := isIterable_obj hak
          rw [h3] at hd
          exact ih _ hmem hwfv _ _ _ _ _ _ hd path3 s4
        · have hp2 : propOf (.obj t ps2) k = propOf (.obj t ps0) k :=
            propOf_eq_of_ownLookup hres
          refine ⟨by rw [hasProp_eq_of_ownLookup hres]; exact hh, ?_⟩
          intro hcond
          rw [hp2, hno] at hcond
          exact absurd hcond (by simp)
      · have hh2 : hasProp (.obj t ps0) k = false := by simpa using hh
        rw [defaultsCb_obj, hv] at hc
        simp only [hh2, Bool.false_eq_true, if_false, Except.ok.injEq, Prod.mk.injEq] at hc
        obtain ⟨_, rfl, _⟩ := hc
        rw [commit_store, propOf_store_same] at hcases
        have hres : ownLookup (propsOf (.obj t ps2)) k = some bv := by
          rcases hcases with ⟨_, s5, ak2, hd, hres⟩ | ⟨_, hres⟩
          · rw [deepIt_self defaultsCb defaultsCb_self bv hwfv] at hd
            simp only [Except.ok.injEq, Prod.mk.injEq] at hd
            rw [hres, hd.2]
          · rw [hres, ownLookup_store_same]
        have hp2 : propOf (.obj t ps2) k = bv := propOf_of_ownLookup hres
        refine ⟨by simp [hasProp, hasOwn, propsOf] at hres ⊢; simp [hres], ?_⟩
        intro _ path3 s4
        rw [hp2]
        exact deepIt_self defaultsCb defaultsCb_self bv hwfv path3 s4
    -- the second walk
    have key_lemma : ∀ keys : Props, (∀ e ∈ keys, e ∈ psb) → ∀ s3 : Unit,
        deepItKeys defaultsCb s3 (.obj t ps2) (.obj tb psb) keys path2
          = .ok (s3, .obj t ps2) := by
      intro keys
      induction keys with
      | nil => intro _ s3; exact deepItKeys_nil _ _ _ _ _
      | cons e rest ihk =>
        obtain ⟨k, bv⟩ := e
        intro hsub s3
        obtain ⟨hin, hnest⟩ := hkey k bv (hsub _ (List.mem_cons_self _ _))
        have hc : defaultsCb s3 (.obj t ps2) (.obj tb psb) k path2
            = .ok (s3, .obj t ps2, .undefined) := by
          rw [defaultsCb_obj]; simp [hin]
        rw [deepItKeys_cons_continue defaultsCb s3 _ _ k bv rest path2 s3 _ .undefined hc rfl
          (fun _ => rfl), commit_self]
        by_cases hit : (isIterable bv && isIterable (propOf (.obj t ps2) k)) = true
        · simp only [hit, if_true]
          rw [hnest hit (path2 ++ [k]) s3]
          simp only
          have hak : isIterable (propOf (.obj t ps2) k) = true := by
            simp at hit; exact hit.2
          rw [store_self _ _ _ (ownLookup_of_isIterable_propOf hak)]
          exact ihk (fun e he => hsub e (List.mem_cons_of_mem _ he)) s3
        · simp only [hit, Bool.false_eq_true, if_false]
          exact ihk (fun e he => hsub e (List.mem_cons_of_mem _ he)) s3
    exact key_lemma psb (fun e he => he) s3

/-! ### C11 -/

/-- C11: `defaults` is idempotent. For a container target `t` and a source `s` (keys distinct at every level),
`defaults(t, s)` returns a target `r`, and `defaults(r, s)` returns `r` again, unchanged. -/
theorem defaults_idempotent (t s : Val) (ht : isIterable t = true) (hwf : wf s = true) :
    ∃ r, defaults t [s] = .ok r ∧ defaults r [s] = .ok r := by
  obtain ⟨tt, pst, rfl, _⟩ := isIterable_obj ht
  obtain ⟨u, r, hrun⟩ := deepIt_returns defaultsCb returnsOnObjects_defaultsCb s [] () tt pst
  have hir : isIterable r = true := by
    rw [isIterable_of_classOf (deepIt_classOf _ _ _ _ _ _ _ hrun)]; exact ht
  refine ⟨r, by rw [defaults_single _ _ ht, hrun], ?_⟩
  rw [defaults_single _ _ hir, defaults_walk_twice s hwf [] () tt pst u r hrun [] ()]

/-- C11, witness: `defaults({a: 1}, {a: 2, b: {c: 3}})`, applied a second time. -/
theorem defaults_idempotent_witness :
    ∃ r, defaults (.obj .record [("a", .num 1)])
          [.obj .record [("a", .num 2), ("b", .obj .record [("c", .num 3)])]] = .ok r
      ∧ defaults r [.obj .record [("a", .num 2), ("b", .obj .record [("c", .num 3)])]]
          = .ok r :=
  defaults_idempotent (.obj .record [("a", .num 1)])
    (.obj .record [("a", .num 2), ("b", .obj .record [("c", .num 3)])]) rfl rfl

/-! ## The error `null target` -/

/-- A walk throws nothing but what its visitor throws or a read of `undefined` or `null`
throws: it never throws the error `null target` when the visitor does not. -/
theorem deepIt_not_nullTarget {σ : Type} (cb : Visitor σ)
    (hcb : ∀ s a b key path e, cb s a b key path = .error e → e ≠ .typeError errNullTarget)
    (b : Val) : ∀ (path : List String) (s : σ) (a : Val) (e : Thrown),
      deepIt cb s a b path = .error e → e ≠ .typeError errNullTarget := by
  induction b using Val.induct_aux with
  | hleaf v hv =>
    intro path s a e h
    rw [deepIt_leaf _ _ _ _ _ hv] at h
    cases h
  | hobj tb psb ih =>
    intro path s a e h
    rw [deepIt_obj] at h
    have key_lemma : ∀ keys : Props, (∀ x ∈ keys, x ∈ psb) → ∀ (s : σ) (a : Val),
        deepItKeys cb s a (.obj tb psb) keys path = .error e →
        e ≠ .typeError errNullTarget := by
      intro keys
      induction keys with
      | nil => intro _ s a h; rw [deepItKeys_nil] at h; cases h
      | cons x rest ihk =>
        obtain ⟨k, bv⟩ := x
        intro hsub s a h
        have hrest := ihk (fun x hx => hsub x (List.mem_cons_of_mem _ hx))
        rw [deepItKeys] at h
        split at h
        · rename_i e2 hc
          cases h
          exact hcb _ _ _ _ _ _ hc
        · rename_i s1 a1 r hc
          split at h
          · cases h
          · split at h
            · split at h
              · rename_i e2 hr
                cases h
                cases hca : commit a a1 <;> rw [hca] at hr <;> simp [readProp] at hr
                  <;> subst hr <;> simp [errNullTarget]
              · split at h
                · split at h
                  · rename_i e2 hd
                    cases h
                    exact ih _ (hsub _ (List.mem_cons_self _ _)) _ _ _ _ hd
                  · exact hrest _ _ h
                · exact hrest _ _ h
            · exact hrest _ _ h
    exact key_lemma psb (fun x hx => hx) s a h

theorem assignLoop_not_nullTarget (cb : Visitor Unit)
    (hcb : ∀ s a b key path e, cb s a b key path = .error e → e ≠ .typeError errNullTarget)
    (sources : List Val) : ∀ (target : Val) (e : Thrown),
      assignLoop cb target sources = .error e → e ≠ .typeError errNullTarget := by
  induction sources with
  | nil => intro target e h; simp [assignLoop] at h
  | cons src rest ih =>
    intro target e h
    rw [assignLoop] at h
    split at h
    · rename_i e2 hd
      cases h
      exact deepIt_not_nullTarget cb hcb src _ _ _ _ hd
    · exact ih _ _ h

theorem assignHelper_nullTarget_iff (cb : Visitor Unit)
    (hcb : ∀ s a b key path e, cb s a b key path = .error e → e ≠ .typeError errNullTarget)
    (target : Val) (sources : List Val) :
    assignHelper target sources cb = .error (.typeError errNullTarget)
      ↔ isNullish target = true := by
  unfold assignHelper
  by_cases hn : isNullish target = true
  · simp [hn]
  · simp only [hn, Bool.false_eq_true, if_false, iff_false]
    intro h
    exact assignLoop_not_nullTarget cb hcb sources _ _ h rfl

theorem assignProp_not_nullTarget (a : Val) (k : String) (v : Val) (e : Thrown)
    (h : assignProp a k v = .error e) : e ≠ .typeError errNullTarget := by
  cases a <;> simp [assignProp] at h <;> subst h <;> simp [errNullTarget]

theorem inOp_not_nullTarget (a : Val) (k : String) (e : Thrown)
    (h : inOp k a = .error e) : e ≠ .typeError errNullTarget := by
  cases a <;> simp [inOp] at h <;> subst h <;> simp [errNullTarget]

theorem construct_not_nullTarget (v : Val) (e : Thrown)
    (h : construct v = .error e) : e ≠ .typeError errNullTarget := by
  unfold construct at h
  split at h
  · split at h
    · cases h; simp
    · cases h; simp [errNullTarget]
    · split at h <;> first | (cases h; done) | (cases h; simp [errNullTarget])
  · cases h
  · cases h; simp

theorem assignCb_not_nullTarget (s : Unit) (a b : Val) (key : String) (path : List String)
    (e : Thrown) (h : assignCb s a b key path = .error e) : e ≠ .typeError errNullTarget := by
  unfold assignCb at h
  split at h
  · rename_i e2 h2; cases h; exact assignProp_not_nullTarget _ _ _ _ h2
  · cases h

theorem defaultsCb_not_nullTarget (s : Unit) (a b : Val) (key : String) (path : List String)
    (e : Thrown) (h : defaultsCb s a b key path = .error e) : e ≠ .typeError errNullTarget := by
  unfold defaultsCb at h
  split at h
  · rename_i e2 h2; cases h; exact inOp_not_nullTarget _ _ _ h2
  · cases h
  · split at h
    · rename_i e2 h2; cases h; exact assignProp_not_nullTarget _ _ _ _ h2
    · cases h

theorem mergeCb_not_nullTarget (s : Unit) (a b : Val) (key : String) (path : List String)
    (e : Thrown) (h : mergeCb s a b key path = .error e) : e ≠ .typeError errNullTarget := by
  unfold mergeCb at h
  simp only at h
  split at h
  · split at h
    · rename_i e2 h2; cases h; exact assignProp_not_nullTarget _ _ _ _ h2
    · cases h
  · split at h
    · rename_i e2 h2; cases h; exact inOp_not_nullTarget _ _ _ h2
    · cases h
    · split at h
      · split at h
        · rename_i e2 h2; cases h; exact construct_not_nullTarget _ _ h2
        · split at h
          · rename_i e2 h2; cases h; exact assignProp_not_nullTarget _ _ _ _ h2
          · cases h
      · split at h
        · rename_i e2 h2; cases h; exact assignProp_not_nullTarget _ _ _ _ h2
        · cases h

/-! ### C12 -/

/-- C12, as stated, fails for `defaults`: `defaults(null, {a: 1})` raises nothing, it returns
the new record `{a: 1}`. -/
theorem defaults_null_target_returns :
    defaults .null [.obj .record [("a", .num 1)]] = .ok (.obj .record [("a", .num 1)]) :=
  rfl

/-- C12, amended: `assign` and `merge` raise the error `null target` exactly when the target is
`undefined` or `null`, whatever the sources, so never for a container; `defaults` never raises
it, as a falsy target is replaced by a new record. -/
theorem null_target_error_iff (target : Val) (sources : List Val) :
    (assign target sources = .error (.typeError errNullTarget) ↔ isNullish target = true)
    ∧ (merge target sources = .error (.typeError errNullTarget) ↔ isNullish target = true)
    ∧ defaults target sources ≠ .error (.typeError errNullTarget) := by
  refine ⟨assignHelper_nullTarget_iff _ assignCb_not_nullTarget _ _,
    assignHelper_nullTarget_iff _ mergeCb_not_nullTarget _ _, ?_⟩
  intro h
  have h2 := (assignHelper_nullTarget_iff _ defaultsCb_not_nullTarget _ _).1 h
  by_cases ht : truthy target = true
  · rw [if_pos ht] at h2
    cases target <;> simp [truthy, isNullish] at ht h2
  · rw [if_neg ht] at h2
    simp [emptyRecord, isNullish] at h2

/-- C12, amended, at an instance: `assign(null, {a: 1})` raises `null target` and
`assign({}, {a: 1})` does not. -/
theorem null_target_error_iff_witness :
    assign .null [.obj .record [("a", .num 1)]] = .error (.typeError errNullTarget)
    ∧ assign emptyRecord [.obj .record [("a", .num 1)]] ≠ .error (.typeError errNullTarget) :=
  ⟨(null_target_error_iff .null [.obj .record [("a", .num 1)]]).1.2 rfl,
   fun h => absurd ((null_target_error_iff emptyRecord [.obj .record [("a", .num 1)]]).1.1 h)
     (by decide)⟩

/-! ## `unset` -/

theorem ownLookup_removeOwn_same (ps : Props) (k : String) :
    ownLookup (removeOwn ps k) k = none := by
  induction ps with
  | nil => rfl
  | cons e r ih =>
    obtain ⟨k2, v2⟩ := e
    by_cases h : k2 = k
    · simp [removeOwn, h, ih]
    · simp [removeOwn, h, ownLookup, ih]

theorem ownLookup_removeOwn_other (ps : Props) (k k3 : String) (hk : k3 ≠ k) :
    ownLookup (removeOwn ps k) k3 = ownLookup ps k3 := by
  induction ps with
  | nil => rfl
  | cons e r ih =>
    obtain ⟨k2, v2⟩ := e
    by_cases h : k2 = k
    · have h3 : ¬ k2 = k3 := fun h4 => hk (h4 ▸ h)
      rw [removeOwn, if_pos h, ih, ownLookup, if_neg h3]
    · rw [removeOwn, if_neg h, ownLookup, ownLookup, ih]

theorem classOf_dropProp (o : Val) (k : String) : classOf (dropProp o k) = classOf o := by
  cases o with
  | obj t ps => cases t <;> rfl
  | _ => rfl

theorem deleteAt_cons (n : Val) (k : String) (p : List String) (hp : p ≠ []) :
    deleteAt n (k :: p) = store n k (deleteAt (propOf n k) p) := by
  cases p with
  | nil => exact absurd rfl hp
  | cons k2 rest => rfl

theorem getWalk_append_single_none (n : Val) (q : List String) (k : String) (node : Val)
    (h : getWalk n q = some node) (hk : hasProp node k = false) :
    getWalk n (q ++ [k]) = none := by
  induction q generalizing n with
  | nil =>
    simp only [getWalk, Option.some.injEq] at h
    subst h
    simp [getWalk, hk]
  | cons k2 rest ih =>
    obtain ⟨hn, hh, hw⟩ := getWalk_cons_some h
    rw [List.cons_append, getWalk_cons_of_isIterable _ _ _ hn hh]
    exact ih _ hw

/-- The parent node after the deletion is the parent node before without the key. -/
theorem getWalk_deleteAt_parent (parent : List String) (last : String) :
    ∀ (n node : Val), getWalk n parent = some node →
      getWalk (deleteAt n (parent ++ [last])) parent = some (dropProp node last) := by
  induction parent with
  | nil =>
    intro n node h
    simp only [getWalk, Option.some.injEq] at h
    subst h
    rfl
  | cons k rest ih =>
    intro n node h
    obtain ⟨hn, hh, hw⟩ := getWalk_cons_some h
    rw [List.cons_append, deleteAt_cons _ _ _ (by simp), getWalk_store _ _ _ _ hn]
    exact ih _ _ hw

/-- A path that neither extends the deleted path nor leads to a node above it resolves as
before. -/
theorem getWalk_deleteAt_other (parent : List String) (last : String) :
    ∀ (n node : Val) (q : List String), getWalk n parent = some node →
      isIterable node = true →
      ¬ (parent ++ [last]) <+: q → ¬ q <+: (parent ++ [last]) →
      getWalk (deleteAt n (parent ++ [last])) q = getWalk n q := by
  induction parent with
  | nil =>
    intro n node q h hi h1 h2
    cases q with
    | nil => exact absurd ⟨_, rfl⟩ h2
    | cons k q2 =>
      have hk : k ≠ last := by
        intro he
        subst he
        exact h1 ⟨q2, rfl⟩
      exact getWalk_cons_congr _ _ _ _ (classOf_dropProp _ _) (by
        cases n with
        | obj t ps => exact ownLookup_removeOwn_other ps last k hk
        | _ => rfl)
  | cons k rest ih =>
    intro n node q h hi h1 h2
    obtain ⟨hn, hh, hw⟩ := getWalk_cons_some h
    rw [List.cons_append, deleteAt_cons _ _ _ (by simp)]
    cases q with
    | nil => exact absurd ⟨_, rfl⟩ h2
    | cons k2 q2 =>
      by_cases hk : k2 = k
      · subst hk
        rw [getWalk_store _ _ _ _ hn, getWalk_cons_of_isIterable _ _ _ hn hh]
        refine ih _ _ _ hw hi ?_ ?_
        · rintro ⟨t, ht⟩
          exact h1 ⟨t, by simp [← ht]⟩
        · rintro ⟨t, ht⟩
          exact h2 ⟨t, by simp [← ht]⟩
      · exact getWalk_cons_congr _ _ _ _ (classOf_store _ _ _)
          (ownLookup_store_other _ _ _ _ hk)

theorem propOf_hitArr_zero (n : Val) : propOf (hitArr n) "0" = n := rfl

theorem propOf_hitArr_one (n : Val) : propOf (hitArr n) "1" = .undefined := rfl

theorem propOf_missArr_one : propOf missArr "1" = .num 1 := rfl

theorem hasOwn_dropProp (node : Val) (k : String) :
    hasOwn (propsOf (dropProp node k)) k = false := by
  cases node with
  | obj t ps => simp [dropProp, propsOf, hasOwn, ownLookup_removeOwn_same]
  | _ => rfl

theorem ownLookup_dropProp_other (node : Val) (k k3 : String) (hk : k3 ≠ k) :
    ownLookup (propsOf (dropProp node k)) k3 = ownLookup (propsOf node) k3 := by
  cases node with
  | obj t ps => exact ownLookup_removeOwn_other ps k k3 hk
  | _ => rfl

theorem isIterable_dropProp (node : Val) (k : String) :
    isIterable (dropProp node k) = isIterable node :=
  isIterable_of_classOf (classOf_dropProp node k)

/-- What `unset` does when the parent of the last key is found and is a container. -/
theorem unset_success (obj : Val) (path : Path) (parent : List String) (last : String)
    (node : Val) (hobj : isIterable obj = true) (hp : getPath path = parent ++ [last])
    (hw : getWalk obj parent = some node) (hi : isIterable node = true) :
    unset obj path = (.bool true, deleteAt obj (parent ++ [last])) := by
  have hd : (parent ++ [last]).dropLast = parent := by simp
  have hg : get obj (.keys parent) false = hitArr node := (get_hit_iff _ _ _).2 hw
  unfold unset
  simp only [hp, hd, hobj, hg, propOf_hitArr_one, propOf_hitArr_zero, hi]
  simp [truthy]

/-! ### C13 -/

/-- C13, as stated, fails on a key that names an inherited member: `unset({}, "toString")`
reports success, and `get` still finds `toString` afterwards. -/
theorem unset_inherited_key_still_resolves :
    isIterable emptyRecord = true
      ∧ getPath (.dotted "toString") = [] ++ ["toString"]
      ∧ get emptyRecord (.keys []) false = hitArr emptyRecord
      ∧ (unset emptyRecord (.dotted "toString")).1 = .bool true
      ∧ get (unset emptyRecord (.dotted "toString")).2 (.dotted "toString") false
          = hitArr builtinFn :=
  ⟨rfl, rfl, rfl, rfl, rfl⟩

/-- C13, amended: `unset` deletes the addressed key or does nothing, on a tree of plain
records and a path without the key `__proto__`. When `obj` is no container, the path is empty,
the keys before the last lead nowhere or lead to a value that is no container, the returned
value is falsy and `obj` is unchanged. Otherwise `unset` returns `true`; the parent node is
afterwards what it was without the own property `last`, every path without the key
`__proto__` that neither extends the given one nor is an initial part of it resolves as
before, and `get` on the given path is a miss, unless `last` names an inherited member, which
it still finds. -/
theorem unset_removes_key (obj : Val) (path : Path) (_hplain : plain obj = true)
    (_hkeys : plainPath (getPath path) = true) :
    ((isIterable obj = false ∨ getPath path = []
        ∨ get obj (.keys (getPath path).dropLast) false = missArr
        ∨ ∃ node, get obj (.keys (getPath path).dropLast) false = hitArr node
            ∧ isIterable node = false) →
      truthy (unset obj path).1 = false ∧ (unset obj path).2 = obj)
    ∧ (∀ parent last node, isIterable obj = true → getPath path = parent ++ [last] →
        get obj (.keys parent) false = hitArr node → isIterable node = true →
        (unset obj path).1 = .bool true
        ∧ get (unset obj path).2 (.keys parent) false = hitArr (dropProp node last)
        ∧ classOf (dropProp node last) = classOf node
        ∧ hasOwn (propsOf (dropProp node last)) last = false
        ∧ (∀ k, k ≠ last →
            ownLookup (propsOf (dropProp node last)) k = ownLookup (propsOf node) k)
        ∧ (∀ q, plainPath q = true → ¬ (parent ++ [last]) <+: q →
            ¬ q <+: (parent ++ [last]) →
            ∀ e, get (unset obj path).2 (.keys q) e = get obj (.keys q) e)
        ∧ get (unset obj path).2 path false
            = if inherited last then hitArr builtinFn else missArr) := by
  constructor
  · intro h
    unfold unset
    by_cases h1 : (!isIterable obj || (getPath path).isEmpty) = true
    · simp only [h1, if_true]; exact ⟨rfl, trivial⟩
    · simp only [h1, Bool.false_eq_true, if_false]
      have hc : (truthy (propOf (get obj (.keys (getPath path).dropLast) false) "1")
          || !isIterable (propOf (get obj (.keys (getPath path).dropLast) false) "0"))
            = true := by
        rcases h with h | h | h | ⟨node, h, hn⟩
        · simp [h] at h1
        · simp [h] at h1
        · rw [h]; rfl
        · rw [h, propOf_hitArr_zero, hn]; simp
      simp only [hc, if_true]
      exact ⟨rfl, trivial⟩
  · intro parent last node hobj hp hg hi
    have hw : getWalk obj parent = some node := (get_hit_iff _ (.keys parent) _).1 hg
    have hu := unset_success obj path parent last node hobj hp hw hi
    have hpar := getWalk_deleteAt_parent parent last obj node hw
    rw [hu]
    refine ⟨rfl, (get_hit_iff _ (.keys parent) _).2 hpar, classOf_dropProp _ _,
      hasOwn_dropProp _ _, fun k hk => ownLookup_dropProp_other _ _ _ hk, ?_, ?_⟩
    · intro q _ h1 h2 e
      exact get_keys_congr _ _ _ (getWalk_deleteAt_other parent last obj node q hw hi h1 h2) e
    · have hid : isIterable (dropProp node last) = true := by
        rw [isIterable_dropProp]; exact hi
      by_cases hin : inherited last = true
      · have hk : hasProp (dropProp node last) last = true := by simp [hasProp, hin]
        have h3 := getWalk_append_single _ parent last _ hpar hid hk
        simp only [hin, if_true]
        rw [get_hit_iff, hp, h3]
        have hl : ownLookup (propsOf (dropProp node last)) last = none := by
          have := hasOwn_dropProp node last
          unfold hasOwn at this
          simpa using this
        simp [propOf, hl, hin]
      · have hin2 : inherited last = false := by simpa using hin
        have hk : hasProp (dropProp node last) last = false := by
          simp [hasProp, hin2, hasOwn_dropProp]
        have h3 := getWalk_append_single_none _ parent last _ hpar hk
        simp only [hin2, Bool.false_eq_true, if_false]
        rw [get_miss_iff, hp, h3]

/-- C13, amended, at the instances `unset({a: 1}, "a.b")`, which fails and changes nothing,
and `unset({a: {b: 1}}, "a.b")`, which leaves `{a: {}}`. -/
theorem unset_removes_key_witness :
    (truthy (unset (.obj .record [("a", .num 1)]) (.dotted "a.b")).1 = false
      ∧ (unset (.obj .record [("a", .num 1)]) (.dotted "a.b")).2
          = .obj .record [("a", .num 1)])
    ∧ (unset (.obj .record [("a", .obj .record [("b", .num 1)])]) (.dotted "a.b")).2
        = .obj .record [("a", .obj .record [])]
    ∧ get (unset (.obj .record [("a", .obj .record [("b", .num 1)])]) (.dotted "a.b")).2
        (.dotted "a.b") false = missArr :=
  ⟨(unset_removes_key (.obj .record [("a", .num 1)]) (.dotted "a.b") rfl rfl).1
      (Or.inr (Or.inr (Or.inr ⟨.num 1, rfl, rfl⟩))),
    rfl,
    ((unset_removes_key (.obj .record [("a", .obj .record [("b", .num 1)])])
      (.dotted "a.b") rfl rfl).2 ["a"] "b" (.obj .record [("b", .num 1)]) rfl rfl rfl
      rfl).2.2.2.2.2.2⟩

/-! ## `ensure` -/

/-- After a failed `set` the path does not resolve. -/
theorem getWalk_setWalk_fail (p : List String) (n v : Val) (hn : isIterable n = true)
    (hf : (setWalk n p v).1 = true) : getWalk (setWalk n p v).2 p = none := by
  induction p generalizing n with
  | nil => simp [setWalk] at hf
  | cons k r ih =>
    cases r with
    | nil => simp [setWalk] at hf
    | cons k2 rest =>
      simp only [setWalk] at hf ⊢
      split at hf
      · rename_i hc
        have hc2 : isIterable (propOf n k) = false := by simpa using hc
        split at hf
        · rename_i hh
          simp only [hc, hh, if_true]
          rw [getWalk_cons_of_isIterable _ _ _ hn hh]
          simp [getWalk, hc2]
        · rename_i hh
          simp only [hc, hh]
          simp only [Bool.not_true, Bool.false_eq_true, if_false, if_true, Bool.not_false]
          rw [getWalk_store _ _ _ _ hn]
          exact ih emptyRecord isIterable_emptyRecord hf
      · rename_i hc
        have hc2 : isIterable (propOf n k) = true := by simpa using hc
        simp only [hc2, Bool.not_true, Bool.false_eq_true, if_false]
        rw [getWalk_store _ _ _ _ hn]
        exact ih _ hc2 hf

theorem getPath_keys (ks : List String) : getPath (.keys ks) = ks := rfl

theorem ensure_of_hit (obj : Val) (path : Path) (d x : Val)
    (h : get obj path false = hitArr x) : ensure obj path d = (.undefined, obj) := by
  have h2 : get obj (.keys (getPath path)) false = hitArr x :=
    (get_hit_iff _ (.keys (getPath path)) _).2 ((get_hit_iff _ _ _).1 h)
  unfold ensure
  simp only [h2, propOf_hitArr_one]
  rfl

theorem ensure_of_miss (obj : Val) (path : Path) (d : Val)
    (h : get obj path false = missArr) :
    ensure obj path d = set obj (.keys (getPath path)) d := by
  have h2 : get obj (.keys (getPath path)) false = missArr :=
    (get_miss_iff _ (.keys (getPath path))).2 ((get_miss_iff _ _).1 h)
  unfold ensure
  simp only [h2, propOf_missArr_one]
  rfl

/-! ### C14 -/

/-- C14, as stated, fails where `set` fails: in `{a: 1}` the path `a.b` does not resolve, and
after `ensure({a: 1}, "a.b", 2)`, which returns the failure value of `set`, it still does
not. -/
theorem ensure_leaves_path_unresolved :
    isIterable (.obj .record [("a", .num 1)]) = true
      ∧ getPath (.dotted "a.b") ≠ []
      ∧ get (.obj .record [("a", .num 1)]) (.dotted "a.b") false = missArr
      ∧ (ensure (.obj .record [("a", .num 1)]) (.dotted "a.b") (.num 2)).1 = setFailure
      ∧ get (ensure (.obj .record [("a", .num 1)]) (.dotted "a.b") (.num 2)).2
          (.dotted "a.b") false = missArr := by
  refine ⟨rfl, ?_, rfl, rfl, rfl⟩
  decide

/-- C14, amended: for a container `obj` that is a tree of plain records and a non-empty path
without the key `__proto__`, a path that resolved keeps its value, with `obj` unchanged and
nothing returned; a path that did not resolve resolves to the default afterwards exactly when
`ensure` does not return the failure value of `set`, and then `ensure` returns `obj`; when it
returns the failure value the path still does not resolve. -/
theorem ensure_makes_path (obj : Val) (path : Path) (d : Val) (hobj : isIterable obj = true)
    (hp : getPath path ≠ []) (_hplain : plain obj = true)
    (_hkeys : plainPath (getPath path) = true) :
    (∀ x, get obj path false = hitArr x →
        ensure obj path d = (.undefined, obj)
        ∧ get (ensure obj path d).2 path false = hitArr x)
    ∧ (get obj path false = missArr →
        ((ensure obj path d).1 ≠ setFailure →
          get (ensure obj path d).2 path false = hitArr d
          ∧ (ensure obj path d).1 = (ensure obj path d).2)
        ∧ ((ensure obj path d).1 = setFailure →
          get (ensure obj path d).2 path false = missArr)) := by
  constructor
  · intro x h
    rw [ensure_of_hit obj path d x h]
    exact ⟨rfl, h⟩
  · intro h
    rw [ensure_of_miss obj path d h]
    have hs := set_of_container obj (.keys (getPath path)) d hobj hp
    have hiff := set_fails_iff_walk obj (.keys (getPath path)) d hobj
    rw [getPath_keys] at hs hiff
    constructor
    · intro hne
      have hok : (setWalk obj (getPath path) d).1 = false := by
        cases hb : (setWalk obj (getPath path) d).1 with
        | false => rfl
        | true => exact absurd (hiff.2 hb) hne
      rw [hs]
      simp only [hok, Bool.false_eq_true, if_false]
      exact ⟨(get_hit_iff _ _ _).2 (getWalk_setWalk _ _ _ hobj hp hok), trivial⟩
    · intro hf
      have hb := hiff.1 hf
      rw [hs]
      simp only [hb, if_true]
      exact (get_miss_iff _ _).2 (getWalk_setWalk_fail _ _ _ hobj hb)

/-- C14, amended, at the instances `ensure({a: 1}, "a", 2)` and `ensure({a: 1}, "b.c", 2)`. -/
theorem ensure_makes_path_witness :
    get (ensure (.obj .record [("a", .num 1)]) (.dotted "a") (.num 2)).2 (.dotted "a") false
        = hitArr (.num 1)
    ∧ get (ensure (.obj .record [("a", .num 1)]) (.dotted "b.c") (.num 2)).2
        (.dotted "b.c") false = hitArr (.num 2) :=
  ⟨((ensure_makes_path (.obj .record [("a", .num 1)]) (.dotted "a") (.num 2) rfl
      (by decide) rfl rfl).1 (.num 1) rfl).2,
   (((ensure_makes_path (.obj .record [("a", .num 1)]) (.dotted "b.c") (.num 2) rfl
      (by decide) rfl rfl).2 rfl).1 (by decide)).1⟩

/-! ## `invert` -/

theorem invertCb_leaf (s : Unit) (t : Tag) (ps0 : Props) (b : Val) (key : String)
    (path : List String) (k : String) (hp : isPrimitive (propOf b key) = true)
    (hk : toKey (propOf b key) = some k) (hne : k ≠ "__proto__") :
    invertCb s (.obj t ps0) b key path
      = .ok (s, .obj t (putOwn ps0 k (.str key)), .undefined) := by
  unfold invertCb
  simp only [hp, if_true, hk, hne, if_false]
  rfl

theorem invertCb_container (s : Unit) (a b : Val) (key : String) (path : List String)
    (hp : isPrimitive (propOf b key) = false) :
    invertCb s a b key path = .ok (s, a, .undefined) := by
  unfold invertCb
  simp [hp]

theorem last_with (P : String × Val → Prop) (l : Props) (h : ∃ e ∈ l, P e) :
    ∃ pre e post, l = pre ++ e :: post ∧ P e ∧ ∀ x ∈ post, ¬ P x := by
  induction l with
  | nil => obtain ⟨e, he, _⟩ := h; cases he
  | cons e0 r ih =>
    by_cases hr : ∃ e ∈ r, P e
    · obtain ⟨pre, e, post, hl, hP, hpost⟩ := ih hr
      exact ⟨e0 :: pre, e, post, by rw [hl]; rfl, hP, hpost⟩
    · obtain ⟨e, he, hP⟩ := h
      rcases List.mem_cons.1 he with rfl | he2
      · exact ⟨[], e, r, rfl, hP, fun x hx hPx => hr ⟨x, hx, hPx⟩⟩
      · exact absurd ⟨e, he2, hP⟩ hr

/-- The walk of `invert` over keys of `b`: the new record holds strings only; a key no visited
leaf denotes is as before, and a key some visited leaf denotes holds the last key of `b` with
such a leaf. -/
theorem invert_walk (tb : Tag) (psb : Props) (hwf : wfProps psb = true) (path : List String) :
    ∀ keys : Props, (∀ e ∈ keys, e ∈ psb) →
      (∀ e ∈ keys, isPrimitive e.2 = true → ∃ k, toKey e.2 = some k ∧ k ≠ "__proto__") →
      ∀ ps0 : Props, (∀ k x, ownLookup ps0 k = some x → ∃ s, x = .str s) →
      ∃ qs, deepItKeys invertCb () (.obj .record ps0) (.obj tb psb) keys path
              = .ok ((), .obj .record qs)
        ∧ (∀ k x, ownLookup qs k = some x → ∃ s, x = .str s)
        ∧ (∀ k, (∀ e ∈ keys, isPrimitive e.2 = true → toKey e.2 ≠ some k) →
            ownLookup qs k = ownLookup ps0 k)
        ∧ (∀ pre key v post k, keys = pre ++ (key, v) :: post → isPrimitive v = true →
            toKey v = some k → (∀ e ∈ post, isPrimitive e.2 = true → toKey e.2 ≠ some k) →
            ownLookup qs k = some (.str key)) := by
  intro keys
  induction keys with
  | nil =>
    intro _ _ ps0 hinv
    refine ⟨ps0, deepItKeys_nil _ _ _ _ _, hinv, fun _ _ => rfl, ?_⟩
    intro pre key v post k h
    exact absurd h (by simp)
  | cons e rest ih =>
    obtain ⟨key0, v0⟩ := e
    intro hsub hkeys ps0 hinv
    have hsub2 : ∀ e ∈ rest, e ∈ psb := fun e he => hsub e (List.mem_cons_of_mem _ he)
    have hkeys2 : ∀ e ∈ rest, isPrimitive e.2 = true →
        ∃ k, toKey e.2 = some k ∧ k ≠ "__proto__" :=
      fun e he => hkeys e (List.mem_cons_of_mem _ he)
    have hv : propOf (.obj tb psb) key0 = v0 :=
      propOf_of_ownLookup (wfProps_mem psb hwf _ (hsub _ (List.mem_cons_self _ _))).1
    by_cases hp : isPrimitive v0 = true
    · obtain ⟨k0, hk0, hne⟩ := hkeys _ (List.mem_cons_self _ _) hp
      have hc := invertCb_leaf () .record ps0 (.obj tb psb) key0 path k0
        (by rw [hv]; exact hp) (by rw [hv]; exact hk0) hne
      have hinv1 : ∀ k x, ownLookup (putOwn ps0 k0 (.str key0)) k = some x →
          ∃ s, x = .str s := by
        intro k x hx
        by_cases hkk : k = k0
        · subst hkk
          rw [ownLookup_putOwn_same] at hx
          exact ⟨key0, by simpa using hx.symm⟩
        · rw [ownLookup_putOwn_other _ _ _ _ hkk] at hx
          exact hinv k x hx
      obtain ⟨qs, hrun, hinvq, h1, h2⟩ := ih hsub2 hkeys2 _ hinv1
      refine ⟨qs, ?_, hinvq, ?_, ?_⟩
      · rw [deepItKeys_cons_continue invertCb () _ _ key0 v0 rest path () _ .undefined hc rfl
          (fun _ => rfl)]
        simp only [isPrimitive_not_isIterable hp, Bool.false_and, Bool.false_eq_true, if_false]
        exact hrun
      · intro k hno
        rw [h1 k (fun e he => hno e (List.mem_cons_of_mem _ he))]
        have hkk : k ≠ k0 := by
          intro he
          subst he
          exact hno _ (List.mem_cons_self _ _) hp hk0
        exact ownLookup_putOwn_other _ _ _ _ hkk
      · intro pre key v post k hsplit hpv hkv hpost
        cases pre with
        | nil =>
          simp only [List.nil_append, List.cons.injEq, Prod.mk.injEq] at hsplit
          obtain ⟨⟨rfl, rfl⟩, rfl⟩ := hsplit
          rw [h1 k hpost]
          rw [hk0] at hkv
          simp only [Option.some.injEq] at hkv
          subst hkv
          exact ownLookup_putOwn_same _ _ _
        | cons e1 pre2 =>
          simp only [List.cons_append, List.cons.injEq] at hsplit
          exact h2 pre2 key v post k hsplit.2 hpv hkv hpost
    · have hp2 : isPrimitive v0 = false := by simpa using hp
      have hc := invertCb_container () (.obj .record ps0) (.obj tb psb) key0 path
        (by rw [hv]; exact hp2)
      obtain ⟨qs, hrun, hinvq, h1, h2⟩ := ih hsub2 hkeys2 _ hinv
      have hni : isIterable (propOf (.obj .record ps0) key0) = false := by
        unfold propOf
        cases hl : ownLookup (propsOf (.obj .record ps0)) key0 with
        | none => simp only; split <;> rfl
        | some x =>
          obtain ⟨s, rfl⟩ := hinv key0 x hl
          rfl
      refine ⟨qs, ?_, hinvq, ?_, ?_⟩
      · rw [deepItKeys_cons_continue invertCb () _ _ key0 v0 rest path () _ .undefined hc rfl
          (fun _ => rfl), commit_self]
        simp only [hni, Bool.and_false, Bool.false_eq_true, if_false]
        exact hrun
      · intro k hno
        exact h1 k (fun e he => hno e (List.mem_cons_of_mem _ he))
      · intro pre key v post k hsplit hpv hkv hpost
        cases pre with
        | nil =>
          simp only [List.nil_append, List.cons.injEq, Prod.mk.injEq] at hsplit
          obtain ⟨⟨rfl, rfl⟩, rfl⟩ := hsplit
          rw [hpv] at hp2
          exact absurd hp2 (by simp)
        | cons e1 pre2 =>
          simp only [List.cons_append, List.cons.injEq] at hsplit
          exact h2 pre2 key v post k hsplit.2 hpv hkv hpost

/-- The function `invert` on an object none of whose leaves denotes the key `__proto__`: it
returns a new record whose own keys are exactly the keys the leaves of `obj` denote, each
holding the last key of `obj`, in enumeration order, with such a leaf; a key of `obj` that
holds a container gives no entry. -/
theorem invert_of_plain_leaves (t : Tag) (ps : Props) (hwf : wfProps ps = true)
    (hkeys : ∀ e ∈ ps, isPrimitive e.2 = true → ∃ k, toKey e.2 = some k ∧ k ≠ "__proto__") :
    ∃ qs, invert (.obj t ps) = .ok (.obj .record qs)
      ∧ (∀ k, hasOwn qs k = true ↔ ∃ e ∈ ps, isPrimitive e.2 = true ∧ toKey e.2 = some k)
      ∧ (∀ pre key v post k, ps = pre ++ (key, v) :: post → isPrimitive v = true →
          toKey v = some k → (∀ e ∈ post, isPrimitive e.2 = true → toKey e.2 ≠ some k) →
          ownLookup qs k = some (.str key)) := by
  obtain ⟨qs, hrun, _, h1, h2⟩ := invert_walk t ps hwf [] ps (fun e he => he) hkeys []
    (fun k x h => by simp [ownLookup] at h)
  refine ⟨qs, ?_, ?_, h2⟩
  · unfold invert
    rw [emptyRecord, deepIt_obj, hrun]
  · intro k
    constructor
    · intro hk
      by_contra hno
      have h3 := h1 k (fun e he hp hkk => hno ⟨e, he, hp, hkk⟩)
      unfold hasOwn at hk
      rw [h3] at hk
      simp [ownLookup] at hk
    · intro hex
      obtain ⟨pre, e, post, hl, ⟨hp, hk⟩, hpost⟩ :=
        last_with (fun e => isPrimitive e.2 = true ∧ toKey e.2 = some k) ps hex
      obtain ⟨key, v⟩ := e
      have h3 := h2 pre key v post k hl hp hk (fun x hx hpx hkx => hpost x hx ⟨hpx, hkx⟩)
      unfold hasOwn
      rw [h3]
      rfl

/-! ### C17 -/

/-- C17: `invert({x: "__proto__"})` returns the empty record: the visitor's write
`newObj["__proto__"] = "x"` creates no property, so the leaf of `x` gives no key, while
`invert({x: "a", y: "b"})` is `{a: "x", b: "y"}` and `invert({x: "a", y: "a"})` is
`{a: "y"}`. -/
theorem invert_drops_proto_leaf :
    invert (.obj .record [("x", .str "__proto__")]) = .ok (.obj .record [])
      ∧ isPrimitive (.str "__proto__") = true
      ∧ toKey (.str "__proto__") = some "__proto__"
      ∧ invert (.obj .record [("x", .str "a"), ("y", .str "b")])
          = .ok (.obj .record [("a", .str "x"), ("b", .str "y")])
      ∧ invert (.obj .record [("x", .str "a"), ("y", .str "a")])
          = .ok (.obj .record [("a", .str "y")]) :=
  ⟨rfl, rfl, rfl, rfl, rfl⟩

/-! ## `isEqual` on structurally identical trees -/

theorem mem_of_ownLookup (ps : Props) (k : String) (v : Val) (h : ownLookup ps k = some v) :
    (k, v) ∈ ps := by
  induction ps with
  | nil => simp [ownLookup] at h
  | cons e r ih =>
    obtain ⟨k2, v2⟩ := e
    rw [ownLookup] at h
    by_cases hk : k2 = k
    · rw [if_pos hk] at h
      simp only [Option.some.injEq] at h
      subst hk; subst h
      exact List.mem_cons_self _ _
    · rw [if_neg hk] at h
      exact List.mem_cons_of_mem _ (ih h)

theorem noNaNProps_mem (ps : Props) (h : noNaNProps ps = true) :
    ∀ e ∈ ps, noNaN e.2 = true := by
  induction ps with
  | nil => intro e he; cases he
  | cons e0 r ih =>
    obtain ⟨k0, v0⟩ := e0
    rw [noNaNProps, Bool.and_eq_true] at h
    intro e he
    rcases List.mem_cons.1 he with rfl | he2
    · exact h.1
    · exact ih h.2 e he2

theorem sameProps_mem (ps qs : Props) (h : sameProps ps qs = true) :
    ∀ e ∈ ps, ∃ w, ownLookup qs e.1 = some w ∧ sameTree e.2 w = true := by
  induction ps with
  | nil => intro e he; cases he
  | cons e0 r ih =>
    obtain ⟨k0, v0⟩ := e0
    rw [sameProps, Bool.and_eq_true] at h
    intro e he
    rcases List.mem_cons.1 he with rfl | he2
    · cases hl : ownLookup qs k0 with
      | none => rw [hl] at h; simp at h
      | some w => rw [hl] at h; exact ⟨w, rfl, h.1⟩
    · exact ih h.2 e he2

theorem sameTree_obj_right (a : Val) (u : Tag) (qs : Props)
    (h : sameTree a (.obj u qs) = true) :
    ∃ ps, a = .obj u ps ∧ sameProps ps qs = true
      ∧ ∀ e ∈ qs, hasOwn ps e.1 = true := by
  cases a with
  | obj t ps =>
    rw [sameTree] at h
    simp only [Bool.and_eq_true, beq_iff_eq, List.all_eq_true] at h
    obtain ⟨⟨rfl, h2⟩, h3⟩ := h
    exact ⟨ps, rfl, h2, h3⟩
  | _ => simp [sameTree, Val.beq] at h

/-- Two structurally identical values one of which is a primitive, and not `NaN`, are equal
under both comparisons. -/
theorem sameTree_leaf_eq (v w : Val) (h : sameTree v w = true) (hn : noNaN v = true)
    (hp : (isPrimitive v || isPrimitive w) = true) :
    strictEq w v = true ∧ looseEq w v = some true := by
  cases v with
  | obj t ps =>
    cases w with
    | obj u qs =>
      cases t <;> cases u <;>
        simp [isPrimitive, typeOf, matchesObjFunc, truthy] at hp
    | _ => simp [sameTree] at h
  | nan => simp [noNaN] at hn
  | error m =>
    have hw : Val.error m = w := Val.eq_of_beq _ _ (by simpa [sameTree] using h)
    subst hw
    simp [isPrimitive, typeOf, matchesObjFunc, truthy] at hp
  | undefined =>
    have hw : Val.undefined = w := Val.eq_of_beq _ _ (by simpa [sameTree] using h)
    subst hw
    exact ⟨rfl, rfl⟩
  | null =>
    have hw : Val.null = w := Val.eq_of_beq _ _ (by simpa [sameTree] using h)
    subst hw
    exact ⟨rfl, rfl⟩
  | bool b =>
    have hw : Val.bool b = w := Val.eq_of_beq _ _ (by simpa [sameTree] using h)
    subst hw
    refine ⟨by simp [strictEq], ?_⟩
    cases b <;> rfl
  | num n =>
    have hw : Val.num n = w := Val.eq_of_beq _ _ (by simpa [sameTree] using h)
    subst hw
    refine ⟨by simp [strictEq], ?_⟩
    simp [looseEq, isNullish, isPrimitive, typeOf, matchesObjFunc, strictEq]
  | str s =>
    have hw : Val.str s = w := Val.eq_of_beq _ _ (by simpa [sameTree] using h)
    subst hw
    refine ⟨by simp [strictEq], ?_⟩
    simp [looseEq, isNullish, isPrimitive, typeOf, matchesObjFunc, strictEq]

theorem isEqualCb_same (isStrict : Bool) (s : Bool) (t : Tag) (ps : Props) (b : Val)
    (key : String) (path : List String)
    (h : (isPrimitive (propOf (.obj t ps) key) || isPrimitive (propOf b key)) = true →
      strictEq (propOf b key) (propOf (.obj t ps) key) = true
      ∧ looseEq (propOf b key) (propOf (.obj t ps) key) = some true) :
    isEqualCb isStrict s (.obj t ps) b key path = .ok (s, .obj t ps, .undefined) := by
  unfold isEqualCb
  by_cases hp : (isPrimitive (propOf (.obj t ps) key) || isPrimitive (propOf b key)) = true
  · obtain ⟨h1, h2⟩ := h hp
    cases isStrict <;> simp [hp, h1, h2]
  · simp [hp]

/-- The walk of `isEqual` along a structurally identical tree without `NaN` stops nowhere and
leaves the variable `equal` as it is. -/
theorem isEqual_walk_same (isStrict : Bool) (b : Val) :
    ∀ a, wf a = true → wf b = true → noNaN a = true → sameTree a b = true →
    ∀ (path : List String) (s : Bool), deepIt (isEqualCb isStrict) s a b path = .ok (s, a) := by
  induction b using Val.induct_aux with
  | hleaf v hv => intro a _ _ _ _ path s; exact deepIt_leaf _ _ _ _ _ hv
  | hobj u qs ih =>
    intro a hwa hwb hna hsame path s
    obtain ⟨ps, rfl, hsp, hkeys⟩ := sameTree_obj_right a u qs hsame
    rw [wf_obj] at hwa hwb
    rw [noNaN] at hna
    rw [deepIt_obj]
    have key_lemma : ∀ keys : Props, (∀ e ∈ keys, e ∈ qs) → ∀ s : Bool,
        deepItKeys (isEqualCb isStrict) s (.obj u ps) (.obj u qs) keys path
          = .ok (s, .obj u ps) := by
      intro keys
      induction keys with
      | nil => intro _ s; exact deepItKeys_nil _ _ _ _ _
      | cons e rest ihk =>
        obtain ⟨key, w⟩ := e
        intro hsub s
        have hmem : (key, w) ∈ qs := hsub _ (List.mem_cons_self _ _)
        obtain ⟨hlw, hwfw⟩ := wfProps_mem qs hwb _ hmem
        simp only at hlw hwfw
        have hown := hkeys _ hmem
        simp only at hown
        unfold hasOwn at hown
        cases hlv : ownLookup ps key with
        | none => rw [hlv] at hown; simp at hown
        | some v =>
          have hmv : (key, v) ∈ ps := mem_of_ownLookup ps key v hlv
          obtain ⟨w2, hl2, hst⟩ := sameProps_mem ps qs hsp _ hmv
          simp only at hl2 hst
          rw [hlw] at hl2
          simp only [Option.some.injEq] at hl2
          subst hl2
          have hnv : noNaN v = true := noNaNProps_mem ps hna _ hmv
          have hwfv : wf v = true := (wfProps_mem ps hwa _ hmv).2
          have hpa : propOf (.obj u ps) key = v := propOf_of_ownLookup hlv
          have hpb : propOf (.obj u qs) key = w := propOf_of_ownLookup hlw
          have hc := isEqualCb_same isStrict s u ps (.obj u qs) key path (by
            rw [hpa, hpb]
            exact sameTree_leaf_eq v w hst hnv)
          rw [deepItKeys_cons_continue _ s _ _ key w rest path s _ .undefined hc rfl
            (fun _ => rfl), commit_self, hpa]
          by_cases hit : (isIterable w && isIterable v) = true
          · simp only [hit, if_true]
            rw [ih _ hmem v hwfv hwfw hnv hst (path ++ [key]) s]
            simp only
            rw [store_self (.obj u ps) key v hlv]
            exact ihk (fun e he => hsub e (List.mem_cons_of_mem _ he)) s
          · simp only [hit, Bool.false_eq_true, if_false]
            exact ihk (fun e he => hsub e (List.mem_cons_of_mem _ he)) s
    exact key_lemma qs (fun e he => he) s

/-! ### C19 -/

/-- C19, as stated, fails on a leaf `NaN`: `{a: NaN}` and `{a: NaN}` are structurally
identical, and `isEqual` returns `false` for them under both comparisons. -/
theorem isEqual_nan_leaf_differs :
    sameTree (.obj .record [("a", .nan)]) (.obj .record [("a", .nan)]) = true
      ∧ isEqual (.obj .record [("a", .nan)]) (.obj .record [("a", .nan)]) true = .ok false
      ∧ isEqual (.obj .record [("a", .nan)]) (.obj .record [("a", .nan)]) false
          = .ok false :=
  ⟨rfl, rfl, rfl⟩

/-- C19, amended: for container trees `x` and `y` that are structurally identical, the same
keys at every level in whatever order and equal leaves, none of them `NaN`, `isEqual` returns
`true` under the strict and under the loose comparison. -/
theorem isEqual_of_sameTree (x y : Val) (isStrict : Bool) (hx : isIterable x = true)
    (hwx : wf x = true) (hwy : wf y = true) (hn : noNaN x = true)
    (hsame : sameTree x y = true) : isEqual x y isStrict = .ok true := by
  obtain ⟨t, ps, rfl, _⟩ := isIterable_obj hx
  cases y with
  | obj u qs =>
    have hpx : isPrimitive (.obj t ps) = false := isIterable_not_isPrimitive hx
    have hiy : isIterable (.obj u qs) = true := by
      obtain ⟨ps2, h2, _⟩ := sameTree_obj_right _ u qs hsame
      cases h2
      cases t <;> first | rfl | simp [isIterable, is, classOf] at hx
    have hpy : isPrimitive (.obj u qs) = false := isIterable_not_isPrimitive hiy
    unfold isEqual
    simp only [hpx, hpy, Bool.or_self, Bool.false_eq_true, if_false]
    rw [isEqual_walk_same isStrict _ _ hwx hwy hn hsame [] true]
  | _ => simp [sameTree] at hsame

/-- C19, amended, at the instance `isEqual({a: {b: 1}, c: 2}, {c: 2, a: {b: 1}})`. -/
theorem isEqual_of_sameTree_witness :
    isEqual (.obj .record [("a", .obj .record [("b", .num 1)]), ("c", .num 2)])
        (.obj .record [("c", .num 2), ("a", .obj .record [("b", .num 1)])]) true = .ok true
    ∧ isEqual (.obj .record [("a", .obj .record [("b", .num 1)])])
        (.obj .record [("a", .obj .record [("b", .num 1)])]) false = .ok true :=
  ⟨isEqual_of_sameTree _ _ true rfl rfl rfl rfl rfl,
   isEqual_of_sameTree _ _ false rfl rfl rfl rfl rfl⟩

/-! ### C18 -/

/-- C18: `isEqual({a: 1}, {}, strict)` is `true` under both comparisons, although the key `a`
holds the leaf `1` in `x`, is absent from `y`, and `1` differs from `undefined` under both:
the walk visits the keys of `y` only, and `isEqual({}, {a: 1}, true)` is `false`. On a key
of `y` the difference is seen:
`isEqual({a: 1}, {a: "1"}, true)` is `false` and `isEqual({a: 1}, {a: "1"}, false)` is
`true`. -/
theorem isEqual_misses_key_of_x :
    isEqual (.obj .record [("a", .num 1)]) (.obj .record []) true = .ok true
      ∧ isEqual (.obj .record [("a", .num 1)]) (.obj .record []) false = .ok true
      ∧ get (.obj .record [("a", .num 1)]) (.dotted "a") false = hitArr (.num 1)
      ∧ isPrimitive (.num 1) = true
      ∧ get (.obj .record []) (.dotted "a") false = missArr
      ∧ propOf (.obj .record []) "a" = .undefined
      ∧ strictEq (.num 1) .undefined = false
      ∧ looseEq (.num 1) .undefined = some false
      ∧ isEqual (.obj .record [("a", .num 1)]) (.obj .record [("a", .str "1")]) true
          = .ok false
      ∧ isEqual (.obj .record [("a", .num 1)]) (.obj .record [("a", .str "1")]) false
          = .ok true
      ∧ isEqual (.obj .record []) (.obj .record [("a", .num 1)]) true = .ok false :=
  ⟨rfl, rfl, rfl, rfl, rfl, rfl, rfl, rfl, rfl, rfl, rfl⟩

/-! ## `filter` -/

theorem splitDots_of_no_dot (cs : List Char) (h : '.' ∉ cs) : splitDots cs = [cs] := by
  induction cs with
  | nil => rfl
  | cons c r ih =>
    have hc : c ≠ '.' := fun he => h (he ▸ List.mem_cons_self _ _)
    have hr : '.' ∉ r := fun he => h (List.mem_cons_of_mem _ he)
    rw [splitDots, if_neg hc, ih hr]

theorem splitDots_append_dot (cs rest : List Char) (h : '.' ∉ cs) :
    splitDots (cs ++ '.' :: rest) = cs :: splitDots rest := by
  induction cs with
  | nil => simp [splitDots]
  | cons c r ih =>
    have hc : c ≠ '.' := fun he => h (he ▸ List.mem_cons_self _ _)
    have hr : '.' ∉ r := fun he => h (List.mem_cons_of_mem _ he)
    rw [List.cons_append, splitDots, if_neg hc, ih hr]

theorem not_mem_of_dotFreeKey (k : String) (h : dotFreeKey k = true) : '.' ∉ k.toList := by
  simpa [dotFreeKey] using h

theorem splitDots_joinChars (l : List String) (hl : l ≠ [])
    (hdf : ∀ k ∈ l, dotFreeKey k = true) :
    splitDots (joinChars l) = l.map String.toList := by
  induction l with
  | nil => exact absurd rfl hl
  | cons s r ih =>
    have hs := not_mem_of_dotFreeKey s (hdf s (List.mem_cons_self _ _))
    cases r with
    | nil =>
      rw [joinChars, splitDots_of_no_dot _ hs]
      rfl
    | cons s2 r2 =>
      rw [joinChars, splitDots_append_dot _ _ hs,
        ih (by simp) (fun k hk => hdf k (List.mem_cons_of_mem _ hk))]
      rfl

/-- Splitting at the dots undoes the join with dots, for keys without a dot. -/
theorem getPath_joinDots (l : List String) (hl : l ≠ [])
    (hdf : ∀ k ∈ l, dotFreeKey k = true) : getPath (.dotted (joinDots l)) = l := by
  have h : (joinDots l).toList = joinChars l := rfl
  rw [getPath, h, splitDots_joinChars l hl hdf, List.map_map]
  have hid : (String.mk ∘ String.toList) = id := by
    funext s
    rfl
  rw [hid, List.map_id]

theorem dotFreeProps_mem (ps : Props) (h : dotFreeProps ps = true) :
    ∀ e ∈ ps, dotFreeKey e.1 = true ∧ dotFree e.2 = true := by
  induction ps with
  | nil => intro e he; cases he
  | cons e0 r ih =>
    obtain ⟨k0, v0⟩ := e0
    rw [dotFreeProps, Bool.and_eq_true, Bool.and_eq_true] at h
    intro e he
    rcases List.mem_cons.1 he with rfl | he2
    · exact h.1
    · exact ih h.2 e he2

theorem holdsAt_append (obj : Val) (predicate : Predicate) (path : List String) (k : String)
    (node : Val) (h : getWalk obj path = some node) :
    holdsAt obj predicate (path ++ [k]) = predicate (propOf node k) k path node := by
  unfold holdsAt
  simp [h]

theorem filterCb_apply (predicate : Predicate) (s : List String) (a b : Val) (key : String)
    (path : List String) :
    filterCb predicate s a b key path
      = .ok (if predicate (propOf a key) key path a then s ++ [joinDots (path ++ [key])]
          else s, a, .undefined) := rfl

/-- The walk of `filter` below a node of `obj`: the node is unchanged, and the paths pushed
are those of the node's key paths, in the order of the walk, at which the predicate holds. -/
theorem filter_walk (obj : Val) (predicate : Predicate) (b : Val) :
    wf b = true → ∀ (path : List String) (s : List String),
      getWalk obj path = some b → isIterable b = true →
      deepIt (filterCb predicate) s b b path
        = .ok (s ++ ((preorder b path).filter (holdsAt obj predicate)).map joinDots, b) := by
  induction b using Val.induct_aux with
  | hleaf v hv =>
    intro _ path s _ hi
    obtain ⟨t, ps, rfl, _⟩ := isIterable_obj hi
    exact absurd rfl (hv t ps)
  | hobj t ps ih =>
    intro hwf path s hw hi
    rw [wf_obj] at hwf
    rw [deepIt_obj, preorder]
    have key_lemma : ∀ keys : Props, (∀ e ∈ keys, e ∈ ps) → ∀ s : List String,
        deepItKeys (filterCb predicate) s (.obj t ps) (.obj t ps) keys path
          = .ok (s ++ ((preorderProps keys path).filter (holdsAt obj predicate)).map joinDots,
              .obj t ps) := by
      intro keys
      induction keys with
      | nil =>
        intro _ s
        rw [deepItKeys_nil, preorderProps]
        simp
      | cons e rest ihk =>
        obtain ⟨key, v⟩ := e
        intro hsub s
        have hmem : (key, v) ∈ ps := hsub _ (List.mem_cons_self _ _)
        obtain ⟨hl, hwfv⟩ := wfProps_mem ps hwf _ hmem
        simp only at hl hwfv
        have hp : propOf (.obj t ps) key = v := propOf_of_ownLookup hl
        have hrest := ihk (fun e he => hsub e (List.mem_cons_of_mem _ he))
        rw [deepItKeys_cons_continue _ s (.obj t ps) (.obj t ps) key v rest path _ _ .undefined
          (filterCb_apply predicate s _ _ key path) rfl (fun _ => rfl), commit_self, hp,
          preorderProps]
        simp only [List.filter_cons, holdsAt_append obj predicate path key _ hw, hp,
          List.filter_append, List.map_append]
        by_cases hit : isIterable v = true
        · have hk : hasProp (.obj t ps) key = true := by simp [hasProp, hasOwn, propsOf, hl]
          have hwv : getWalk obj (path ++ [key]) = some v := by
            rw [getWalk_append_single obj path key _ hw hi hk, hp]
          simp only [hit, Bool.and_self, if_true]
          rw [ih _ hmem hwfv (path ++ [key]) _ hwv hit]
          simp only
          rw [store_self (.obj t ps) key v hl, hrest]
          by_cases hpr : predicate v key path (.obj t ps) = true
          · simp [hpr]
          · simp [hpr]
        · simp only [hit, Bool.and_self, Bool.false_eq_true, if_false]
          rw [hrest]
          by_cases hpr : predicate v key path (.obj t ps) = true
          · simp [hpr]
          · simp [hpr]
    exact key_lemma ps (fun e he => he) s

/-- Every key path of the walk below a node of `obj` ends in an own key of a container that
the path before it resolves to, and has no dot in its keys. -/
theorem preorder_mem (obj : Val) (b : Val) :
    wf b = true → dotFree b = true → ∀ (path : List String),
      getWalk obj path = some b → isIterable b = true →
      (∀ x ∈ path, dotFreeKey x = true) →
      ∀ full ∈ preorder b path, ∃ p k node, full = p ++ [k] ∧ getWalk obj p = some node
        ∧ isIterable node = true ∧ hasOwn (propsOf node) k = true
        ∧ ∀ x ∈ full, dotFreeKey x = true := by
  induction b using Val.induct_aux with
  | hleaf v hv =>
    intro _ _ path _ hi
    obtain ⟨t, ps, rfl, _⟩ := isIterable_obj hi
    exact absurd rfl (hv t ps)
  | hobj t ps ih =>
    intro hwf hdf path hw hi hpath
    rw [wf_obj] at hwf
    rw [dotFree] at hdf
    rw [preorder]
    have key_lemma : ∀ keys : Props, (∀ e ∈ keys, e ∈ ps) →
        ∀ full ∈ preorderProps keys path, ∃ p k node, full = p ++ [k]
          ∧ getWalk obj p = some node ∧ isIterable node = true
          ∧ hasOwn (propsOf node) k = true ∧ ∀ x ∈ full, dotFreeKey x = true := by
      intro keys
      induction keys with
      | nil => intro _ full hf; simp [preorderProps] at hf
      | cons e rest ihk =>
        obtain ⟨key, v⟩ := e
        intro hsub full hf
        have hmem : (key, v) ∈ ps := hsub _ (List.mem_cons_self _ _)
        obtain ⟨hl, hwfv⟩ := wfProps_mem ps hwf _ hmem
        obtain ⟨hdk, hdv⟩ := dotFreeProps_mem ps hdf _ hmem
        simp only at hl hwfv hdk hdv
        have hown : hasOwn ps key = true := by simp [hasOwn, hl]
        have hpk : ∀ x ∈ path ++ [key], dotFreeKey x = true := by
          intro x hx
          rcases List.mem_append.1 hx with h1 | h1
          · exact hpath x h1
          · rw [List.mem_singleton.1 h1]; exact hdk
        rw [preorderProps] at hf
        rcases List.mem_cons.1 hf with rfl | hf2
        · exact ⟨path, key, .obj t ps, rfl, hw, hi, hown, hpk⟩
        · rcases List.mem_append.1 hf2 with hf3 | hf3
          · by_cases hit : isIterable v = true
            · rw [if_pos hit] at hf3
              have hk : hasProp (.obj t ps) key = true := by simp [hasProp, hown, propsOf]
              have hp : propOf (.obj t ps) key = v := propOf_of_ownLookup hl
              have hwv : getWalk obj (path ++ [key]) = some v := by
                rw [getWalk_append_single obj path key _ hw hi hk, hp]
              exact ih _ hmem hwfv hdv (path ++ [key]) hwv hit hpk full hf3
            · rw [if_neg hit] at hf3
              cases hf3
          · exact ihk (fun e he => hsub e (List.mem_cons_of_mem _ he)) full hf3
    exact key_lemma ps (fun e he => he)

/-! ### C20 -/

/-- C20, as stated, fails on a key with a dot: `filter({"a.b": 1}, p)` for the predicate `p`
that always holds returns the string `a.b`, which `get` splits into the keys `a` and `b` and
does not find. -/
theorem filter_dotted_key_misses :
    isIterable (.obj .record [("a.b", .num 1)]) = true
      ∧ filter (.obj .record [("a.b", .num 1)]) (fun _ _ _ _ => true) = .ok ["a.b"]
      ∧ get (.obj .record [("a.b", .num 1)]) (.dotted "a.b") false = missArr :=
  ⟨rfl, rfl, rfl⟩

/-- C20, amended: for a container tree `obj` none of whose keys contains a dot, and a
predicate that is a function of its arguments, `filter` returns the joined key paths of the
walk, a key before the keys of its container value and siblings in enumeration order, at
which the predicate holds; each returned string is the join of a path `p` and a key `k`, the
path `p` resolves in `obj` to a container `node`, `get` on the string is a hit with the value
`node[k]`, and the predicate held of that value, called with `k`, `p` and `node`. -/
theorem filter_paths_resolve (obj : Val) (predicate : Predicate)
    (hobj : isIterable obj = true) (hwf : wf obj = true) (hdf : dotFree obj = true) :
    filter obj predicate
        = .ok (((preorder obj []).filter (holdsAt obj predicate)).map joinDots)
    ∧ ∀ s ∈ ((preorder obj []).filter (holdsAt obj predicate)).map joinDots,
        ∃ p k node, s = joinDots (p ++ [k])
          ∧ get obj (.keys p) false = hitArr node
          ∧ isIterable node = true
          ∧ get obj (.dotted s) false = hitArr (propOf node k)
          ∧ predicate (propOf node k) k p node = true := by
  constructor
  · unfold filter
    rw [filter_walk obj predicate obj hwf [] [] rfl hobj]
    rfl
  · intro s hs
    obtain ⟨full, hfull, rfl⟩ := List.mem_map.1 hs
    obtain ⟨hmem, hholds⟩ := List.mem_filter.1 hfull
    obtain ⟨p, k, node, rfl, hw, hi, hown, hdots⟩ :=
      preorder_mem obj obj hwf hdf [] rfl hobj (fun x hx => by cases hx) full hmem
    rw [holdsAt_append obj predicate p k node hw] at hholds
    refine ⟨p, k, node, rfl, (get_hit_iff _ (.keys p) _).2 hw, hi, ?_, hholds⟩
    rw [get_hit_iff, getPath_joinDots _ (by simp) hdots]
    exact getWalk_append_single obj p k node hw hi (by simp [hasProp, hown])

/-- C20, amended, at the instance `filter({a: {b: 1}, c: 2}, p)` with `p` always true, which
returns `a`, `a.b` and `c`. -/
theorem filter_paths_resolve_witness :
    filter (.obj .record [("a", .obj .record [("b", .num 1)]), ("c", .num 2)])
        (fun _ _ _ _ => true) = .ok ["a", "a.b", "c"]
    ∧ ∀ s ∈ ["a", "a.b", "c"], ∃ p k node, s = joinDots (p ++ [k])
        ∧ get (.obj .record [("a", .obj .record [("b", .num 1)]), ("c", .num 2)]) (.keys p)
            false = hitArr node
        ∧ isIterable node = true
        ∧ get (.obj .record [("a", .obj .record [("b", .num 1)]), ("c", .num 2)]) (.dotted s)
            false = hitArr (propOf node k)
        ∧ (fun _ _ _ _ => true : Predicate) (propOf node k) k p node = true :=
  filter_paths_resolve (.obj .record [("a", .obj .record [("b", .num 1)]), ("c", .num 2)])
    (fun _ _ _ _ => true) rfl rfl rfl

/-! ## `remove` -/

theorem removeCb_obj (force : Bool) (s : Unit) (t : Tag) (ps : Props) (b : Val) (key : String)
    (path : List String) :
    removeCb force s (.obj t ps) b key path
      = .ok (s, if selects force (propOf b key) then .obj t (removeOwn ps key) else .obj t ps,
          .undefined) := by
  unfold removeCb selects
  by_cases h : (isPrimitive (propOf b key) && (force || truthy (propOf b key))) = true
  · simp only [h, if_true]; rfl
  · simp only [h, Bool.false_eq_true, if_false]

theorem noFalse_removeCb (force : Bool) : NoFalse (removeCb force) := by
  intro s a b key path s1 a1 r h
  unfold removeCb at h
  split at h
  · split at h
    · cases h
    · cases h; rfl
  · cases h; rfl

theorem returnsOnObjects_removeCb (force : Bool) : ReturnsOnObjects (removeCb force) := by
  intro s t ps b key path
  exact ⟨_, _, _, removeCb_obj force s t ps b key path⟩

theorem touchesOnlyKey_removeCb (force : Bool) : TouchesOnlyKey (removeCb force) := by
  intro s a b key path s1 a1 r h k hk
  cases a with
  | obj t ps =>
    rw [removeCb_obj] at h
    simp only [Except.ok.injEq, Prod.mk.injEq] at h
    obtain ⟨_, rfl, _⟩ := h
    by_cases hs : selects force (propOf b key) = true
    · simp only [hs, if_true]
      exact ownLookup_removeOwn_other ps key k hk
    · simp only [hs, Bool.false_eq_true, if_false]
      rfl
  | _ => rw [commit_of_not_obj _ _ (by intro t ps h2; cases h2)]

theorem selectedAt_nil (shape : Val) (force : Bool) : selectedAt shape force [] = false := rfl

theorem selectedAt_single (b : Val) (force : Bool) (k : String) (hb : isIterable b = true) :
    selectedAt b force [k] = (hasProp b k && selects force (propOf b k)) := by
  unfold selectedAt
  by_cases hk : hasProp b k = true
  · simp [getWalk, hb, hk]
  · simp [getWalk, hb, hk]

theorem selectedAt_cons_cons (b : Val) (force : Bool) (k k2 : String) (q : List String)
    (hb : isIterable b = true) (hk : hasProp b k = true) :
    selectedAt b force (k :: k2 :: q) = selectedAt (propOf b k) force (k2 :: q) := by
  unfold selectedAt
  rw [getWalk_cons_of_isIterable _ _ _ hb hk]
  rfl

theorem selectedAt_cons_false (b : Val) (force : Bool) (k : String) (q : List String)
    (h : selects force (propOf b k) = false) (hi : isIterable (propOf b k) = false) :
    selectedAt b force (k :: q) = false := by
  unfold selectedAt
  cases q with
  | nil =>
    by_cases hc : (!isIterable b || !hasProp b k) = true
    · simp [getWalk, hc]
    · simp [getWalk, hc, h]
  | cons k2 q2 =>
    by_cases hc : (!isIterable b || !hasProp b k) = true
    · simp [getWalk, hc]
    · simp [getWalk, hc, hi]

theorem lastInherited_cons_cons (k k2 : String) (q : List String) :
    lastInherited (k :: k2 :: q) = lastInherited (k2 :: q) := by
  unfold lastInherited
  simp [List.getLast?]

theorem getWalk_leaf_cons (v : Val) (k : String) (q : List String)
    (h : isIterable v = false) : getWalk v (k :: q) = none := by
  simp [getWalk, h]

theorem initial_cons_inv {q p : List String} {k : String} (h : q <+: k :: p) :
    q = [] ∨ ∃ q2, q = k :: q2 ∧ q2 <+: p := by
  cases q with
  | nil => exact Or.inl rfl
  | cons k0 q2 =>
    obtain ⟨t, ht⟩ := h
    simp only [List.cons_append, List.cons.injEq] at ht
    obtain ⟨rfl, ht2⟩ := ht
    exact Or.inr ⟨q2, rfl, ⟨t, ht2⟩⟩

theorem initial_cons_cons {q p : List String} (k : String) (h : q <+: p) :
    (k :: q) <+: (k :: p) := by
  obtain ⟨t, ht⟩ := h
  exact ⟨t, by rw [← ht]; rfl⟩

theorem initial_nil_inv {q : List String} (h : q <+: []) : q = [] := by
  obtain ⟨t, ht⟩ := h
  exact (List.append_eq_nil.1 ht).1

theorem ne_nil_of_selectedAt {b : Val} {force : Bool} {q : List String}
    (h : selectedAt b force q = true) : q ≠ [] := by
  intro hq
  subst hq
  simp [selectedAt_nil] at h

/-- Below a key the shape does not own no path is selected. -/
theorem selectedAt_not_own (tb : Tag) (psb : Props) (force : Bool) (k : String)
    (q : List String) (h : hasOwn psb k = false) :
    selectedAt (.obj tb psb) force (k :: q) = false := by
  have hl : ownLookup psb k = none := by
    unfold hasOwn at h
    simpa using h
  by_cases hin : inherited k = true
  · apply selectedAt_cons_false
    · unfold propOf
      simp only [propsOf, hl, hin, if_true]
      rfl
    · unfold propOf
      simp only [propsOf, hl, hin, if_true]
      rfl
  · have hk : hasProp (.obj tb psb) k = false := by simp [hasProp, propsOf, h, hin]
    unfold selectedAt
    rw [getWalk_cons_of_not_hasProp _ _ _ hk]
    simp

/-- The two halves of the description of `remove` at a path that resolves alike before and
after. -/
theorem remove_same_path (a a2 b : Val) (force : Bool) (p : List String)
    (h : getWalk a2 p = getWalk a p)
    (hsel : (∃ q, q <+: p ∧ selectedAt b force q = true) → getWalk a p = none) :
    ((∀ q, q <+: p → selectedAt b force q = false) →
        (∀ w, getWalk a p = some w → ∃ v, getWalk a2 p = some v ∧ classOf v = classOf w
          ∧ (isIterable w = false → v = w))
        ∧ (getWalk a p = none → getWalk a2 p = none))
    ∧ ((∃ q, q <+: p ∧ selectedAt b force q = true) →
        (getWalk a2 p).isSome
          = ((getWalk a p).isSome && selectedAt b force p && lastInherited p)) := by
  constructor
  · intro _
    exact ⟨fun w hw => ⟨w, by rw [h, hw], rfl, fun _ => rfl⟩, fun hn => by rw [h, hn]⟩
  · intro hex
    rw [h, hsel hex]
    rfl

/-- The walk of `remove` below a container `a` along a container `b`: it returns, the class
of `a` is kept, and every path is described. A path no initial part of which is selected in
`b` resolves as before, to a value of the same class, the same value when it is no
container. A path with a selected initial part resolves afterwards only if it is selected
itself, resolved before, and its last key names an inherited member. -/
theorem remove_walk (force : Bool) (b : Val) : wf b = true → isIterable b = true →
    ∀ (a : Val) (path : List String), isIterable a = true →
    ∃ a2, deepIt (removeCb force) () a b path = .ok ((), a2) ∧ classOf a2 = classOf a
      ∧ ∀ p : List String,
        ((∀ q, q <+: p → selectedAt b force q = false) →
          (∀ w, getWalk a p = some w → ∃ v, getWalk a2 p = some v ∧ classOf v = classOf w
            ∧ (isIterable w = false → v = w))
          ∧ (getWalk a p = none → getWalk a2 p = none))
        ∧ ((∃ q, q <+: p ∧ selectedAt b force q = true) →
          (getWalk a2 p).isSome
            = ((getWalk a p).isSome && selectedAt b force p && lastInherited p)) := by
  induction b using Val.induct_aux with
  | hleaf v hv =>
    intro _ hi
    obtain ⟨t, ps, rfl, _⟩ := isIterable_obj hi
    exact absurd rfl (hv t ps)
  | hobj tb psb ih =>
    intro hwf hib a path hia
    obtain ⟨t, ps, rfl, _⟩ := isIterable_obj hia
    rw [wf_obj] at hwf
    obtain ⟨u, a2, hrun⟩ :=
      deepIt_returns (removeCb force) (returnsOnObjects_removeCb force) (.obj tb psb) path ()
        t ps
    have hcl := deepIt_classOf _ _ _ _ _ _ _ hrun
    have hia2 : isIterable a2 = true := by rw [isIterable_of_classOf hcl]; exact hia
    refine ⟨a2, hrun, hcl, ?_⟩
    rw [deepIt_obj] at hrun
    intro p
    cases p with
    | nil =>
      constructor
      · intro _
        refine ⟨fun w hw => ?_, fun hn => by simp [getWalk] at hn⟩
        simp only [getWalk, Option.some.injEq] at hw
        subst hw
        exact ⟨a2, rfl, hcl, fun h => by rw [hia] at h; exact absurd h (by simp)⟩
      · rintro ⟨q, hq, hs⟩
        rw [initial_nil_inv hq, selectedAt_nil] at hs
        exact absurd hs (by simp)
    | cons k p2 =>
      by_cases hown : hasOwn psb k = true
      · obtain ⟨pre, bv, post, hps, hpre, hpost, hlb⟩ := wfProps_split psb hwf k hown
        have hmem : (k, bv) ∈ psb := mem_of_ownLookup psb k bv hlb
        have hwfv : wf bv = true := (wfProps_mem psb hwf _ hmem).2
        have hpb : propOf (.obj tb psb) k = bv := propOf_of_ownLookup hlb
        have hkb : hasProp (.obj tb psb) k = true := by simp [hasProp, propsOf, hown]
        have hrun2 : deepItKeys (removeCb force) () (.obj t ps) (.obj tb psb)
            (pre ++ (k, bv) :: post) path = .ok (u, a2) := by rw [← hps]; exact hrun
        obtain ⟨s0, a0, s1, a1, r1, _, hl0, hcl0, hc, hcases⟩ :=
          deepItKeys_at_key (removeCb force) (noFalse_removeCb force)
            (touchesOnlyKey_removeCb force) _ path pre post k bv hpre hpost () _ u _ hrun2
        obtain ⟨ps0, rfl⟩ := obj_of_classOf hcl0
        rw [removeCb_obj, hpb] at hc
        simp only [Except.ok.injEq, Prod.mk.injEq] at hc
        obtain ⟨_, rfl, _⟩ := hc
        by_cases hsel : selects force bv = true
        · -- the key is selected: the own property is deleted
          have hnib : isIterable bv = false := by
            apply isPrimitive_not_isIterable
            unfold selects at hsel
            simp only [Bool.and_eq_true] at hsel
            exact hsel.1
          simp only [hsel, if_true, hnib, Bool.false_and, Bool.false_eq_true, false_and,
            false_or, true_and] at hcases
          have hl2 : ownLookup (propsOf a2) k = none := by
            rw [hcases]
            obtain ⟨ps3, h3⟩ := commit_obj t ps0 (.obj t (removeOwn ps0 k))
            have h4 : commit (.obj t ps0) (.obj t (removeOwn ps0 k))
                = .obj t (removeOwn ps0 k) := rfl
            rw [h4]
            exact ownLookup_removeOwn_same ps0 k
          have hsk : selectedAt (.obj tb psb) force [k] = true := by
            rw [selectedAt_single _ _ _ hib, hkb, hpb, hsel]
            rfl
          have hk2 : hasProp a2 k = inherited k := by
            simp [hasProp, hasOwn, hl2]
          have hp2 : inherited k = true → propOf a2 k = builtinFn := by
            intro hin
            unfold propOf
            simp [hl2, hin]
          constructor
          · intro hno
            have := hno [k] ⟨p2, rfl⟩
            rw [hsk] at this
            exact absurd this (by simp)
          · intro _
            cases p2 with
            | nil =>
              rw [hsk]
              have h1 : (getWalk a2 [k]).isSome = inherited k := by
                by_cases hin : inherited k = true
                · simp [getWalk, hia2, hk2, hin]
                · simp [getWalk, hia2, hk2, hin]
              have h2 : lastInherited [k] = inherited k := rfl
              have h3 : (getWalk (.obj t ps) [k]).isSome = hasProp (.obj t ps) k := by
                by_cases hh : hasProp (.obj t ps) k = true
                · simp [getWalk, hia, hh]
                · simp [getWalk, hia, hh]
              rw [h1, h2, h3]
              unfold hasProp
              cases hasOwn (propsOf (.obj t ps)) k <;> cases inherited k <;> rfl
            | cons k2 p3 =>
              have h1 : getWalk a2 (k :: k2 :: p3) = none := by
                by_cases hin : inherited k = true
                · rw [getWalk_cons_of_isIterable _ _ _ hia2 (by rw [hk2]; exact hin),
                    hp2 hin]
                  rfl
                · exact getWalk_cons_of_not_hasProp _ _ _ (by rw [hk2]; simpa using hin)
              have h2 : selectedAt (.obj tb psb) force (k :: k2 :: p3) = false := by
                rw [selectedAt_cons_cons _ _ _ _ _ hib hkb, hpb]
                unfold selectedAt
                rw [getWalk_leaf_cons _ _ _ hnib]
                simp
              rw [h1, h2]
              simp
        · -- the key is not selected: the visitor does nothing
          have hsel2 : selects force bv = false := by simpa using hsel
          simp only [hsel2, Bool.false_eq_true, if_false, commit_self] at hcases
          have hpa : propOf (.obj t ps0) k = propOf (.obj t ps) k := propOf_eq_of_ownLookup hl0
          have hsk : selectedAt (.obj tb psb) force [k] = false := by
            rw [selectedAt_single _ _ _ hib, hkb, hpb, hsel2]
            rfl
          rcases hcases with ⟨hit, s3, ak2, hd, hl2⟩ | ⟨hno, hl2⟩
          · -- the walk goes below the key
            simp only [Bool.and_eq_true] at hit
            obtain ⟨hibv, hiak⟩ := hit
            rw [hpa] at hiak hd
            obtain ⟨ak3, hd3, hcl3, hdesc⟩ := ih _ hmem hwfv hibv _ (path ++ [k]) hiak
            have hak : ak3 = ak2 := by
              have h5 := hd3.symm.trans hd
              simp only [Except.ok.injEq, Prod.mk.injEq] at h5
              exact h5.2
            subst hak
            have hka : hasProp (.obj t ps) k = true := hasProp_of_isIterable_propOf hiak
            have hka2 : hasProp a2 k = true := by simp [hasProp, hasOwn, hl2]
            have hpa2 : propOf a2 k = ak3 := propOf_of_ownLookup hl2
            have hw1 : getWalk (.obj t ps) (k :: p2) = getWalk (propOf (.obj t ps) k) p2 :=
              getWalk_cons_of_isIterable _ _ _ hia hka
            have hw2 : getWalk a2 (k :: p2) = getWalk ak3 p2 := by
              rw [getWalk_cons_of_isIterable _ _ _ hia2 hka2, hpa2]
            rw [hw1, hw2]
            obtain ⟨hA, hB⟩ := hdesc p2
            constructor
            · intro hno
              apply hA
              intro q hq
              cases q with
              | nil => exact selectedAt_nil _ _
              | cons k3 q3 =>
                have := hno (k :: k3 :: q3) (initial_cons_cons k hq)
                rw [selectedAt_cons_cons _ _ _ _ _ hib hkb, hpb] at this
                exact this
            · rintro ⟨q, hq, hs⟩
              rcases initial_cons_inv hq with rfl | ⟨q2, rfl, hq2⟩
              · rw [selectedAt_nil] at hs; exact absurd hs (by simp)
              · cases q2 with
                | nil => rw [hsk] at hs; exact absurd hs (by simp)
                | cons k3 q3 =>
                  rw [selectedAt_cons_cons _ _ _ _ _ hib hkb, hpb] at hs
                  cases p2 with
                  | nil => exact absurd (initial_nil_inv hq2) (by simp)
                  | cons k4 p4 =>
                    rw [selectedAt_cons_cons _ _ _ _ _ hib hkb, hpb,
                      lastInherited_cons_cons]
                    exact hB ⟨_, hq2, hs⟩
          · -- the walk stays above the key
            rw [hl0] at hl2
            rw [hpa] at hno
            have heq : getWalk a2 (k :: p2) = getWalk (.obj t ps) (k :: p2) :=
              getWalk_cons_congr _ _ _ _ hcl hl2
            apply remove_same_path _ _ _ _ _ heq
            rintro ⟨q, hq, hs⟩
            rcases initial_cons_inv hq with rfl | ⟨q2, rfl, hq2⟩
            · rw [selectedAt_nil] at hs; exact absurd hs (by simp)
            · cases q2 with
              | nil => rw [hsk] at hs; exact absurd hs (by simp)
              | cons k3 q3 =>
                rw [selectedAt_cons_cons _ _ _ _ _ hib hkb, hpb] at hs
                have hibv : isIterable bv = true := by
                  cases hb : isIterable bv with
                  | true => rfl
                  | false =>
                    unfold selectedAt at hs
                    rw [getWalk_leaf_cons _ _ _ hb] at hs
                    simp at hs
                have hnak : isIterable (propOf (.obj t ps) k) = false := by
                  simpa [hibv] using hno
                cases p2 with
                | nil => exact absurd (initial_nil_inv hq2) (by simp)
                | cons k4 p4 =>
                  by_cases hka : hasProp (.obj t ps) k = true
                  · rw [getWalk_cons_of_isIterable _ _ _ hia hka]
                    exact getWalk_leaf_cons _ _ _ hnak
                  · exact getWalk_cons_of_not_hasProp _ _ _ (by simpa using hka)
      · -- the shape has no such key: the property is as before
        have hown2 : hasOwn psb k = false := by simpa using hown
        have hk : k ∉ psb.map Prod.fst := fun h => hown ((hasOwn_iff_mem psb k).2 h)
        have hl2 := deepItKeys_frame (removeCb force) (touchesOnlyKey_removeCb force) _ path k
          psb hk _ _ _ _ hrun
        have heq : getWalk a2 (k :: p2) = getWalk (.obj t ps) (k :: p2) :=
          getWalk_cons_congr _ _ _ _ hcl hl2
        apply remove_same_path _ _ _ _ _ heq
        rintro ⟨q, hq, hs⟩
        rcases initial_cons_inv hq with rfl | ⟨q2, rfl, _⟩
        · rw [selectedAt_nil] at hs; exact absurd hs (by simp)
        · rw [selectedAt_not_own tb psb force k q2 hown2] at hs
          exact absurd hs (by simp)

theorem getWalk_append (n : Val) (q r : List String) :
    getWalk n (q ++ r) = (getWalk n q).bind (fun v => getWalk v r) := by
  induction q generalizing n with
  | nil => rfl
  | cons k q2 ih =>
    rw [List.cons_append, getWalk_cons, getWalk_cons]
    split
    · rfl
    · exact ih _

/-- A path that resolves in the shape to a container has no selected initial part. -/
theorem not_selectedAt_above_container (shape : Val) (force : Bool) (p : List String)
    (c : Val) (h : getWalk shape p = some c) (hc : isIterable c = true) :
    ∀ q, q <+: p → selectedAt shape force q = false := by
  rintro q ⟨r, rfl⟩
  rw [getWalk_append] at h
  cases hq : getWalk shape q with
  | none => rw [hq] at h; simp at h
  | some v =>
    rw [hq] at h
    simp only [Option.some_bind] at h
    have hv : isIterable v = true := getWalk_isIterable h hc
    unfold selectedAt selects
    rw [hq]
    simp [isIterable_not_isPrimitive hv]

theorem get_ne_missArr_iff (obj : Val) (p : Path) :
    get obj p false ≠ missArr ↔ (getWalk obj (getPath p)).isSome = true := by
  rw [Ne, get_miss_iff]
  cases getWalk obj (getPath p) <;> simp

/-! ### C15 -/

/-- C15, as stated, fails on a key that names an inherited member: the shape `{toString: 1}`
selects the path `toString`, which resolves in `x = {}` before `remove(x, shape)` and still
resolves after it. -/
theorem remove_inherited_key_still_resolves :
    isIterable emptyRecord = true
      ∧ isIterable (.obj .record [("toString", .num 1)]) = true
      ∧ get emptyRecord (.dotted "toString") false = hitArr builtinFn
      ∧ get (.obj .record [("toString", .num 1)]) (.dotted "toString") false
          = hitArr (.num 1)
      ∧ isPrimitive (.num 1) = true ∧ truthy (.num 1) = true
      ∧ remove emptyRecord (.obj .record [("toString", .num 1)]) false = .ok emptyRecord
      ∧ get emptyRecord (.dotted "toString") false ≠ missArr := by
  refine ⟨rfl, rfl, rfl, rfl, rfl, rfl, rfl, ?_⟩
  rw [get_ne_missArr_iff]
  rfl

/-- C15, amended: for a container `x` and a container `shape`, both trees of plain records,
`remove` returns `x`, and for every path `p` without the key `__proto__`: when no initial part
of `p`, `p` included, resolves in the shape to a primitive that is truthy (any primitive under
`force`), `p` resolves afterwards exactly when it resolved before, to a value of the same
class and to the same value when that is no container; when some initial part does, `p`
resolves afterwards only in case it is `p` itself that the shape selects, `p` resolved before,
and the last key of `p` names an inherited member. A path that resolves in the shape to a
container has no such initial part, so it resolves afterwards when it did before. -/
theorem remove_deletes_selected (x shape : Val) (force : Bool) (hx : isIterable x = true)
    (hs : isIterable shape = true) (hwf : wf shape = true) (_hpx : plain x = true)
    (_hps : plain shape = true) :
    ∃ x2, remove x shape force = .ok x2 ∧ classOf x2 = classOf x
      ∧ ∀ p : List String, plainPath p = true →
        ((∀ q, q <+: p → selectedAt shape force q = false) →
          (∀ w, get x (.keys p) false = hitArr w →
            ∃ v, get x2 (.keys p) false = hitArr v ∧ classOf v = classOf w
              ∧ (isIterable w = false → v = w))
          ∧ (get x (.keys p) false = missArr → get x2 (.keys p) false = missArr))
        ∧ ((∃ q, q <+: p ∧ selectedAt shape force q = true) →
          (get x2 (.keys p) false ≠ missArr ↔
            get x (.keys p) false ≠ missArr ∧ selectedAt shape force p = true
              ∧ lastInherited p = true))
        ∧ (∀ c, get shape (.keys p) false = hitArr c → isIterable c = true →
            ∀ q, q <+: p → selectedAt shape force q = false) := by
  obtain ⟨x2, hrun, hcl, hall⟩ := remove_walk force shape hwf hs x [] hx
  refine ⟨x2, by unfold remove; rw [hrun], hcl, ?_⟩
  intro p _
  obtain ⟨hA, hB⟩ := hall p
  refine ⟨fun hno => ?_, fun hex => ?_, fun c hc hic =>
    not_selectedAt_above_container shape force p c ((get_hit_iff _ (.keys p) _).1 hc) hic⟩
  · obtain ⟨h1, h2⟩ := hA hno
    constructor
    · intro w hw
      obtain ⟨v, hv, hcv, hvw⟩ := h1 w ((get_hit_iff _ (.keys p) _).1 hw)
      exact ⟨v, (get_hit_iff _ (.keys p) _).2 hv, hcv, hvw⟩
    · intro hm
      exact (get_miss_iff _ (.keys p)).2 (h2 ((get_miss_iff _ (.keys p)).1 hm))
  · have h := hB hex
    rw [get_ne_missArr_iff, get_ne_missArr_iff, getPath_keys, h]
    simp only [Bool.and_eq_true, and_assoc]

/-- C15, amended, at the instance `remove({a: 1, b: {c: 2, d: 3}}, {b: {c: 1}})`, which is
`{a: 1, b: {d: 3}}`: the container `b` is still there. -/
theorem remove_deletes_selected_witness :
    remove (.obj .record [("a", .num 1), ("b", .obj .record [("c", .num 2), ("d", .num 3)])])
        (.obj .record [("b", .obj .record [("c", .num 1)])]) false
      = .ok (.obj .record [("a", .num 1), ("b", .obj .record [("d", .num 3)])])
    ∧ ∃ x2, remove
          (.obj .record [("a", .num 1), ("b", .obj .record [("c", .num 2), ("d", .num 3)])])
          (.obj .record [("b", .obj .record [("c", .num 1)])]) false = .ok x2
        ∧ ∃ v, get x2 (.keys ["b"]) false = hitArr v ∧ classOf v = "Object" := by
  refine ⟨rfl, ?_⟩
  obtain ⟨x2, h1, _, h3⟩ :=
    remove_deletes_selected
      (.obj .record [("a", .num 1), ("b", .obj .record [("c", .num 2), ("d", .num 3)])])
      (.obj .record [("b", .obj .record [("c", .num 1)])]) false rfl rfl rfl rfl rfl
  obtain ⟨hA, _, hC⟩ := h3 ["b"] rfl
  obtain ⟨v, hv, hcv, _⟩ := (hA (hC _ rfl rfl)).1 _ rfl
  exact ⟨x2, h1, v, hv, hcv⟩

/-! ## `pick` -/

/-! ### C16 -/

/-- C16: `pick({m: new Map()}, {m: 1})` throws. The path `m` resolves in the shape to the
truthy leaf `1` and resolves in `obj`, to a map; the visitor then calls `d.constructor()`,
which is `Map` without `new`. On records the operation works:
`pick({a: 1, b: {c: 2, d: 3}}, {b: {c: 1}})` is `{b: {c: 2}}`. -/
theorem pick_throws_on_map :
    isIterable (.obj .record [("m", .obj .map [])]) = true
      ∧ isIterable (.obj .record [("m", .num 1)]) = true
      ∧ get (.obj .record [("m", .num 1)]) (.dotted "m") false = hitArr (.num 1)
      ∧ isPrimitive (.num 1) = true ∧ truthy (.num 1) = true
      ∧ get (.obj .record [("m", .obj .map [])]) (.dotted "m") false = hitArr (.obj .map [])
      ∧ pick (.obj .record [("m", .obj .map [])]) (.obj .record [("m", .num 1)]) false
          = .error (.typeError "Constructor Map requires 'new'")
      ∧ pick (.obj .record [("a", .num 1),
            ("b", .obj .record [("c", .num 2), ("d", .num 3)])])
          (.obj .record [("b", .obj .record [("c", .num 1)])]) false
          = .ok (.obj .record [("b", .obj .record [("c", .num 2)])]) :=
  ⟨rfl, rfl, rfl, rfl, rfl, rfl, rfl, rfl⟩

/-! ## `pick` when it returns -/

theorem assignProp_obj (t : Tag) (ps : Props) (k : String) (v : Val) :
    assignProp (.obj t ps) k v = .ok (.obj t (putOwn ps k v)) := rfl

/-- What a call of the visitor of `pick` that returns has done to an object `a`. -/
theorem pickCb_inv (obj : Val) (force : Bool) (s : Unit) (t : Tag) (ps : Props) (b : Val)
    (key : String) (path : List String) (s1 : Unit) (a1 r : Val)
    (h : pickCb obj force s (.obj t ps) b key path = .ok (s1, a1, r)) :
    r = .undefined ∧ ∃ ps1, a1 = .obj t ps1
      ∧ (∀ k, k ≠ key → ownLookup ps1 k = ownLookup ps k)
      ∧ ((((force || truthy (propOf b key)) = false ∨ getWalk obj (path ++ [key]) = none)
            ∧ ps1 = ps)
        ∨ (∃ d, getWalk obj (path ++ [key]) = some d
            ∧ (force || truthy (propOf b key)) = true
            ∧ ((isPrimitive (propOf b key) = true ∧ ownLookup ps1 key = some d)
              ∨ (isPrimitive (propOf b key) = false ∧ isPrimitive d = true ∧ ps1 = ps)
              ∨ (isPrimitive (propOf b key) = false ∧ isPrimitive d = false
                  ∧ ∃ n, construct d = .ok n ∧ ownLookup ps1 key = some n)))) := by
  have ht1 : truthy (Val.num 1) = true := rfl
  have ht0 : truthy Val.undefined = false := rfl
  unfold pickCb at h
  rw [get_false_eq, getPath_keys] at h
  by_cases hf : (force || truthy (propOf b key)) = true
  · cases hw : getWalk obj (path ++ [key]) with
    | none =>
      simp only [hw, propOf_missArr_one, hf, Bool.not_true, Bool.false_or, ht1,
        if_true, Except.ok.injEq, Prod.mk.injEq] at h
      obtain ⟨_, rfl, rfl⟩ := h
      exact ⟨rfl, ps, rfl, fun _ _ => rfl, Or.inl ⟨Or.inr rfl, rfl⟩⟩
    | some d =>
      simp only [hw, propOf_hitArr_one, propOf_hitArr_zero, hf, Bool.not_true, Bool.false_or,
        ht0, Bool.false_eq_true, if_false] at h
      by_cases hd : isPrimitive d = true
      · simp only [hd, Bool.not_true, Bool.false_eq_true, if_false] at h
        by_cases hb : isPrimitive (propOf b key) = true
        · simp only [hb, if_true, assignProp_obj, Except.ok.injEq, Prod.mk.injEq] at h
          obtain ⟨_, rfl, rfl⟩ := h
          exact ⟨rfl, _, rfl, fun k hk => ownLookup_putOwn_other _ _ _ _ hk,
            Or.inr ⟨d, rfl, hf, Or.inl ⟨hb, ownLookup_putOwn_same _ _ _⟩⟩⟩
        · simp only [hb, Bool.false_eq_true, if_false, Except.ok.injEq, Prod.mk.injEq] at h
          obtain ⟨_, rfl, rfl⟩ := h
          exact ⟨rfl, ps, rfl, fun _ _ => rfl,
            Or.inr ⟨d, rfl, hf, Or.inr (Or.inl ⟨by simpa using hb, hd, rfl⟩)⟩⟩
      · have hd2 : isPrimitive d = false := by simpa using hd
        simp only [hd2, Bool.not_false, if_true] at h
        cases hc : construct d with
        | error e => simp [hc] at h
        | ok n =>
          simp only [hc, assignProp_obj] at h
          by_cases hb : isPrimitive (propOf b key) = true
          · simp only [hb, if_true, assignProp_obj, Except.ok.injEq, Prod.mk.injEq] at h
            obtain ⟨_, rfl, rfl⟩ := h
            refine ⟨rfl, _, rfl, fun k hk => ?_,
              Or.inr ⟨d, rfl, hf, Or.inl ⟨hb, ownLookup_putOwn_same _ _ _⟩⟩⟩
            rw [ownLookup_putOwn_other _ _ _ _ hk, ownLookup_putOwn_other _ _ _ _ hk]
          · simp only [hb, Bool.false_eq_true, if_false, Except.ok.injEq, Prod.mk.injEq] at h
            obtain ⟨_, rfl, rfl⟩ := h
            exact ⟨rfl, _, rfl, fun k hk => ownLookup_putOwn_other _ _ _ _ hk,
              Or.inr ⟨d, rfl, hf, Or.inr (Or.inr ⟨by simpa using hb, hd2, n, hc,
                ownLookup_putOwn_same _ _ _⟩)⟩⟩
  · have hf2 : (force || truthy (propOf b key)) = false := by simpa using hf
    simp only [hf2, Bool.not_false, Bool.true_or, if_true, Except.ok.injEq,
      Prod.mk.injEq] at h
    obtain ⟨_, rfl, rfl⟩ := h
    exact ⟨rfl, ps, rfl, fun _ _ => rfl, Or.inl ⟨Or.inl hf2, rfl⟩⟩

theorem noFalse_pickCb (obj : Val) (force : Bool) : NoFalse (pickCb obj force) := by
  intro s a b key path s1 a1 r h
  unfold pickCb at h
  simp only at h
  split at h
  · cases h; rfl
  · split at h
    · cases h
    · split at h
      · split at h
        · cases h
        · cases h; rfl
      · cases h; rfl

theorem touchesOnlyKey_pickCb (obj : Val) (force : Bool) :
    TouchesOnlyKey (pickCb obj force) := by
  intro s a b key path s1 a1 r h k hk
  cases a with
  | obj t ps =>
    obtain ⟨_, ps1, rfl, hother, _⟩ := pickCb_inv obj force s t ps b key path s1 a1 r h
    exact hother k hk
  | _ => rw [commit_of_not_obj _ _ (by intro t ps h2; cases h2)]

theorem getWalk_below (obj : Val) (path q : List String) (node : Val)
    (h : getWalk obj path = some node) : getWalk obj (path ++ q) = getWalk node q := by
  rw [getWalk_append, h]
  rfl

/-- Below a key an object does not own no path resolves to a primitive. -/
theorem no_leaf_below_absent (a : Val) (k : String) (q : List String) (v : Val)
    (hl : ownLookup (propsOf a) k = none) (h : getWalk a (k :: q) = some v) :
    isPrimitive v = false := by
  obtain ⟨_, hk, hw⟩ := getWalk_cons_some h
  have hin : inherited k = true := by
    simpa [hasProp, hasOwn, hl] using hk
  have hp : propOf a k = builtinFn := by
    unfold propOf
    simp [hl, hin]
  rw [hp] at hw
  cases q with
  | nil =>
    simp only [getWalk, Option.some.injEq] at hw
    rw [← hw]
    rfl
  | cons k2 q2 => simp [getWalk_leaf_cons builtinFn k2 q2 rfl] at hw

theorem getWalk_inherited_below (a : Val) (k k2 : String) (q : List String)
    (hl : ownLookup (propsOf a) k = none) : getWalk a (k :: k2 :: q) = none := by
  cases h : getWalk a (k :: k2 :: q) with
  | none => rfl
  | some v =>
    obtain ⟨_, hk, hw⟩ := getWalk_cons_some h
    have hin : inherited k = true := by
      simpa [hasProp, hasOwn, hl] using hk
    have hp : propOf a k = builtinFn := by
      unfold propOf
      simp [hl, hin]
    rw [hp, getWalk_leaf_cons builtinFn k2 q rfl] at hw
    cases hw

/-- What `d.constructor()` returns has no properties: it is an empty container when `d` is a
record or a list, and no container otherwise. -/
theorem construct_inv (d n : Val) (h : construct d = .ok n) :
    isPrimitive n = false ∧ propsOf n = []
      ∧ (isIterable n = true → isIterable d = true ∧ ∃ t, n = .obj t [])
      ∧ (isIterable d = true → isIterable n = true) := by
  unfold construct at h
  split at h
  · split at h
    · cases h
    · cases h
    · split at h
      · cases h; exact ⟨rfl, rfl, fun _ => ⟨rfl, _, rfl⟩, fun _ => rfl⟩
      · cases h; exact ⟨rfl, rfl, fun _ => ⟨rfl, _, rfl⟩, fun _ => rfl⟩
      · cases h
        exact ⟨rfl, rfl, fun hi => by simp [isIterable, is, classOf] at hi,
          fun hi => by simp [isIterable, is, classOf] at hi⟩
      · cases h
  · cases h
    exact ⟨rfl, rfl, fun hi => by simp [isIterable, is, classOf] at hi,
      fun hi => by simp [isIterable, is, classOf] at hi⟩
  · cases h

/-- No path resolves to a primitive in what `d.constructor()` returns. -/
theorem no_leaf_in_constructed (d n : Val) (h : construct d = .ok n) (q : List String)
    (v : Val) (hw : getWalk n q = some v) : isPrimitive v = false := by
  obtain ⟨hp, hps, _, _⟩ := construct_inv d n h
  cases q with
  | nil =>
    simp only [getWalk, Option.some.injEq] at hw
    rw [← hw]; exact hp
  | cons k q2 =>
    exact no_leaf_below_absent n k q2 v (by rw [hps]; rfl) hw

theorem selectedAt_own_truthy (tb : Tag) (psb : Props) (force : Bool) (k : String)
    (q : List String) (bv : Val) (hib : isIterable (.obj tb psb) = true)
    (hlb : ownLookup psb k = some bv)
    (h : selectedAt (.obj tb psb) force (k :: q) = true) :
    (force || truthy bv) = true
      ∧ (q = [] → isPrimitive bv = true)
      ∧ (q ≠ [] → isIterable bv = true ∧ selectedAt bv force q = true) := by
  have hpb : propOf (.obj tb psb) k = bv := propOf_of_ownLookup hlb
  have hkb : hasProp (.obj tb psb) k = true := by simp [hasProp, hasOwn, propsOf, hlb]
  cases q with
  | nil =>
    rw [selectedAt_single _ _ _ hib, hkb, hpb] at h
    unfold selects at h
    simp only [Bool.true_and, Bool.and_eq_true] at h
    exact ⟨h.2, fun _ => h.1, fun hne => absurd rfl hne⟩
  | cons k2 q2 =>
    rw [selectedAt_cons_cons _ _ _ _ _ hib hkb, hpb] at h
    have hibv : isIterable bv = true := by
      cases hb : isIterable bv with
      | true => rfl
      | false =>
        unfold selectedAt at h
        rw [getWalk_leaf_cons _ _ _ hb] at h
        simp at h
    have ht : (force || truthy bv) = true := by
      rw [truthy_of_isIterable hibv]; simp
    exact ⟨ht, fun hq => absurd hq (by simp), fun _ => ⟨hibv, h⟩⟩

/-- The walk of `pick` that returns, into an empty container that mirrors the container of
`obj` at `path`, along a container `b` of the shape: a path selected in `b` resolves in the
result as it does in `obj` below `path`, and a path that resolves in the result to a
primitive resolves in `obj` below `path` to it. -/
theorem pick_walk (obj : Val) (force : Bool) (b : Val) : wf b = true → isIterable b = true →
    ∀ (t : Tag) (path : List String) (node a2 : Val), isIterable (.obj t []) = true →
    getWalk obj path = some node → isIterable node = true →
    deepIt (pickCb obj force) () (.obj t []) b path = .ok ((), a2) →
    ∀ p : List String,
      (selectedAt b force p = true → getWalk a2 p = getWalk obj (path ++ p))
      ∧ (∀ v, getWalk a2 p = some v → isPrimitive v = true →
          getWalk obj (path ++ p) = some v) := by
  induction b using Val.induct_aux with
  | hleaf v hv =>
    intro _ hi
    obtain ⟨t, ps, rfl, _⟩ := isIterable_obj hi
    exact absurd rfl (hv t ps)
  | hobj tb psb ih =>
    intro hwf hib t path node a2 hia hnode hin hrun p
    rw [wf_obj] at hwf
    have hcl := deepIt_classOf _ _ _ _ _ _ _ hrun
    have hia2 : isIterable a2 = true := by rw [isIterable_of_classOf hcl]; exact hia
    rw [deepIt_obj] at hrun
    cases p with
    | nil =>
      refine ⟨fun h => by rw [selectedAt_nil] at h; exact absurd h (by simp), ?_⟩
      intro v hv hp
      simp only [getWalk, Option.some.injEq] at hv
      subst hv
      rw [isIterable_not_isPrimitive hia2] at hp
      exact absurd hp (by simp)
    | cons k p2 =>
      rw [getWalk_below obj path (k :: p2) node hnode]
      by_cases hown : hasOwn psb k = true
      · obtain ⟨pre, bv, post, hps, hpre, hpost, hlb⟩ := wfProps_split psb hwf k hown
        have hmem : (k, bv) ∈ psb := mem_of_ownLookup psb k bv hlb
        have hwfv : wf bv = true := (wfProps_mem psb hwf _ hmem).2
        have hpb : propOf (.obj tb psb) k = bv := propOf_of_ownLookup hlb
        have hkb : hasProp (.obj tb psb) k = true := by simp [hasProp, propsOf, hown]
        have hrun2 : deepItKeys (pickCb obj force) () (.obj t []) (.obj tb psb)
            (pre ++ (k, bv) :: post) path = .ok ((), a2) := by rw [← hps]; exact hrun
        obtain ⟨s0, a0, s1, a1, r1, _, hl0, hcl0, hc, hcases⟩ :=
          deepItKeys_at_key (pickCb obj force) (noFalse_pickCb obj force)
            (touchesOnlyKey_pickCb obj force) _ path pre post k bv hpre hpost () _ () _ hrun2
        obtain ⟨ps0, rfl⟩ := obj_of_classOf hcl0
        have hl0b : ownLookup ps0 k = none := hl0
        obtain ⟨_, ps1, rfl, _, hvis⟩ := pickCb_inv obj force s0 t ps0 _ k path s1 a1 r1 hc
        rw [hpb, getWalk_below obj path [k] node hnode] at hvis
        have hcm : commit (.obj t ps0) (.obj t ps1) = .obj t ps1 := rfl
        rw [hcm] at hcases
        have hsel := selectedAt_own_truthy tb psb force k p2 bv hib hlb
        -- what follows when the result has no own property under the key
        have habsent : ownLookup (propsOf a2) k = none →
            (selectedAt (.obj tb psb) force (k :: p2) = true →
              getWalk node (k :: p2) = none) →
            (selectedAt (.obj tb psb) force (k :: p2) = true →
                getWalk a2 (k :: p2) = getWalk node (k :: p2))
              ∧ (∀ v, getWalk a2 (k :: p2) = some v → isPrimitive v = true →
                getWalk node (k :: p2) = some v) := by
          intro hl2 hmiss
          refine ⟨fun hs => ?_, fun v hv hp => ?_⟩
          · rw [hmiss hs]
            cases p2 with
            | nil =>
              by_cases hik : inherited k = true
              · have h5 := hmiss hs
                rw [getWalk_cons_of_isIterable _ _ _ hin (by simp [hasProp, hik])] at h5
                cases h5
              · exact getWalk_cons_of_not_hasProp _ _ _ (by
                  simp [hasProp, hasOwn, hl2, hik])
            | cons k2 p3 => exact getWalk_inherited_below a2 k k2 p3 hl2
          · rw [no_leaf_below_absent a2 k p2 v hl2 hv] at hp
            exact absurd hp (by simp)
        have hnot0 : isIterable (propOf (.obj t ps0) k) = false := by
          cases hb : isIterable (propOf (.obj t ps0) k) with
          | false => rfl
          | true =>
            have := ownLookup_of_isIterable_propOf hb
            rw [show propsOf (.obj t ps0) = ps0 from rfl, hl0b] at this
            cases this
        rcases hvis with ⟨hskip, hps1⟩ | ⟨d, hd, hft, hkind⟩
        · -- the visitor returns at once
          rw [hps1] at hcases
          simp only [hnot0, Bool.and_false, Bool.false_eq_true, false_and, false_or,
            true_and] at hcases
          rw [show propsOf (.obj t ps0) = ps0 from rfl, hl0b] at hcases
          apply habsent hcases
          intro hs
          rcases hskip with hf | hmiss
          · rw [(hsel hs).1] at hf
            exact absurd hf (by simp)
          · cases hk : hasProp node k with
            | false => exact getWalk_cons_of_not_hasProp _ _ _ hk
            | true =>
              rw [getWalk_cons_of_isIterable _ _ _ hin hk] at hmiss
              cases hmiss
        · have hkn : hasProp node k = true ∧ propOf node k = d := by
            obtain ⟨_, h1, h2⟩ := getWalk_cons_some hd
            simp only [getWalk, Option.some.injEq] at h2
            exact ⟨h1, h2⟩
          have hnode2 : getWalk node (k :: p2) = getWalk d p2 := by
            rw [getWalk_cons_of_isIterable _ _ _ hin hkn.1, hkn.2]
          rcases hkind with ⟨hpbv, hl1⟩ | ⟨hpbv, hpd, hps1⟩ | ⟨hpbv, hpd, n, hcn, hl1⟩
          · -- a leaf of the shape: the value found is copied
            have hnib : isIterable bv = false := isPrimitive_not_isIterable hpbv
            simp only [hnib, Bool.false_and, Bool.false_eq_true, false_and, false_or,
              true_and] at hcases
            rw [show propsOf (.obj t ps1) = ps1 from rfl, hl1] at hcases
            have hw2 : getWalk a2 (k :: p2) = getWalk d p2 := by
              rw [getWalk_cons_of_isIterable _ _ _ hia2 (by simp [hasProp, hasOwn, hcases]),
                propOf_of_ownLookup hcases]
            rw [hw2, hnode2]
            exact ⟨fun _ => rfl, fun v hv _ => hv⟩
          · -- a container of the shape over a primitive of `obj`: nothing is written
            rw [hps1] at hcases
            simp only [hnot0, Bool.and_false, Bool.false_eq_true, false_and, false_or,
              true_and] at hcases
            rw [show propsOf (.obj t ps0) = ps0 from rfl, hl0b] at hcases
            apply habsent hcases
            intro hs
            cases p2 with
            | nil =>
              rw [(hsel hs).2.1 rfl] at hpbv
              exact absurd hpbv (by simp)
            | cons k2 p3 =>
              rw [hnode2]
              exact getWalk_leaf_cons _ _ _ (isPrimitive_not_isIterable hpd)
          · -- a container of the shape over an object of `obj`: an empty one is made
            obtain ⟨hpn, hpsn, hnit, hdit⟩ := construct_inv d n hcn
            have hpn1 : propOf (.obj t ps1) k = n := propOf_of_ownLookup hl1
            rw [hpn1] at hcases
            rcases hcases with ⟨hit, s3, ak2, hdeep, hl2⟩ | ⟨hno, hl2⟩
            · -- the walk goes below the key
              simp only [Bool.and_eq_true] at hit
              obtain ⟨hibv, hinn⟩ := hit
              obtain ⟨hid, t2, rfl⟩ := hnit hinn
              have hdesc := ih _ hmem hwfv hibv t2 (path ++ [k]) d ak2 hinn
                (by rw [getWalk_below obj path [k] node hnode]; exact hd) hid hdeep p2
              rw [List.append_assoc, List.singleton_append,
                getWalk_below obj path (k :: p2) node hnode, hnode2] at hdesc
              have hw2 : getWalk a2 (k :: p2) = getWalk ak2 p2 := by
                rw [getWalk_cons_of_isIterable _ _ _ hia2 (by simp [hasProp, hasOwn, hl2]),
                  propOf_of_ownLookup hl2]
              rw [hw2, hnode2]
              refine ⟨fun hs => ?_, hdesc.2⟩
              cases p2 with
              | nil =>
                rw [(hsel hs).2.1 rfl] at hpbv
                exact absurd hpbv (by simp)
              | cons k2 p3 => exact hdesc.1 ((hsel hs).2.2 (by simp)).2
            · -- the walk stays above the key
              rw [show propsOf (.obj t ps1) = ps1 from rfl, hl1] at hl2
              have hw2 : getWalk a2 (k :: p2) = getWalk n p2 := by
                rw [getWalk_cons_of_isIterable _ _ _ hia2 (by simp [hasProp, hasOwn, hl2]),
                  propOf_of_ownLookup hl2]
              rw [hw2, hnode2]
              refine ⟨fun hs => ?_, fun v hv hp => ?_⟩
              · cases p2 with
                | nil =>
                  rw [(hsel hs).2.1 rfl] at hpbv
                  exact absurd hpbv (by simp)
                | cons k2 p3 =>
                  have hibv := ((hsel hs).2.2 (by simp)).1
                  have hnn : isIterable n = false := by simpa [hibv] using hno
                  have hnd : isIterable d = false := by
                    cases hdd : isIterable d with
                    | false => rfl
                    | true => rw [hdit hdd] at hnn; exact absurd hnn (by simp)
                  rw [getWalk_leaf_cons _ _ _ hnn, getWalk_leaf_cons _ _ _ hnd]
              · rw [no_leaf_in_constructed d n hcn p2 v hv] at hp
                exact absurd hp (by simp)
      · -- the shape has no such key: the result has no such property
        have hown2 : hasOwn psb k = false := by simpa using hown
        have hk : k ∉ psb.map Prod.fst := fun h => hown ((hasOwn_iff_mem psb k).2 h)
        have hl2 := deepItKeys_frame (pickCb obj force) (touchesOnlyKey_pickCb obj force) _
          path k psb hk _ _ _ _ hrun
        refine ⟨fun hs => ?_, fun v hv hp => ?_⟩
        · rw [selectedAt_not_own tb psb force k p2 hown2] at hs
          exact absurd hs (by simp)
        · rw [no_leaf_below_absent a2 k p2 v hl2 hv] at hp
          exact absurd hp (by simp)

/-- The function `pick` whenever it returns, for a container `obj` and a container shape,
both trees of plain records: a path without the key `__proto__` that resolves in the shape to
a primitive that is truthy (any primitive under `force`) resolves in the result as it does in
`obj`, to the same value or not at all, and one that resolves in the result to a primitive
resolves in `obj` to that primitive. -/
theorem pick_of_returns (obj shape : Val) (force : Bool) (r : Val)
    (hobj : isIterable obj = true) (hs : isIterable shape = true) (hwf : wf shape = true)
    (_hpo : plain obj = true) (_hps : plain shape = true)
    (h : pick obj shape force = .ok r) :
    ∀ p : List String, plainPath p = true →
      (selectedAt shape force p = true → ∀ e, get r (.keys p) e = get obj (.keys p) e)
      ∧ (∀ v, get r (.keys p) false = hitArr v → isPrimitive v = true →
          get obj (.keys p) false = hitArr v) := by
  unfold pick at h
  split at h
  · cases h
  · rename_i u o hrun
    simp only [Except.ok.injEq] at h
    subst h
    intro p _
    obtain ⟨h1, h2⟩ := pick_walk obj force shape hwf hs .record [] obj o rfl rfl hobj hrun p
    rw [List.nil_append] at h1 h2
    refine ⟨fun hsel e => get_keys_congr _ _ _ (h1 hsel) e, fun v hv hp => ?_⟩
    exact (get_hit_iff _ (.keys p) _).2 (h2 v ((get_hit_iff _ (.keys p) _).1 hv) hp)

/-! ## `isEqual` on the keys of `y` -/

/-- What a call of the visitor of `isEqual` that returns has done: it leaves `a` alone, and
either it stops the loop with `equal` set to `false`, or it returns nothing, `equal` is as
before, and the two values pass the comparison if one of them is a primitive. -/
theorem isEqualCb_inv (isStrict : Bool) (s : Bool) (t : Tag) (ps : Props) (b : Val)
    (key : String) (path : List String) (s1 : Bool) (a1 r : Val)
    (h : isEqualCb isStrict s (.obj t ps) b key path = .ok (s1, a1, r)) :
    a1 = .obj t ps
      ∧ ((r = .bool false ∧ s1 = false)
        ∨ (r = .undefined ∧ s1 = s
            ∧ ((isPrimitive (propOf (.obj t ps) key) || isPrimitive (propOf b key)) = true →
              agree isStrict (propOf b key) (propOf (.obj t ps) key)))) := by
  unfold isEqualCb at h
  simp only at h
  by_cases hp : (isPrimitive (propOf (.obj t ps) key) || isPrimitive (propOf b key)) = true
  · simp only [hp, if_true] at h
    cases isStrict with
    | true =>
      simp only [if_true] at h
      cases he : strictEq (propOf b key) (propOf (.obj t ps) key) with
      | true =>
        simp only [he, Bool.not_true, Bool.false_eq_true, if_false, Except.ok.injEq,
          Prod.mk.injEq] at h
        obtain ⟨rfl, rfl, rfl⟩ := h
        exact ⟨rfl, Or.inr ⟨rfl, rfl, fun _ => by simp [agree, he]⟩⟩
      | false =>
        simp only [he, Bool.not_false, if_true, Except.ok.injEq, Prod.mk.injEq] at h
        obtain ⟨rfl, rfl, rfl⟩ := h
        exact ⟨rfl, Or.inl ⟨rfl, rfl⟩⟩
    | false =>
      simp only [Bool.false_eq_true, if_false] at h
      cases he : looseEq (propOf b key) (propOf (.obj t ps) key) with
      | none => simp [he] at h
      | some e =>
        cases e with
        | true =>
          simp only [he, Bool.not_true, Bool.false_eq_true, if_false, Except.ok.injEq,
            Prod.mk.injEq] at h
          obtain ⟨rfl, rfl, rfl⟩ := h
          exact ⟨rfl, Or.inr ⟨rfl, rfl, fun _ => by simp [agree, he]⟩⟩
        | false =>
          simp only [he, Bool.not_false, if_true, Except.ok.injEq, Prod.mk.injEq] at h
          obtain ⟨rfl, rfl, rfl⟩ := h
          exact ⟨rfl, Or.inl ⟨rfl, rfl⟩⟩
  · simp only [hp, Bool.false_eq_true, if_false, Except.ok.injEq, Prod.mk.injEq] at h
    obtain ⟨rfl, rfl, rfl⟩ := h
    exact ⟨rfl, Or.inr ⟨rfl, rfl, fun hc => absurd hc hp⟩⟩

theorem returnsOnObjects_isEqualCb_strict : ReturnsOnObjects (isEqualCb true) := by
  intro s t ps b key path
  unfold isEqualCb
  simp only [if_true]
  split
  · split
    · exact ⟨_, _, _, rfl⟩
    · exact ⟨_, _, _, rfl⟩
  · exact ⟨_, _, _, rfl⟩

/-- The walk of `isEqual` that returns: `a` is unchanged, `equal` stays `false` once it is,
and if it is `true` at the end every leaf under a key of `b` passed the comparison. -/
theorem isEqual_walk (isStrict : Bool) (b : Val) : wf b = true → isIterable b = true →
    ∀ (a : Val) (path : List String) (s s2 : Bool) (a2 : Val), isIterable a = true →
    deepIt (isEqualCb isStrict) s a b path = .ok (s2, a2) →
    a2 = a ∧ (s = false → s2 = false) ∧ (s2 = true → AgreeBelow isStrict a b) := by
  induction b using Val.induct_aux with
  | hleaf v hv =>
    intro _ hi
    obtain ⟨t, ps, rfl, _⟩ := isIterable_obj hi
    exact absurd rfl (hv t ps)
  | hobj tb psb ih =>
    intro hwf hib a path s s2 a2 hia hrun
    obtain ⟨t, ps, rfl, _⟩ := isIterable_obj hia
    rw [wf_obj] at hwf
    rw [deepIt_obj] at hrun
    have key_lemma : ∀ keys : Props, (∀ e ∈ keys, e ∈ psb) → ∀ (s s2 : Bool) (a2 : Val),
        deepItKeys (isEqualCb isStrict) s (.obj t ps) (.obj tb psb) keys path = .ok (s2, a2) →
        a2 = .obj t ps ∧ (s = false → s2 = false)
          ∧ (s2 = true → ∀ e ∈ keys,
              ((isPrimitive (propOf (.obj t ps) e.1) || isPrimitive e.2) = true →
                agree isStrict e.2 (propOf (.obj t ps) e.1))
              ∧ (isIterable e.2 = true → isIterable (propOf (.obj t ps) e.1) = true →
                AgreeBelow isStrict (propOf (.obj t ps) e.1) e.2)) := by
      intro keys
      induction keys with
      | nil =>
        intro _ s s2 a2 h
        rw [deepItKeys_nil] at h
        simp only [Except.ok.injEq, Prod.mk.injEq] at h
        obtain ⟨rfl, rfl⟩ := h
        exact ⟨rfl, fun h => h, fun _ e he => by cases he⟩
      | cons e0 rest ihk =>
        obtain ⟨key, bv⟩ := e0
        intro hsub s s2 a2 h
        have hmem : (key, bv) ∈ psb := hsub _ (List.mem_cons_self _ _)
        obtain ⟨hlb, hwfv⟩ := wfProps_mem psb hwf _ hmem
        simp only at hlb hwfv
        have hpb : propOf (.obj tb psb) key = bv := propOf_of_ownLookup hlb
        have hrest := ihk (fun e he => hsub e (List.mem_cons_of_mem _ he))
        obtain ⟨s1, a1, r, hc, hcases⟩ := deepItKeys_cons_ok _ _ _ _ _ _ _ _ _ _ h
        obtain ⟨rfl, hvis⟩ := isEqualCb_inv isStrict s t ps _ key path s1 _ r hc
        rw [commit_self] at hcases
        rw [hpb] at hvis
        rcases hcases with ⟨hr, rfl, rfl⟩ | ⟨hr, hibv, hiak, s3, ak2, hd, hrun2⟩
          | ⟨hr, hno, _, hrun2⟩
        · -- the loop is left
          rcases hvis with ⟨_, rfl⟩ | ⟨rfl, _, _⟩
          · exact ⟨rfl, fun _ => rfl, fun h => absurd h (by simp)⟩
          · exact absurd hr (by simp [isExactlyFalse])
        · -- the walk goes below the key
          rcases hvis with ⟨rfl, _⟩ | ⟨_, rfl, hag⟩
          · exact absurd hr (by simp [isExactlyFalse])
          · obtain ⟨rfl, hm1, hn1⟩ := ih _ hmem hwfv hibv _ _ _ _ _ hiak hd
            rw [store_self _ _ _ (ownLookup_of_isIterable_propOf hiak)] at hrun2
            obtain ⟨rfl, hm2, hn2⟩ := hrest _ _ _ hrun2
            refine ⟨rfl, fun hs => hm2 (hm1 hs), fun hs2 e he => ?_⟩
            have hs3 : s3 = true := by
              cases h3 : s3 with
              | true => rfl
              | false => rw [hm2 h3] at hs2; exact absurd hs2 (by simp)
            rcases List.mem_cons.1 he with rfl | he2
            · exact ⟨hag, fun _ _ => hn1 hs3⟩
            · exact hn2 hs2 e he2
        · -- the walk stays above the key
          rcases hvis with ⟨rfl, _⟩ | ⟨_, rfl, hag⟩
          · exact absurd hr (by simp [isExactlyFalse])
          · obtain ⟨rfl, hm2, hn2⟩ := hrest _ _ _ hrun2
            refine ⟨rfl, hm2, fun hs2 e he => ?_⟩
            rcases List.mem_cons.1 he with rfl | he2
            · refine ⟨hag, fun h1 h2 => ?_⟩
              simp only at h1 h2
              rw [h1, h2] at hno
              exact absurd hno (by simp)
            · exact hn2 hs2 e he2
    obtain ⟨rfl, hm, hn⟩ := key_lemma psb (fun e he => he) s s2 a2 hrun
    refine ⟨rfl, hm, fun hs2 => ?_⟩
    have hgood := hn hs2
    intro q k na nb hwa hwb hina hinb hk hleaf
    cases q with
    | nil =>
      simp only [getWalk, Option.some.injEq] at hwa hwb
      subst hwa; subst hwb
      obtain ⟨pre, bv, post, _, _, _, hlb⟩ := wfProps_split psb hwf k hk
      have hpb : propOf (.obj tb psb) k = bv := propOf_of_ownLookup hlb
      rw [hpb] at hleaf ⊢
      exact (hgood _ (mem_of_ownLookup psb k bv hlb)).1 hleaf
    | cons k1 q2 =>
      obtain ⟨_, _, hwa2⟩ := getWalk_cons_some hwa
      obtain ⟨_, _, hwb2⟩ := getWalk_cons_some hwb
      have hia1 : isIterable (propOf (.obj t ps) k1) = true := getWalk_isIterable hwa2 hina
      have hib1 : isIterable (propOf (.obj tb psb) k1) = true := getWalk_isIterable hwb2 hinb
      have hlb := ownLookup_of_isIterable_propOf hib1
      have hmem := mem_of_ownLookup psb k1 _ hlb
      exact (hgood _ hmem).2 hib1 hia1 q2 k na nb hwa2 hwb2 hina hinb hk hleaf

/-- The function `isEqual` sees a difference under a key of `y`: when a path resolves to a
container in `x` and in `y`, an own key of the container of `y` holds a primitive on one side
at least, and the two values fail the comparison, `isEqual` returns `false` under the strict
comparison, and returns nothing but `false` under the loose one. -/
theorem isEqual_reports_difference (x y : Val) (isStrict : Bool) (q : List String)
    (k : String) (nx ny : Val) (hx : isIterable x = true) (hy : isIterable y = true)
    (hwf : wf y = true) (hqx : get x (.keys q) false = hitArr nx)
    (hnx : isIterable nx = true) (hqy : get y (.keys q) false = hitArr ny)
    (hny : isIterable ny = true) (hk : hasOwn (propsOf ny) k = true)
    (hleaf : (isPrimitive (propOf nx k) || isPrimitive (propOf ny k)) = true)
    (hdiff : ¬ agree isStrict (propOf ny k) (propOf nx k)) :
    (isStrict = true → isEqual x y isStrict = .ok false)
      ∧ (∀ e, isEqual x y isStrict = .ok e → e = false) := by
  have hpx : isPrimitive x = false := isIterable_not_isPrimitive hx
  have hpy : isPrimitive y = false := isIterable_not_isPrimitive hy
  have hall : ∀ e, isEqual x y isStrict = .ok e → e = false := by
    intro e he
    unfold isEqual at he
    simp only [hpx, hpy, Bool.or_self, Bool.false_eq_true, if_false] at he
    split at he
    · cases he
    · rename_i s2 a2 hrun
      simp only [Except.ok.injEq] at he
      subst he
      obtain ⟨_, _, hn⟩ := isEqual_walk isStrict y hwf hy x [] true s2 a2 hx hrun
      cases hs : s2 with
      | false => rfl
      | true =>
        exact absurd (hn hs q k nx ny ((get_hit_iff _ (.keys q) _).1 hqx)
          ((get_hit_iff _ (.keys q) _).1 hqy) hnx hny hk hleaf) hdiff
  refine ⟨fun hst => ?_, hall⟩
  subst hst
  obtain ⟨t, ps, rfl, _⟩ := isIterable_obj hx
  obtain ⟨s2, a2, hrun⟩ := deepIt_returns (isEqualCb true) returnsOnObjects_isEqualCb_strict
    y [] true t ps
  have he : isEqual (.obj t ps) y true = .ok s2 := by
    unfold isEqual
    simp only [hpx, hpy, Bool.or_self, Bool.false_eq_true, if_false]
    rw [hrun]
  rw [he, hall s2 he]

end Objutil
